import Mathlib

/-!
The token-to-request compiler of hep, `internal/parse/parser.go`.

A shallow embedding of `parseKV`, `parseLiteral`, `parseHost`, `isMethod` and
`ParseCommand`, together with models of the library routines they call
(`regexp`, `encoding/json`, `gabs`, `net/http` header canonicalisation and
`net/url` query encoding).

Go strings are modelled as lists of characters (`Str`), i.e. as the code points
of a valid UTF-8 string.
-/

set_option exponentiation.threshold 2048

namespace Hep

/-- A Go string, as its list of code points. -/
abbrev Str := List Char

/-! ## The pattern `re` -/

/-- The character class `[^:=@]` of the key group. -/
def isKeyChar (c : Char) : Bool := !(c == ':' || c == '=' || c == '@')

/-- The class matched by `.` (no `s` flag): every character but the line feed. -/
def isDotChar (c : Char) : Bool := !(c == '\n')

/-- Greedy `X+` for a character class `X`, followed by the rest of the pattern `k`.
`acc` is what the loop has consumed so far.  After one more character of the class,
the longer match is tried first and the continuation only when that fails. -/
def plusClass {α : Type} (p : Char → Bool) (k : Str → Str → Option α) : Str → Str → Option α
  | _, [] => none
  | acc, c :: cs =>
    if p c then
      match plusClass p k (acc ++ [c]) cs with
      | some r => some r
      | none => k (acc ++ [c]) cs
    else none

/-- A literal alternative of the separator group followed by the rest of the pattern. -/
def litThen {α : Type} (l : Str) (k : Str → Str → Option α) (s : Str) : Option α :=
  if l.isPrefixOf s then k l (s.drop l.length) else none

/-- The group `((?:==)|(?::=)|(?:=)|(?::))`: the alternatives are tried in the order
they are written. -/
def sepAlt {α : Type} (k : Str → Str → Option α) (s : Str) : Option α :=
  match litThen ['=', '='] k s with
  | some r => some r
  | none =>
    match litThen [':', '='] k s with
    | some r => some r
    | none =>
      match litThen ['='] k s with
      | some r => some r
      | none => litThen [':'] k s

/-- The whole pattern `([^:=@]+)((?:==)|(?::=)|(?:=)|(?::))(.+)` matched at the start
of `s`; the result is the three groups. -/
def matchHere (s : Str) : Option (Str × Str × Str) :=
  plusClass isKeyChar
    (fun key r1 => sepAlt (fun sp r2 => plusClass isDotChar (fun v _ => some (key, sp, v)) [] r2) r1)
    [] s

/-- The groups of the leftmost match of `re` in `arg` (`re.FindStringSubmatch` without
the whole-match entry `g[0]`); `none` when the pattern matches nowhere. -/
def findSubmatch : Str → Option (Str × Str × Str)
  | [] => none
  | c :: cs =>
    match matchHere (c :: cs) with
    | some g => some g
    | none => findSubmatch cs

/-! ## JSON values (`interface{}` as produced by `encoding/json`) -/

/-- A `float64` other than NaN and the infinities: the value `± mant × 2 ^ exp` with
`mant` odd, or zero (`mant = 0`, `exp = 0`).  So 1 is `⟨false, 1, 0⟩`, 2 is
`⟨false, 1, 1⟩` and 100 is `⟨false, 25, 2⟩`. -/
structure Number where
  neg : Bool
  mant : Nat
  exp : Int
deriving DecidableEq

/-- The dynamic values of the program: a Go `string` is `str`, `float64` is `num`,
`[]interface{}` is `arr`, `map[string]interface{}` is `obj` (kept sorted by key,
one entry per key) and `nil` is `null`. -/
inductive JSON where
  | null
  | bool (b : Bool)
  | num (n : Number)
  | str (s : Str)
  | arr (xs : List JSON)
  | obj (ms : List (Str × JSON))

/-- The string order of Go (`<` on strings, byte-wise), on code points: for valid
UTF-8 the two orders agree. -/
def strLt : Str → Str → Bool
  | _, [] => false
  | [], _ :: _ => true
  | a :: as, b :: bs => if a.toNat < b.toNat then true else if a.toNat = b.toNat then strLt as bs else false

/-- The assignment `m[k] = v` on a map kept as a key-sorted association list. -/
def mapSet {β : Type} (k : Str) (v : β) : List (Str × β) → List (Str × β)
  | [] => [(k, v)]
  | (k', v') :: t =>
    if k = k' then (k, v) :: t
    else if strLt k k' then (k, v) :: (k', v') :: t
    else (k', v') :: mapSet k v t

/-- The lookup `m[k]`; `none` when the key is absent. -/
def mapGet {β : Type} (k : Str) : List (Str × β) → Option β
  | [] => none
  | (k', v') :: t => if k = k' then some v' else mapGet k t

/-! ## `json.Unmarshal` into an `interface{}` -/

/-- White space of the JSON scanner. -/
def isSpace (c : Char) : Bool := c == ' ' || c == '\t' || c == '\r' || c == '\n'

/-- Drops leading JSON white space. -/
def skipSpace : Str → Str
  | [] => []
  | c :: cs => if isSpace c then skipSpace cs else c :: cs

/-- Decimal digits. -/
def isDigit (c : Char) : Bool := decide (48 ≤ c.toNat) && decide (c.toNat ≤ 57)

/-- The number written by a run of decimal digits. -/
def digitsVal (ds : Str) : Nat := ds.foldl (fun a c => 10 * a + (c.toNat - 48)) 0

/-- Removes trailing decimal zeros of a mantissa, adjusting the exponent. -/
def stripZeros : Nat → Nat → Int → Nat × Int
  | 0, m, e => (m, e)
  | f + 1, m, e =>
    if m = 0 then (0, 0)
    else if m % 10 = 0 then stripZeros f (m / 10) (e + 1)
    else (m, e)

/-- The number of binary digits of `n`; the first argument bounds the recursion. -/
def bitLen : Nat → Nat → Nat
  | 0, _ => 0
  | f + 1, n => if n = 0 then 0 else bitLen f (n / 2) + 1

/-- Removes the factors 2 of a mantissa, adjusting the binary exponent. -/
def stripTwos : Nat → Nat → Int → Nat × Int
  | 0, m, e => (m, e)
  | f + 1, m, e =>
    if m = 0 then (0, 0)
    else if m % 2 = 0 then stripTwos f (m / 2) (e + 1)
    else (m, e)

/-- Quotient, remainder and divisor of the division of `num / den` by `2 ^ e`. -/
def divPow2 (num den : Nat) (e : Int) : Nat × Nat × Nat :=
  if 0 ≤ e then (num / (den * 2 ^ e.toNat), num % (den * 2 ^ e.toNat), den * 2 ^ e.toNat)
  else ((num * 2 ^ (-e).toNat) / den, (num * 2 ^ (-e).toNat) % den, den)

/-- The binary exponent of the last mantissa bit of the `float64` nearest to
`num / den > 0`: the quotient by `2 ^ e` has 53 bits, unless that takes `e` below the
exponent -1074 of the subnormal numbers. -/
def ulpExp (num den : Nat) : Int :=
  let e1 : Int := (bitLen num num : Int) - (bitLen den den : Int) - 52
  let e0 : Int := if (divPow2 num den e1).1 < 2 ^ 52 then e1 - 1 else e1
  if e0 < -1074 then -1074 else e0

/-- Rounding of a quotient `q` with remainder `rem` of a division by `d`: to nearest,
a tie to the even neighbour. -/
def roundHalfEven (q rem d : Nat) : Nat :=
  if d < 2 * rem ∨ (2 * rem = d ∧ q % 2 = 1) then q + 1 else q

/-- The `float64` nearest to `num / den` (`den > 0`), as `mant × 2 ^ exp` with `mant`
odd (`strconv.ParseFloat(s, 64)`, which rounds correctly); `none` when the nearest
value is infinite, which `ParseFloat` reports as a range error. -/
def nearestFloat (num den : Nat) : Option (Nat × Int) :=
  if num = 0 then some (0, 0)
  else if 0 ≤ ulpExp num den ∧
      2 ^ 1024 ≤
        roundHalfEven (divPow2 num den (ulpExp num den)).1 (divPow2 num den (ulpExp num den)).2.1
          (divPow2 num den (ulpExp num den)).2.2 * 2 ^ (ulpExp num den).toNat then none
  else
    some (stripTwos 64
      (roundHalfEven (divPow2 num den (ulpExp num den)).1 (divPow2 num den (ulpExp num den)).2.1
        (divPow2 num den (ulpExp num den)).2.2)
      (ulpExp num den))

/-- An optional sign in front of the exponent digits: whether it is `-`, and the rest. -/
def expSign : Str → Bool × Str
  | '-' :: r => (true, r)
  | '+' :: r => (false, r)
  | r => (false, r)

/-- The optional exponent part `[eE][+-]?[0-9]+` of a number; gives the exponent and
the rest of the input, `none` when an `e` is not followed by a well-formed exponent. -/
def scanExp : Str → Option (Int × Str)
  | [] => some (0, [])
  | c :: r =>
    if c == 'e' || c == 'E' then
      if (expSign r).2.takeWhile isDigit = [] then none
      else
        some (if (expSign r).1 then -(digitsVal ((expSign r).2.takeWhile isDigit) : Int)
              else (digitsVal ((expSign r).2.takeWhile isDigit) : Int),
              (expSign r).2.dropWhile isDigit)
    else some (0, c :: r)

/-- The optional fraction part `\.[0-9]+` of a number: its digits and the rest. -/
def scanFrac : Str → Option (Str × Str)
  | [] => some ([], [])
  | c :: r =>
    if c == '.' then
      if r.takeWhile isDigit = [] then none
      else some (r.takeWhile isDigit, r.dropWhile isDigit)
    else some ([], c :: r)

/-- The integer part `0|[1-9][0-9]*` of a number: its digits and the rest. -/
def scanInt : Str → Option (Str × Str)
  | [] => none
  | c :: r =>
    if c == '0' then some (['0'], r)
    else if isDigit c then some (c :: r.takeWhile isDigit, r.dropWhile isDigit)
    else none

/-- An optional minus sign in front of a number: whether it is there, and the rest. -/
def numSign : Str → Bool × Str
  | '-' :: r => (true, r)
  | r => (false, r)

/-- The number with integer digits `is`, fraction digits `fs` and exponent `e`, as
`convertNumber` gives it: the nearest `float64`, `none` when `ParseFloat` reports a
range error. -/
def mkNumber (neg : Bool) (is fs : Str) (e : Int) : Option Number :=
  match (if 0 ≤ e - (fs.length : Int) then
      nearestFloat (digitsVal (is ++ fs) * 10 ^ (e - (fs.length : Int)).toNat) 1
    else nearestFloat (digitsVal (is ++ fs)) (10 ^ (-(e - (fs.length : Int))).toNat)) with
  | none => none
  | some (m, x) => some ⟨neg, m, x⟩

/-- A JSON number literal at the head of the input; `none` for a malformed literal and
for one out of the `float64` range. -/
def scanNumber (s : Str) : Option (Number × Str) :=
  match scanInt (numSign s).2 with
  | none => none
  | some (is, s2) =>
    match scanFrac s2 with
    | none => none
    | some (fs, s3) =>
      match scanExp s3 with
      | none => none
      | some (e, s4) =>
        match mkNumber (numSign s).1 is fs e with
        | none => none
        | some n => some (n, s4)

/-- Value of a hexadecimal digit. -/
def hexVal (c : Char) : Option Nat :=
  if isDigit c then some (c.toNat - 48)
  else if decide (97 ≤ c.toNat) && decide (c.toNat ≤ 102) then some (c.toNat - 87)
  else if decide (65 ≤ c.toNat) && decide (c.toNat ≤ 70) then some (c.toNat - 55)
  else none

/-- Reads `\uXXXX` at the head of the input (`getu4`): the code unit and the rest. -/
def getu4 : Str → Option (Nat × Str)
  | '\\' :: 'u' :: a :: b :: c :: d :: r =>
    match hexVal a, hexVal b, hexVal c, hexVal d with
    | some x, some y, some z, some w => some (((x * 16 + y) * 16 + z) * 16 + w, r)
    | _, _, _, _ => none
  | _ => none

/-- The character of a `\u` escape `rr` followed by `next` (`unquote`): a surrogate
pair is combined, a lone surrogate becomes U+FFFD. -/
def unquoteU (rr : Nat) (next : Str) : Char × Str :=
  if 0xD800 ≤ rr ∧ rr < 0xE000 then
    match getu4 next with
    | some (rr1, r2) =>
      if rr < 0xDC00 ∧ 0xDC00 ≤ rr1 ∧ rr1 < 0xE000 then
        (Char.ofNat ((rr - 0xD800) * 1024 + (rr1 - 0xDC00) + 0x10000), r2)
      else (Char.ofNat 0xFFFD, next)
    | none => (Char.ofNat 0xFFFD, next)
  else (Char.ofNat rr, next)

/-- The character written by a one-letter escape `\e`, `none` for an invalid escape. -/
def simpleEscape (e : Char) : Option Char :=
  if e == '"' then some '"'
  else if e == '\\' then some '\\'
  else if e == '/' then some '/'
  else if e == 'b' then some (Char.ofNat 8)
  else if e == 'f' then some (Char.ofNat 12)
  else if e == 'n' then some '\n'
  else if e == 'r' then some '\r'
  else if e == 't' then some '\t'
  else none

/-- The body of a JSON string after its opening quote: the decoded string and what
follows the closing quote.  The first argument bounds the number of steps; the length
of the input plus one is enough, every step consuming a character. -/
def scanString : Nat → Str → Str → Option (Str × Str)
  | 0, _, _ => none
  | _ + 1, _, [] => none
  | f + 1, acc, c :: r =>
    if c == '"' then some (acc, r)
    else if c == '\\' then
      match r with
      | [] => none
      | e :: r1 =>
        if e == 'u' then
          match getu4 (c :: r) with
          | none => none
          | some (rr, r2) => scanString f (acc ++ [(unquoteU rr r2).1]) (unquoteU rr r2).2
        else
          match simpleEscape e with
          | some x => scanString f (acc ++ [x]) r1
          | none => none
    else if c.toNat < 32 then none
    else scanString f (acc ++ [c]) r

/-- The deepest nesting of arrays and objects the decoder accepts (`maxNestingDepth` in
`encoding/json`'s scanner). -/
def maxNestingDepth : Nat := 10000

mutual
/-- One JSON value at the head of the input (leading white space already skipped).
The first argument bounds the depth of the recursion; the second is the number of
arrays and objects that are open around the value.  Opening one more when
`maxNestingDepth` are open is the scanner's error "exceeded max depth". -/
def parseValue : Nat → Nat → Str → Option (JSON × Str)
  | 0, _, _ => none
  | _ + 1, _, [] => none
  | f + 1, d, c :: r =>
    if c == '"' then
      match scanString (r.length + 1) [] r with
      | some (s, r1) => some (JSON.str s, r1)
      | none => none
    else if c == '[' then
      if maxNestingDepth ≤ d then none
      else if (skipSpace r).head? = some ']' then some (JSON.arr [], (skipSpace r).tail)
      else parseElems f (d + 1) [] (skipSpace r)
    else if c == '{' then
      if maxNestingDepth ≤ d then none
      else if (skipSpace r).head? = some '}' then some (JSON.obj [], (skipSpace r).tail)
      else parseMembers f (d + 1) [] (skipSpace r)
    else if c == 't' then
      if "rue".toList.isPrefixOf r then some (JSON.bool true, r.drop 3) else none
    else if c == 'f' then
      if "alse".toList.isPrefixOf r then some (JSON.bool false, r.drop 4) else none
    else if c == 'n' then
      if "ull".toList.isPrefixOf r then some (JSON.null, r.drop 3) else none
    else
      match scanNumber (c :: r) with
      | some (n, r1) => some (JSON.num n, r1)
      | none => none
/-- The elements of an array after `[` or `,`, up to the closing bracket. -/
def parseElems : Nat → Nat → List JSON → Str → Option (JSON × Str)
  | 0, _, _, _ => none
  | f + 1, d, acc, s =>
    match parseValue f d s with
    | none => none
    | some (v, r) =>
      match skipSpace r with
      | [] => none
      | x :: r1 =>
        if x == ',' then parseElems f d (acc ++ [v]) (skipSpace r1)
        else if x == ']' then some (JSON.arr (acc ++ [v]), r1)
        else none
/-- The members of an object after `{` or `,`, up to the closing brace; a repeated key
overwrites the earlier entry, as assignment into the Go map does. -/
def parseMembers : Nat → Nat → List (Str × JSON) → Str → Option (JSON × Str)
  | 0, _, _, _ => none
  | _ + 1, _, _, [] => none
  | f + 1, d, acc, c :: r0 =>
    if c == '"' then
      match scanString (r0.length + 1) [] r0 with
      | none => none
      | some (k, r) =>
        match skipSpace r with
        | [] => none
        | x :: r1 =>
          if x == ':' then
            match parseValue f d (skipSpace r1) with
            | none => none
            | some (v, r2) =>
              match skipSpace r2 with
              | [] => none
              | d2 :: r3 =>
                if d2 == ',' then parseMembers f d (mapSet k v acc) (skipSpace r3)
                else if d2 == '}' then some (JSON.obj (mapSet k v acc), r3)
                else none
          else none
    else none
end

/-- The call `json.Unmarshal([]byte(v), &r)` for `var r interface{}`: the decoded value,
or `none` when it returns an error. -/
def unmarshal (v : Str) : Option JSON :=
  match parseValue (2 * v.length + 2) 0 (skipSpace v) with
  | some (j, r) => if skipSpace r = [] then some j else none
  | none => none

/-! ## `parseKV` and `parseLiteral` -/

/-- The kinds of argument (`argType`). -/
inductive argType where
  | headerArg
  | fieldArg
  | queryArg
  | jsonArg
deriving DecidableEq

/-- The result of `parseKV`. -/
structure KV where
  k : Str
  v : JSON
  kind : argType

/-- The function `parseLiteral`: the decoded JSON value, or the string itself when
`json.Unmarshal` reports an error. -/
def parseLiteral (v : Str) : JSON :=
  match unmarshal v with
  | some r => r
  | none => JSON.str v

/-- The function `parseKV`; `none` stands for `ok = false`.  A match always has its
three groups, so `len(g) != 4` is the no-match case. -/
def parseKV (arg : Str) : Option KV :=
  match findSubmatch arg with
  | none => none
  | some (k, sp, v) =>
    if sp = ['=', '='] then some { k := k, v := JSON.str v, kind := argType.queryArg }
    else if sp = [':'] then some { k := k, v := JSON.str v, kind := argType.headerArg }
    else if sp = [':', '='] then some { k := k, v := parseLiteral v, kind := argType.jsonArg }
    else if sp = ['='] then some { k := k, v := JSON.str v, kind := argType.fieldArg }
    else some { k := k, v := JSON.str v, kind := argType.headerArg }

/-! ## `parseHost` and `isMethod` -/

/-- The rewriting of the host specifier in `parseHost`, up to the call of `url.Parse`. -/
def normalizeHost (s : Str) : Str :=
  let s1 := if s = ":".toList ∨ s = "localhost".toList then "http://localhost/".toList else s
  let s2 := if ":".toList.isPrefixOf s1 then "http://localhost".toList ++ s1 else s1
  if !"http://".toList.isPrefixOf s2 && !"https://".toList.isPrefixOf s2 then "http://".toList ++ s2
  else s2

/-- The host rules written as four exclusive cases. -/
def hostCases (s : Str) : Str :=
  if s = ":".toList ∨ s = "localhost".toList then "http://localhost/".toList
  else if ":".toList.isPrefixOf s then "http://localhost".toList ++ s
  else if "http://".toList.isPrefixOf s ∨ "https://".toList.isPrefixOf s then s
  else "http://".toList ++ s

/-- The errors `ParseCommand` returns: the wrapped error of `url.Parse` and the
`ErrPathCollision` of `gabs`. -/
inductive Err (ε : Type) where
  | parseHost (e : ε)
  | pathCollision

/-- The function `parseHost`, over the library's `url.Parse`. -/
def parseHost {ε υ : Type} (urlParse : Str → Except ε υ) (s : Str) : Except (Err ε) υ :=
  match urlParse (normalizeHost s) with
  | Except.ok u => Except.ok u
  | Except.error e => Except.error (Err.parseHost e)

/-- The function `isMethod`. -/
def isMethod (s : Str) : Bool :=
  s = "GET".toList || s = "HEAD".toList || s = "POST".toList || s = "PUT".toList ||
  s = "PATCH".toList || s = "DELETE".toList || s = "CONNECT".toList ||
  s = "OPTIONS".toList || s = "TRACE".toList

/-! ## The accumulators: `http.Header`, `url.Values` and the `gabs` container -/

/-- The bytes allowed in a header field name (`validHeaderFieldByte`). -/
def validHeaderFieldByte (c : Char) : Bool :=
  c.isAlphanum || "!#$%&'*+-.^_`|~".toList.contains c

/-- Upper-cases the first letter and every letter after a dash, lower-cases the rest. -/
def canonLoop : Bool → Str → Str
  | _, [] => []
  | upper, c :: cs =>
    let c1 := if upper && c.isLower then c.toUpper else if !upper && c.isUpper then c.toLower else c
    c1 :: canonLoop (c1 == '-') cs

/-- The function `textproto.CanonicalMIMEHeaderKey`: a key with a space or an invalid
header byte is returned unchanged. -/
def canonicalMIMEHeaderKey (s : Str) : Str :=
  if s.all validHeaderFieldByte then canonLoop true s else s

/-- A multi-valued map (`map[string][]string`) kept sorted by key. -/
abbrev Values := List (Str × List Str)

/-- The method `url.Values.Add`: `v[key] = append(v[key], value)`. -/
def Values.Add (key value : Str) (m : Values) : Values :=
  mapSet key ((mapGet key m).getD [] ++ [value]) m

/-- The method `http.Header.Add`: the key is canonicalised first. -/
def Header.Add (key value : Str) (h : Values) : Values :=
  Values.Add (canonicalMIMEHeaderKey key) value h

/-- The call `strings.Split(path, ".")`, with the segment being built in `cur`. -/
def splitDotAux : Str → Str → List Str
  | cur, [] => [cur]
  | cur, c :: cs => if c == '.' then cur :: splitDotAux [] cs else splitDotAux (cur ++ [c]) cs

/-- The segments of a dot path. -/
def splitDot (path : Str) : List Str := splitDotAux [] path

/-- The child that the loop of `Set` continues with below a segment that is not the
last.  The library's loop reads
`else if mmap[path[target]] == nil { mmap[path[target]] = map[string]interface{}{} }`
and then `object = mmap[path[target]]`: an entry that is missing or `nil` is replaced
by a new empty map, every other entry is kept. -/
def childOrNew (seg : Str) (m : List (Str × JSON)) : JSON :=
  match mapGet seg m with
  | none => JSON.obj []
  | some JSON.null => JSON.obj []
  | some c => c

/-- The loop of `gabs.Container.Set` (library code, imported by `parser.go`) over the
remaining path segments, started at `object`.  In each round `object` must be a
`map[string]interface{}`, otherwise the method returns `ErrPathCollision` (`none`); at
the last segment it assigns `mmap[segment] = value`, at the others it descends into the
child.  The maps are updated in place; here the result is the updated `object`. -/
def setLoop (value : JSON) : List Str → JSON → Option JSON
  | [], o => some o
  | seg :: rest, JSON.obj m =>
    match rest with
    | [] => some (JSON.obj (mapSet seg value m))
    | _ :: _ =>
      match setLoop value rest (childOrNew seg m) with
      | some c => some (JSON.obj (mapSet seg c m))
      | none => none
  | _ :: _, _ => none

/-- The method `gabs.Container.Set(value, path...)` on the container's object `g`: with
an empty path the object becomes `value`; a `nil` object is first replaced by an empty
map. -/
def Container.Set (value : JSON) (path : List Str) (g : JSON) : Option JSON :=
  match path with
  | [] => some value
  | _ :: _ =>
    match g with
    | JSON.null => setLoop value path (JSON.obj [])
    | _ => setLoop value path g

/-- The method `gabs.Container.SetP(value, path)`. -/
def Container.SetP (value : JSON) (path : Str) (g : JSON) : Option JSON :=
  Container.Set value (splitDot path) g

/-- The value a tree holds at a nested path of object keys. -/
def lookupPath : List Str → JSON → Option JSON
  | [], j => some j
  | seg :: rest, JSON.obj m =>
    match mapGet seg m with
    | some c => lookupPath rest c
    | none => none
  | _ :: _, _ => none

/-! ## Serialisation: `EncodeJSON` and `url.Values.Encode` -/

/-- Lower-case hexadecimal digit. -/
def hexDigit (n : Nat) : Char := if n < 10 then Char.ofNat (48 + n) else Char.ofNat (87 + n)

/-- Upper-case hexadecimal digit. -/
def hexDigitUpper (n : Nat) : Char := if n < 10 then Char.ofNat (48 + n) else Char.ofNat (55 + n)

/-- One character of a string in the encoder's output (HTML escaping is off in
`EncodeJSON`).  Backspace and form feed are written `\b` and `\f`, as `encoding/json`
does since Go 1.22 (earlier versions wrote `\u0008` and `\u000c`); the other control
characters without a short escape are written `\u00XX`. -/
def encodeChar (c : Char) : Str :=
  if c == '"' then ['\\', '"']
  else if c == '\\' then ['\\', '\\']
  else if c.toNat = 8 then ['\\', 'b']
  else if c.toNat = 12 then ['\\', 'f']
  else if c == '\n' then ['\\', 'n']
  else if c == '\r' then ['\\', 'r']
  else if c == '\t' then ['\\', 't']
  else if c.toNat < 32 then ['\\', 'u', '0', '0', hexDigit (c.toNat / 16), hexDigit (c.toNat % 16)]
  else if c.toNat = 0x2028 then "\\u2028".toList
  else if c.toNat = 0x2029 then "\\u2029".toList
  else [c]

/-- A quoted JSON string. -/
def encodeString (s : Str) : Str := ['"'] ++ (s.map encodeChar).flatten ++ ['"']

/-- The 53-bit mantissa of the `float64` `m × 2 ^ x` (`m` odd) and the exponent of its
last bit; a subnormal number has a shorter mantissa at the exponent -1074. -/
def mantBits (m : Nat) (x : Int) : Nat × Int :=
  if x - (53 - (bitLen m m : Int)) < -1074 then (m * 2 ^ (x + 1074).toNat, -1074)
  else (m * 2 ^ (53 - (bitLen m m : Int)).toNat, x - (53 - (bitLen m m : Int)))

/-- The search of `strconv`'s shortest formatting (`roundShortest`).  `v` is the value
and `lo`, `up` are the ends of the interval of the numbers that round to it, all three
in units of `2 ^ s`; `incl` tells whether the ends belong to the interval.  The decimal
positions `p` are tried from high to low: the value cut at `10 ^ p`, or that plus
`10 ^ p`, is taken as soon as one of them lies in the interval (the nearer one, a tie to
the even digit, when both do).  The result is the digits as a number and `p`. -/
def shortestLoop (v lo up : Nat) (s : Int) (incl : Bool) : Nat → Int → Nat × Int
  | 0, p => (0, p)
  | f + 1, p =>
    let vn := v * 2 ^ s.toNat * 10 ^ (-p).toNat
    let ln := lo * 2 ^ s.toNat * 10 ^ (-p).toNat
    let un := up * 2 ^ s.toNat * 10 ^ (-p).toNat
    let t := 10 ^ p.toNat * 2 ^ (-s).toNat
    let down := vn / t
    let okdown : Bool := decide (ln < down * t) || (incl && decide (down * t = ln))
    let okup : Bool := decide ((down + 1) * t < un) || (incl && decide ((down + 1) * t = un))
    if okdown && okup then
      (if t < 2 * (vn % t) ∨ (2 * (vn % t) = t ∧ down % 2 = 1) then (down + 1, p) else (down, p))
    else if okdown then (down, p)
    else if okup then (down + 1, p)
    else shortestLoop v lo up s incl f (p - 1)

/-- The shortest decimal `d × 10 ^ p` that reads back as the `float64` `m × 2 ^ x` (`m`
odd, not zero), with `d` free of trailing zeros.  With 53-bit mantissa `q` at exponent
`e`, the interval ends half way to the next `float64` above and below; the one below
is nearer when `q` is `2 ^ 52` and `e` is not the least exponent. -/
def shortest (m : Nat) (x : Int) : Nat × Int :=
  let q := (mantBits m x).1
  let e := (mantBits m x).2
  let lo := if 2 ^ 52 < q ∨ e = -1074 then 4 * q - 2 else 4 * q - 1
  let start : Nat :=
    (Nat.toDigits 10 ((4 * q + 2) * 2 ^ (e - 2).toNat / 2 ^ (-(e - 2)).toNat)).length
  let r := shortestLoop (4 * q) lo (4 * q + 2) (e - 2) (decide (q % 2 = 0)) (start + 1080) start
  stripZeros 20 r.1 r.2

/-- The decimal `± mant × 10 ^ exp` in the layout of the encoder: plain decimal notation
for magnitudes in `[1e-6, 1e21)`, exponent notation outside. -/
def encodeDigits (neg : Bool) (mant : Nat) (exp : Int) : Str :=
  let ds := Nat.toDigits 10 mant
  let sign : Str := if neg then ['-'] else []
  let x : Int := exp + (ds.length : Int) - 1
  if mant = 0 then sign ++ ['0']
  else if x < -6 ∨ 21 ≤ x then
    let frac : Str := if ds.length ≤ 1 then [] else '.' :: ds.drop 1
    let xs := Nat.toDigits 10 x.natAbs
    let ex : Str := if x < 0 then '-' :: xs else '+' :: (if xs.length < 2 then '0' :: xs else xs)
    sign ++ ds.take 1 ++ frac ++ ['e'] ++ ex
  else if 0 ≤ exp then sign ++ ds ++ List.replicate exp.toNat '0'
  else if (-exp).toNat < ds.length then
    sign ++ ds.take (ds.length - (-exp).toNat) ++ ['.'] ++ ds.drop (ds.length - (-exp).toNat)
  else sign ++ ['0', '.'] ++ List.replicate ((-exp).toNat - ds.length) '0' ++ ds

/-- A `float64` as the encoder writes it: the shortest digits that read back as the
same `float64`. -/
def encodeNumber (n : Number) : Str :=
  encodeDigits n.neg (shortest n.mant n.exp).1 (shortest n.mant n.exp).2

mutual
/-- The JSON text of a value (`json.Encoder.Encode` without the final line feed). -/
def encodeJSON : JSON → Str
  | JSON.null => "null".toList
  | JSON.bool true => "true".toList
  | JSON.bool false => "false".toList
  | JSON.num n => encodeNumber n
  | JSON.str s => encodeString s
  | JSON.arr xs => ['['] ++ encodeElems xs ++ [']']
  | JSON.obj ms => ['{'] ++ encodeMembers ms ++ ['}']
/-- The elements of an array, separated by commas. -/
def encodeElems : List JSON → Str
  | [] => []
  | [x] => encodeJSON x
  | x :: y :: r => encodeJSON x ++ [','] ++ encodeElems (y :: r)
/-- The members of an object, in key order, separated by commas. -/
def encodeMembers : List (Str × JSON) → Str
  | [] => []
  | [(k, v)] => encodeString k ++ [':'] ++ encodeJSON v
  | (k, v) :: y :: r => encodeString k ++ [':'] ++ encodeJSON v ++ [','] ++ encodeMembers (y :: r)
end

/-- The UTF-8 bytes of a character. -/
def utf8 (c : Char) : List Nat :=
  let n := c.toNat
  if n < 0x80 then [n]
  else if n < 0x800 then [0xC0 + n / 64, 0x80 + n % 64]
  else if n < 0x10000 then [0xE0 + n / 4096, 0x80 + n / 64 % 64, 0x80 + n % 64]
  else [0xF0 + n / 262144, 0x80 + n / 4096 % 64, 0x80 + n / 64 % 64, 0x80 + n % 64]

/-- The function `url.QueryEscape` on one character. -/
def queryEscapeChar (c : Char) : Str :=
  if c.isAlphanum || c == '-' || c == '_' || c == '.' || c == '~' then [c]
  else if c == ' ' then ['+']
  else ((utf8 c).map (fun b => ['%', hexDigitUpper (b / 16), hexDigitUpper (b % 16)])).flatten

/-- The function `url.QueryEscape`. -/
def queryEscape (s : Str) : Str := (s.map queryEscapeChar).flatten

/-- The method `url.Values.Encode`: `key=value` pairs in key order, joined by `&`. -/
def Values.Encode (m : Values) : Str :=
  List.intercalate ['&']
    ((m.map (fun kv => kv.2.map (fun v => queryEscape kv.1 ++ ['='] ++ queryEscape v))).flatten)

/-! ## `ParseCommand` -/

/-- The request built by `ParseCommand`: the fields of `http.Request` it sets.  `URL`
is the value `parseHost` returned and `RawQuery` the `RawQuery` written into it. -/
structure Request (υ : Type) where
  Method : Str
  URL : υ
  RawQuery : Str
  Header : Values
  Body : Str

/-- What a call of `ParseCommand` does: it returns its two results `(r, err)`, or the
goroutine panics. -/
inductive Outcome (ε υ : Type) where
  | ret (r : Option (Request υ)) (err : Option (Err ε))
  | panic

/-- The variables the loop of `ParseCommand` updates: the query values `q`, the
container `fields`, the headers `h`, and what was sent on the channel `unknown`. -/
structure Acc where
  q : Values
  fields : JSON
  h : Values
  unknown : List Str

/-- The state before the loop: `url.Values{}`, `gabs.New()`, `http.Header{}`. -/
def Acc.init : Acc := { q := [], fields := JSON.obj [], h := [], unknown := [] }

/-- How one iteration of the loop ends. -/
inductive Step where
  | next (a : Acc)
  | fail
  | panic

/-- One iteration of the loop `for _, arg := range args`.  `fail` is the `return` taken
when `SetP` reports `ErrPathCollision`; `panic` is a failed type assertion
`kv.v.(string)`. -/
def loopBody (a : Acc) (arg : Str) : Step :=
  if arg = [] then Step.next a
  else
    match parseKV arg with
    | none => Step.next { a with unknown := a.unknown ++ [arg] }
    | some kv =>
      match kv.kind with
      | argType.fieldArg | argType.jsonArg =>
        match Container.SetP kv.v kv.k a.fields with
        | some t => Step.next { a with fields := t }
        | none => Step.fail
      | argType.headerArg =>
        match kv.v with
        | JSON.str s => Step.next { a with h := Header.Add kv.k s a.h }
        | _ => Step.panic
      | argType.queryArg =>
        match kv.v with
        | JSON.str s => Step.next { a with q := Values.Add kv.k s a.q }
        | _ => Step.panic

/-- The loop over the remaining arguments. -/
def loop : Acc → List Str → Step
  | a, [] => Step.next a
  | a, arg :: rest =>
    match loopBody a arg with
    | Step.next a1 => loop a1 rest
    | Step.fail => Step.fail
    | Step.panic => Step.panic

/-- The part of `ParseCommand` after the method and the URL are known: the loop, then
`http.NewRequest(method, path, b)` (which cannot fail: `path` is the empty string and
`method` is a valid method name) and the three assignments to the request. -/
def assemble {ε υ : Type} (method : Str) (uri : υ) (args : List Str) : Outcome ε υ :=
  match loop Acc.init args with
  | Step.next a =>
    Outcome.ret
      (some { Method := method, URL := uri, RawQuery := Values.Encode a.q, Header := a.h,
              Body := encodeJSON a.fields })
      none
  | Step.fail => Outcome.ret none (some Err.pathCollision)
  | Step.panic => Outcome.panic

/-- The function `ParseCommand`, over the library's `url.Parse`.  Indexing `args[0]` or
`args[1]` out of range panics. -/
def ParseCommand {ε υ : Type} (urlParse : Str → Except ε υ) (args : List Str) : Outcome ε υ :=
  match args with
  | [] => Outcome.panic
  | uriOrMethod :: rest =>
    if isMethod uriOrMethod then
      match rest with
      | [] => Outcome.panic
      | host :: rest2 =>
        match parseHost urlParse host with
        | Except.error e => Outcome.ret none (some e)
        | Except.ok uri => assemble uriOrMethod uri rest2
    else
      match parseHost urlParse uriOrMethod with
      | Except.error e => Outcome.ret none (some e)
      | Except.ok uri => assemble "GET".toList uri rest

/-! ## Notions used to state the properties -/

/-- The standard method names, as `isMethod` lists them. -/
def methodNames : List Str :=
  ["GET".toList, "HEAD".toList, "POST".toList, "PUT".toList, "PATCH".toList, "DELETE".toList,
   "CONNECT".toList, "OPTIONS".toList, "TRACE".toList]

/-- The tokens after the method and host tokens: `args[2:]` when the first token is a
method name, `args[1:]` otherwise. -/
def restArgs : List Str → List Str
  | [] => []
  | first :: rest => if isMethod first then rest.drop 1 else rest

/-- The host token: `args[1]` when the first token is a method name, `args[0]`
otherwise; `none` when that token is missing. -/
def hostArg : List Str → Option Str
  | [] => none
  | first :: rest => if isMethod first then rest.head? else some first

/-- The method of the request: the first token when it is a method name, GET otherwise. -/
def methodArg : List Str → Str
  | [] => "GET".toList
  | first :: _ => if isMethod first then first else "GET".toList

/-- The string values, in the order of the tokens, of the tokens that `parseKV`
classifies with the given kind and whose key satisfies `p`. -/
def valuesOf (kind : argType) (p : Str → Bool) (toks : List Str) : List Str :=
  toks.filterMap (fun t =>
    match parseKV t with
    | some kv =>
      if kv.kind = kind ∧ p kv.k = true then
        match kv.v with
        | JSON.str s => some s
        | _ => none
      else none
    | none => none)

/-- A multi-valued map `m` holds exactly the lists `L`: a key is present exactly
when its list is not empty. -/
def Holds (m : Values) (L : Str → List Str) : Prop :=
  ∀ n, mapGet n m = if L n = [] then none else some (L n)

/-- Two states of the loop agree on what goes into the request: the query values, the
field tree and the headers. -/
def sameCore (a b : Acc) : Prop := a.q = b.q ∧ a.fields = b.fields ∧ a.h = b.h

/-- Two iterations end the same way, with states that agree on what goes into the
request. -/
def sameStep : Step → Step → Prop
  | Step.next a, Step.next b => sameCore a b
  | Step.fail, Step.fail => True
  | Step.panic, Step.panic => True
  | _, _ => False

/-- The query values after the `==` tokens of a token list have been added, in order,
to `q`. -/
def queryOf (q : Values) (toks : List Str) : Values :=
  toks.foldl (fun q t =>
    match parseKV t with
    | some kv =>
      if kv.kind = argType.queryArg then
        match kv.v with
        | JSON.str s => Values.Add kv.k s q
        | _ => q
      else q
    | none => q) q

/-- The tokens that reach the classifier and that it does not match. -/
def unmatched (toks : List Str) : List Str :=
  toks.filter (fun t => decide (t ≠ []) && (parseKV t).isNone)

/-- What the loop of `Set` stores under a segment followed by the segments `rest`: the
value itself at the end of the path, the updated child otherwise. -/
def placed (value : JSON) (rest : List Str) (child : JSON) : Option JSON :=
  match rest with
  | [] => some value
  | _ :: _ => setLoop value rest child

/-- The separators in the order the pattern tries them. -/
def separators : List Str := [['=', '='], [':', '='], ['='], [':']]

/-- The alternative `alt` fits at the head of `rest`: it stands there and a character
other than the line feed follows it. -/
def sepFits (alt rest : Str) : Bool :=
  alt.isPrefixOf rest && !((rest.drop alt.length).takeWhile isDotChar).isEmpty

/-- The pattern matches at the very start of `s`: a character other than `:`, `=`, `@`
stands there, and some separator fits right after the run of such characters. -/
def startsMatch (s : Str) : Bool :=
  !(s.takeWhile isKeyChar).isEmpty &&
    separators.any (fun alt => sepFits alt (s.dropWhile isKeyChar))

/-- The keys of an association list increase strictly from entry to entry (so no key
occurs twice). -/
def keysIncreasing {β : Type} (m : List (Str × β)) : Prop :=
  List.Pairwise (fun a b => strLt a.1 b.1 = true) m

/-! ## The JSON decoder: the bounds on its recursion are never reached -/

theorem skipSpace_length (s : Str) : (skipSpace s).length ≤ s.length := by
  induction s with
  | nil => simp [skipSpace]
  | cons c cs ih =>
    simp only [skipSpace]
    split
    · simp only [List.length_cons]; omega
    · exact Nat.le_refl _

theorem getu4_length (s r : Str) (n : Nat) (h : getu4 s = some (n, r)) : r.length < s.length := by
  unfold getu4 at h
  split at h
  · split at h
    · simp only [Option.some.injEq, Prod.mk.injEq] at h
      rw [← h.2]
      simp only [List.length_cons]
      omega
    · simp at h
  · simp at h

theorem unquoteU_length (rr : Nat) (next : Str) : (unquoteU rr next).2.length ≤ next.length := by
  unfold unquoteU
  split
  · split
    · rename_i rr1 r2 hg
      have := getu4_length _ _ _ hg
      split
      · simp only; omega
      · simp
    · simp
  · simp

theorem scanString_succ_cons (f : Nat) (acc : Str) (c : Char) (r : Str) :
    scanString (f + 1) acc (c :: r) =
      if c == '"' then some (acc, r)
      else if c == '\\' then
        match r with
        | [] => none
        | e :: r1 =>
          if e == 'u' then
            match getu4 (c :: r) with
            | none => none
            | some (rr, r2) => scanString f (acc ++ [(unquoteU rr r2).1]) (unquoteU rr r2).2
          else
            match simpleEscape e with
            | some x => scanString f (acc ++ [x]) r1
            | none => none
      else if c.toNat < 32 then none
      else scanString f (acc ++ [c]) r := rfl

theorem scanString_length : ∀ (f : Nat) (acc s x r : Str),
    scanString f acc s = some (x, r) → r.length < s.length := by
  intro f
  induction f with
  | zero => intro acc s x r h; simp [scanString] at h
  | succ f ih =>
    intro acc s x r h
    cases s with
    | nil => simp [scanString] at h
    | cons c t =>
      rw [scanString_succ_cons] at h
      by_cases h1 : (c == '"') = true
      · rw [if_pos h1] at h
        simp only [Option.some.injEq, Prod.mk.injEq] at h
        rw [← h.2]; simp
      · rw [if_neg h1] at h
        by_cases h2 : (c == '\\') = true
        · rw [if_pos h2] at h
          cases t with
          | nil => simp at h
          | cons e r1 =>
            simp only at h
            by_cases h3 : (e == 'u') = true
            · rw [if_pos h3] at h
              cases hg : getu4 (c :: e :: r1) with
              | none => simp [hg] at h
              | some p =>
                obtain ⟨rr, r2⟩ := p
                simp only [hg] at h
                have e1 := ih _ _ _ _ h
                have e2 := unquoteU_length rr r2
                have e3 := getu4_length _ _ _ hg
                omega
            · rw [if_neg h3] at h
              cases hs : simpleEscape e with
              | none => simp [hs] at h
              | some y =>
                simp only [hs] at h
                have := ih _ _ _ _ h
                simp only [List.length_cons]; omega
        · rw [if_neg h2] at h
          by_cases h3 : c.toNat < 32
          · rw [if_pos h3] at h; simp at h
          · rw [if_neg h3] at h
            have := ih _ _ _ _ h
            simp only [List.length_cons]; omega


theorem dropWhile_length_le (p : Char → Bool) (s : Str) : (s.dropWhile p).length ≤ s.length :=
  (List.dropWhile_sublist p).length_le

theorem scanInt_length (s is r : Str) (h : scanInt s = some (is, r)) : r.length < s.length := by
  cases s with
  | nil => simp [scanInt] at h
  | cons c t =>
    simp only [scanInt] at h
    split at h
    · simp only [Option.some.injEq, Prod.mk.injEq] at h
      rw [← h.2]; simp
    · split at h
      · simp only [Option.some.injEq, Prod.mk.injEq] at h
        rw [← h.2]
        have := dropWhile_length_le isDigit t
        simp only [List.length_cons]; omega
      · simp at h


theorem scanFrac_length (s fs r : Str) (h : scanFrac s = some (fs, r)) : r.length ≤ s.length := by
  cases s with
  | nil =>
    simp only [scanFrac, Option.some.injEq, Prod.mk.injEq] at h
    rw [← h.2]
  | cons c t =>
    simp only [scanFrac] at h
    split at h
    · split at h
      · simp at h
      · simp only [Option.some.injEq, Prod.mk.injEq] at h
        rw [← h.2]
        have := dropWhile_length_le isDigit t
        simp only [List.length_cons]; omega
    · simp only [Option.some.injEq, Prod.mk.injEq] at h
      rw [← h.2]

theorem expSign_length (s : Str) : (expSign s).2.length ≤ s.length := by
  unfold expSign
  split <;> simp

theorem numSign_length (s : Str) : (numSign s).2.length ≤ s.length := by
  unfold numSign
  split <;> simp

theorem scanExp_length (s r : Str) (e : Int) (h : scanExp s = some (e, r)) :
    r.length ≤ s.length := by
  cases s with
  | nil =>
    simp only [scanExp, Option.some.injEq, Prod.mk.injEq] at h
    rw [← h.2]
  | cons c t =>
    simp only [scanExp] at h
    split at h
    · split at h
      · simp at h
      · simp only [Option.some.injEq, Prod.mk.injEq] at h
        rw [← h.2]
        have h1 := dropWhile_length_le isDigit (expSign t).2
        have h2 := expSign_length t
        simp only [List.length_cons]; omega
    · simp only [Option.some.injEq, Prod.mk.injEq] at h
      rw [← h.2]

theorem scanNumber_length (s r : Str) (n : Number) (h : scanNumber s = some (n, r)) :
    r.length < s.length := by
  unfold scanNumber at h
  cases h1 : scanInt (numSign s).2 with
  | none => simp [h1] at h
  | some p1 =>
    obtain ⟨is, s2⟩ := p1
    simp only [h1] at h
    cases h2 : scanFrac s2 with
    | none => simp [h2] at h
    | some p2 =>
      obtain ⟨fs, s3⟩ := p2
      simp only [h2] at h
      cases h3 : scanExp s3 with
      | none => simp [h3] at h
      | some p3 =>
        obtain ⟨e, s4⟩ := p3
        simp only [h3] at h
        cases h4 : mkNumber (numSign s).1 is fs e with
        | none => simp [h4] at h
        | some m =>
          simp only [h4, Option.some.injEq, Prod.mk.injEq] at h
          rw [← h.2]
          have e1 := scanInt_length _ _ _ h1
          have e2 := scanFrac_length _ _ _ h2
          have e3 := scanExp_length _ _ _ h3
          have e4 := numSign_length s
          omega


theorem parseValue_succ_cons (f d : Nat) (c : Char) (r : Str) :
    parseValue (f + 1) d (c :: r) =
      if c == '"' then
        match scanString (r.length + 1) [] r with
        | some (s, r1) => some (JSON.str s, r1)
        | none => none
      else if c == '[' then
        if maxNestingDepth ≤ d then none
        else if (skipSpace r).head? = some ']' then some (JSON.arr [], (skipSpace r).tail)
        else parseElems f (d + 1) [] (skipSpace r)
      else if c == '{' then
        if maxNestingDepth ≤ d then none
        else if (skipSpace r).head? = some '}' then some (JSON.obj [], (skipSpace r).tail)
        else parseMembers f (d + 1) [] (skipSpace r)
      else if c == 't' then
        if "rue".toList.isPrefixOf r then some (JSON.bool true, r.drop 3) else none
      else if c == 'f' then
        if "alse".toList.isPrefixOf r then some (JSON.bool false, r.drop 4) else none
      else if c == 'n' then
        if "ull".toList.isPrefixOf r then some (JSON.null, r.drop 3) else none
      else
        match scanNumber (c :: r) with
        | some (n, r1) => some (JSON.num n, r1)
        | none => none := by
  rw [parseValue]

theorem parseElems_succ (f d : Nat) (acc : List JSON) (s : Str) :
    parseElems (f + 1) d acc s =
      match parseValue f d s with
      | none => none
      | some (v, r) =>
        match skipSpace r with
        | [] => none
        | x :: r1 =>
          if x == ',' then parseElems f d (acc ++ [v]) (skipSpace r1)
          else if x == ']' then some (JSON.arr (acc ++ [v]), r1)
          else none := by
  rw [parseElems]

theorem parseMembers_succ_cons (f d : Nat) (acc : List (Str × JSON)) (c : Char) (r0 : Str) :
    parseMembers (f + 1) d acc (c :: r0) =
      if c == '"' then
        match scanString (r0.length + 1) [] r0 with
        | none => none
        | some (k, r) =>
          match skipSpace r with
          | [] => none
          | x :: r1 =>
            if x == ':' then
              match parseValue f d (skipSpace r1) with
              | none => none
              | some (v, r2) =>
                match skipSpace r2 with
                | [] => none
                | d2 :: r3 =>
                  if d2 == ',' then parseMembers f d (mapSet k v acc) (skipSpace r3)
                  else if d2 == '}' then some (JSON.obj (mapSet k v acc), r3)
                  else none
            else none
      else none := by
  rw [parseMembers]


theorem tail_length_le (s : Str) : s.tail.length ≤ s.length := by
  cases s <;> simp

/-- Every successful parse consumes at least one character. -/
theorem parse_length (f : Nat) :
    (∀ d s v r, parseValue f d s = some (v, r) → r.length < s.length) ∧
    (∀ d acc s v r, parseElems f d acc s = some (v, r) → r.length < s.length) ∧
    (∀ d acc s v r, parseMembers f d acc s = some (v, r) → r.length < s.length) := by
  induction f with
  | zero =>
    refine ⟨?_, ?_, ?_⟩
    · intro d s v r h; simp [parseValue] at h
    · intro d acc s v r h; simp [parseElems] at h
    · intro d acc s v r h; simp [parseMembers] at h
  | succ f ih =>
    obtain ⟨ihV, ihE, ihM⟩ := ih
    refine ⟨?_, ?_, ?_⟩
    · intro d s v r h
      cases s with
      | nil => simp [parseValue] at h
      | cons c t =>
        rw [parseValue_succ_cons] at h
        have hsk := skipSpace_length t
        have htl := tail_length_le (skipSpace t)
        simp only [List.length_cons]
        split at h
        · cases hs : scanString (t.length + 1) [] t with
          | none => simp [hs] at h
          | some p =>
            simp only [hs, Option.some.injEq, Prod.mk.injEq] at h
            have := scanString_length _ _ _ _ _ hs
            rw [← h.2]; omega
        · split at h
          · split at h
            · simp at h
            · split at h
              · simp only [Option.some.injEq, Prod.mk.injEq] at h
                rw [← h.2]; omega
              · have := ihE _ _ _ _ _ h; omega
          · split at h
            · split at h
              · simp at h
              · split at h
                · simp only [Option.some.injEq, Prod.mk.injEq] at h
                  rw [← h.2]; omega
                · have := ihM _ _ _ _ _ h; omega
            · split at h
              · split at h
                · simp only [Option.some.injEq, Prod.mk.injEq] at h
                  rw [← h.2, List.length_drop]; omega
                · simp at h
              · split at h
                · split at h
                  · simp only [Option.some.injEq, Prod.mk.injEq] at h
                    rw [← h.2, List.length_drop]; omega
                  · simp at h
                · split at h
                  · split at h
                    · simp only [Option.some.injEq, Prod.mk.injEq] at h
                      rw [← h.2, List.length_drop]; omega
                    · simp at h
                  · cases hn : scanNumber (c :: t) with
                    | none => simp [hn] at h
                    | some p =>
                      simp only [hn, Option.some.injEq, Prod.mk.injEq] at h
                      have := scanNumber_length _ _ _ hn
                      simp only [List.length_cons] at this
                      rw [← h.2]; omega
    · intro d acc s v r h
      rw [parseElems_succ] at h
      cases hv : parseValue f d s with
      | none => simp [hv] at h
      | some p =>
        obtain ⟨v1, r0⟩ := p
        simp only [hv] at h
        have e1 := ihV _ _ _ _ hv
        have e2 := skipSpace_length r0
        cases hs : skipSpace r0 with
        | nil => simp [hs] at h
        | cons x r1 =>
          simp only [hs] at h
          rw [hs] at e2
          simp only [List.length_cons] at e2
          have e3 := skipSpace_length r1
          split at h
          · have := ihE _ _ _ _ _ h; omega
          · split at h
            · simp only [Option.some.injEq, Prod.mk.injEq] at h
              rw [← h.2]; omega
            · simp at h
    · intro d acc s v r h
      cases s with
      | nil => simp [parseMembers] at h
      | cons c r0 =>
        rw [parseMembers_succ_cons] at h
        simp only [List.length_cons]
        split at h
        · cases hk : scanString (r0.length + 1) [] r0 with
          | none => simp [hk] at h
          | some p =>
            obtain ⟨k, rk⟩ := p
            simp only [hk] at h
            have e0 := scanString_length _ _ _ _ _ hk
            have e1 := skipSpace_length rk
            cases hs : skipSpace rk with
            | nil => simp [hs] at h
            | cons x r1 =>
              simp only [hs] at h
              rw [hs] at e1
              simp only [List.length_cons] at e1
              have e2 := skipSpace_length r1
              split at h
              · cases hv : parseValue f d (skipSpace r1) with
                | none => simp [hv] at h
                | some q =>
                  obtain ⟨v1, r2⟩ := q
                  simp only [hv] at h
                  have e3 := ihV _ _ _ _ hv
                  have e4 := skipSpace_length r2
                  cases hs2 : skipSpace r2 with
                  | nil => simp [hs2] at h
                  | cons d2 r3 =>
                    simp only [hs2] at h
                    rw [hs2] at e4
                    simp only [List.length_cons] at e4
                    have e5 := skipSpace_length r3
                    split at h
                    · have := ihM _ _ _ _ _ h; omega
                    · split at h
                      · simp only [Option.some.injEq, Prod.mk.injEq] at h
                        rw [← h.2]; omega
                      · simp at h
              · simp at h
        · simp at h


/-- With a bound of at least the length of the input, one more step changes nothing. -/
theorem scanString_fuel : ∀ (f : Nat) (acc s : Str), s.length ≤ f →
    scanString (f + 1) acc s = scanString f acc s := by
  intro f
  induction f with
  | zero =>
    intro acc s h
    cases s with
    | nil => rfl
    | cons c t => simp at h
  | succ f ih =>
    intro acc s h
    cases s with
    | nil => rfl
    | cons c t =>
      simp only [List.length_cons] at h
      rw [scanString_succ_cons (f + 1), scanString_succ_cons f]
      have h1 : ∀ a, scanString (f + 1) a t = scanString f a t := fun a => ih a t (by omega)
      rw [h1]
      cases t with
      | nil => rfl
      | cons e r1 =>
        simp only [List.length_cons] at h
        have h2 : ∀ a, scanString (f + 1) a r1 = scanString f a r1 := fun a => ih a r1 (by omega)
        cases hg : getu4 (c :: e :: r1) with
        | none => simp only [h2]
        | some p =>
          obtain ⟨rr, r2⟩ := p
          have e1 := unquoteU_length rr r2
          have e2 := getu4_length _ _ _ hg
          simp only [List.length_cons] at e2
          have h3 : ∀ a, scanString (f + 1) a (unquoteU rr r2).2 = scanString f a (unquoteU rr r2).2 :=
            fun a => ih a _ (by omega)
          simp only [h2, h3]

theorem scanString_fuel_le (acc s : Str) : ∀ (g : Nat), s.length + 1 ≤ g →
    scanString g acc s = scanString (s.length + 1) acc s := by
  intro g
  induction g with
  | zero => intro h; omega
  | succ g ih =>
    intro h
    by_cases hg : s.length + 1 ≤ g
    · rw [scanString_fuel g acc s (by omega), ih hg]
    · have : g = s.length := by omega
      rw [this]

/-- With a bound of at least twice the length of the input, one more level of recursion
changes nothing. -/
theorem parse_fuel (f : Nat) :
    (∀ d s, 2 * s.length ≤ f → parseValue (f + 1) d s = parseValue f d s) ∧
    (∀ d acc s, 2 * s.length + 1 ≤ f → parseElems (f + 1) d acc s = parseElems f d acc s) ∧
    (∀ d acc s, 2 * s.length + 1 ≤ f → parseMembers (f + 1) d acc s = parseMembers f d acc s) := by
  induction f with
  | zero =>
    refine ⟨?_, ?_, ?_⟩
    · intro d s h
      cases s with
      | nil => simp [parseValue]
      | cons c t => simp at h
    · intro d acc s h; omega
    · intro d acc s h; omega
  | succ f ih =>
    obtain ⟨ihV, ihE, ihM⟩ := ih
    refine ⟨?_, ?_, ?_⟩
    · intro d s h
      cases s with
      | nil => simp [parseValue]
      | cons c t =>
        simp only [List.length_cons] at h
        have hsk := skipSpace_length t
        rw [parseValue_succ_cons (f + 1), parseValue_succ_cons f,
          ihE (d + 1) [] (skipSpace t) (by omega), ihM (d + 1) [] (skipSpace t) (by omega)]
    · intro d acc s h
      rw [parseElems_succ (f + 1), parseElems_succ f, ihV d s (by omega)]
      cases hv : parseValue f d s with
      | none => rfl
      | some p =>
        obtain ⟨v1, r0⟩ := p
        have e1 := (parse_length f).1 _ _ _ _ hv
        have e2 := skipSpace_length r0
        cases hs : skipSpace r0 with
        | nil => simp only [hs]
        | cons x r1 =>
          rw [hs] at e2
          simp only [List.length_cons] at e2
          have e3 := skipSpace_length r1
          simp only [hs]
          rw [ihE d _ (skipSpace r1) (by omega)]
    · intro d acc s h
      cases s with
      | nil => simp [parseMembers]
      | cons c r0 =>
        simp only [List.length_cons] at h
        rw [parseMembers_succ_cons (f + 1), parseMembers_succ_cons f]
        by_cases hc : (c == '"') = true
        · rw [if_pos hc, if_pos hc]
          cases hk : scanString (r0.length + 1) [] r0 with
          | none => rfl
          | some p =>
            obtain ⟨k, rk⟩ := p
            have e0 := scanString_length _ _ _ _ _ hk
            have e1 := skipSpace_length rk
            cases hs : skipSpace rk with
            | nil => simp only [hs]
            | cons x r1 =>
              rw [hs] at e1
              simp only [List.length_cons] at e1
              have e2 := skipSpace_length r1
              simp only [hs]
              rw [ihV d (skipSpace r1) (by omega)]
              cases hv : parseValue f d (skipSpace r1) with
              | none => rfl
              | some q =>
                obtain ⟨v1, r2⟩ := q
                have e3 := (parse_length f).1 _ _ _ _ hv
                have e4 := skipSpace_length r2
                cases hs2 : skipSpace r2 with
                | nil => simp only [hs2]
                | cons d2 r3 =>
                  rw [hs2] at e4
                  simp only [List.length_cons] at e4
                  have e5 := skipSpace_length r3
                  simp only [hs2]
                  rw [ihM d _ (skipSpace r3) (by omega)]
        · rw [if_neg hc, if_neg hc]

/-- The result of `unmarshal` does not depend on the bound it passes to `parseValue`:
every larger bound gives the same result. -/
theorem unmarshal_fuel (v : Str) : ∀ (g : Nat), 2 * v.length + 2 ≤ g →
    parseValue g 0 (skipSpace v) = parseValue (2 * v.length + 2) 0 (skipSpace v) := by
  intro g
  induction g with
  | zero => intro h; omega
  | succ g ih =>
    intro h
    have hsk := skipSpace_length v
    by_cases hg : 2 * v.length + 2 ≤ g
    · rw [(parse_fuel g).1 0 (skipSpace v) (by omega), ih hg]
    · have : g + 1 = 2 * v.length + 2 := by omega
      rw [this]

/-! ## The JSON decoder: the nesting limit -/

theorem plusClass_stop {α : Type} (p : Char → Bool) (k : Str → Str → Option α) (acc s : Str)
    (h : ∀ c ∈ s.head?, p c = false) : plusClass p k acc s = none := by
  cases s with
  | nil => rfl
  | cons c cs =>
    have hc : p c = false := h c (by simp)
    simp [plusClass, hc]

theorem plusClass_cons {α : Type} (p : Char → Bool) (k : Str → Str → Option α) (acc : Str)
    (c : Char) (cs : Str) :
    plusClass p k acc (c :: cs) =
      if p c then
        match plusClass p k (acc ++ [c]) cs with
        | some r => some r
        | none => k (acc ++ [c]) cs
      else none := rfl

/-- Greedy `X+` in front of a continuation that rejects every input starting in the
class: the whole run is taken. -/
theorem plusClass_run {α : Type} (p : Char → Bool) (k : Str → Str → Option α)
    (hk : ∀ a c r, p c = true → k a (c :: r) = none) :
    ∀ (key acc rest : Str), key ≠ [] → (∀ c ∈ key, p c = true) →
      (∀ c ∈ rest.head?, p c = false) →
      plusClass p k acc (key ++ rest) = k (acc ++ key) rest := by
  intro key
  induction key with
  | nil => intro acc rest h; exact absurd rfl h
  | cons c cs ih =>
    intro acc rest _ hall hrest
    have hc : p c = true := hall c (by simp)
    have hcs : ∀ d ∈ cs, p d = true := fun d hd => hall d (by simp [hd])
    rw [List.cons_append, plusClass_cons, if_pos hc]
    cases cs with
    | nil =>
      rw [List.nil_append, plusClass_stop p k (acc ++ [c]) rest hrest]
    | cons d ds =>
      rw [ih (acc ++ [c]) rest (by simp) hcs hrest]
      have hd : p d = true := hcs d (by simp)
      have h2 : k (acc ++ [c]) (d :: ds ++ rest) = none := hk _ _ _ hd
      rw [h2, List.append_assoc, List.singleton_append]
      cases k (acc ++ c :: d :: ds) rest <;> rfl

/-- Greedy `X+` at the end of the pattern takes the longest run, which must not be
empty. -/
theorem plusClass_last {α : Type} (p : Char → Bool) (f : Str → α) :
    ∀ (s acc : Str), plusClass p (fun v _ => some (f v)) acc s =
      if s.takeWhile p = [] then none else some (f (acc ++ s.takeWhile p)) := by
  intro s
  induction s with
  | nil => intro acc; rfl
  | cons c cs ih =>
    intro acc
    by_cases hc : p c = true
    · simp only [plusClass, hc, if_true, ih, List.takeWhile_cons]
      by_cases hcs : cs.takeWhile p = []
      · simp [hcs]
      · simp [hcs]
    · have hc1 : p c = false := by simpa using hc
      simp [plusClass, hc1, List.takeWhile_cons]

/-- The value group `(.+)`: the longest run of characters other than the line feed. -/
theorem valueGroup_eq (key sp r2 : Str) :
    plusClass isDotChar (fun v _ => some (key, sp, v)) [] r2 =
      if r2.takeWhile isDotChar = [] then none else some (key, sp, r2.takeWhile isDotChar) := by
  rw [plusClass_last isDotChar (fun v => (key, sp, v))]
  rfl

theorem litThen_keyChar {α : Type} (l : Str) (k : Str → Str → Option α) (c : Char) (r : Str)
    (hl : ∀ d ∈ l.head?, isKeyChar d = false) (hne : l ≠ []) (hc : isKeyChar c = true) :
    litThen l k (c :: r) = none := by
  cases l with
  | nil => exact absurd rfl hne
  | cons d ds =>
    have hd : isKeyChar d = false := hl d (by simp)
    have hdc : (d == c) = false := by
      cases h : d == c with
      | false => rfl
      | true =>
        have : d = c := by simpa using h
        rw [this, hc] at hd
        exact absurd hd (by simp)
    simp [litThen, List.isPrefixOf, hdc]

/-- No separator starts with a character of the key class. -/
theorem sepAlt_keyChar {α : Type} (k : Str → Str → Option α) (c : Char) (r : Str)
    (hc : isKeyChar c = true) : sepAlt k (c :: r) = none := by
  unfold sepAlt
  rw [litThen_keyChar _ k c r (by decide) (by decide) hc,
    litThen_keyChar _ k c r (by decide) (by decide) hc,
    litThen_keyChar _ k c r (by decide) (by decide) hc,
    litThen_keyChar _ k c r (by decide) (by decide) hc]

/-- The pattern at a fixed start: the key is the whole leading run of the key class,
and the separator and the value are matched right after it. -/
theorem matchHere_eq (s : Str) :
    matchHere s =
      if s.takeWhile isKeyChar = [] then none
      else sepAlt (fun sp r2 => plusClass isDotChar
              (fun v _ => some (s.takeWhile isKeyChar, sp, v)) [] r2) (s.dropWhile isKeyChar) := by
  by_cases h : s.takeWhile isKeyChar = []
  · rw [if_pos h]
    apply plusClass_stop
    intro c hc
    cases s with
    | nil => simp at hc
    | cons d ds =>
      simp only [List.head?_cons, Option.mem_def, Option.some.injEq] at hc
      subst hc
      by_cases hd : isKeyChar d = true
      · simp [List.takeWhile_cons, hd] at h
      · simpa using hd
  · rw [if_neg h]
    have hs : s = s.takeWhile isKeyChar ++ s.dropWhile isKeyChar :=
      (List.takeWhile_append_dropWhile isKeyChar s).symm
    have hrun := plusClass_run isKeyChar
      (fun key r1 => sepAlt (fun sp r2 => plusClass isDotChar (fun v _ => some (key, sp, v)) [] r2) r1)
      (fun a c r hc => sepAlt_keyChar _ c r hc)
      (s.takeWhile isKeyChar) [] (s.dropWhile isKeyChar) h
      (fun c hc => List.mem_takeWhile_imp hc)
      (fun c hc => by
        have := List.head?_dropWhile_not isKeyChar s
        rw [Option.mem_def.mp hc] at this
        simpa using this)
    rw [← hs] at hrun
    simpa [matchHere] using hrun

theorem takeWhile_key_append (p : Char → Bool) (key rest : Str) (hall : ∀ c ∈ key, p c = true)
    (hrest : ∀ c ∈ rest.head?, p c = false) :
    (key ++ rest).takeWhile p = key ∧ (key ++ rest).dropWhile p = rest := by
  induction key with
  | nil =>
    cases rest with
    | nil => simp
    | cons d ds =>
      have hd : p d = false := hrest d (by simp)
      simp [List.takeWhile_cons, List.dropWhile_cons, hd]
  | cons c cs ih =>
    have hc : p c = true := hall c (by simp)
    have := ih (fun d hd => hall d (by simp [hd]))
    simp [List.takeWhile_cons, List.dropWhile_cons, hc, this]

theorem isKeyChar_of_clean (c : Char) (h : c ≠ ':' ∧ c ≠ '=' ∧ c ≠ '@') : isKeyChar c = true := by
  simp [isKeyChar, h.1, h.2.1, h.2.2]

theorem takeWhile_dot_of_no_newline (value : Str) (hnl : '\n' ∉ value) :
    value.takeWhile isDotChar = value := by
  rw [List.takeWhile_eq_self_iff]
  intro c hc
  have : c ≠ '\n' := fun h => hnl (h ▸ hc)
  simp [isDotChar, this]

/-- A token that starts with a non-empty run of the key class, followed by something
the rest of the pattern accepts, is matched at its first character. -/
theorem findSubmatch_key (key rest : Str) (g : Str × Str × Str) (hk : key ≠ [])
    (hclean : ∀ c ∈ key, isKeyChar c = true) (hrest : ∀ c ∈ rest.head?, isKeyChar c = false)
    (hg : sepAlt (fun sp r2 => plusClass isDotChar (fun v _ => some (key, sp, v)) [] r2) rest
      = some g) :
    findSubmatch (key ++ rest) = some g := by
  have hm : matchHere (key ++ rest) = some g := by
    rw [matchHere_eq, (takeWhile_key_append isKeyChar key rest hclean hrest).1,
      (takeWhile_key_append isKeyChar key rest hclean hrest).2, if_neg hk, hg]
  cases key with
  | nil => exact absurd rfl hk
  | cons c cs =>
    rw [List.cons_append] at hm ⊢
    simp only [findSubmatch, hm]

/-- The groups of `key ++ sep ++ value` for a key of the key class and a value without
line feed that, after a one-character separator, does not start with `=`. -/
theorem findSubmatch_token (key sep value : Str) (hk : key ≠ [])
    (hclean : ∀ c ∈ key, c ≠ ':' ∧ c ≠ '=' ∧ c ≠ '@') (hv : value ≠ [])
    (hnl : '\n' ∉ value)
    (hsep : sep = [':'] ∨ sep = ['=', '='] ∨ sep = ['='] ∨ sep = [':', '='])
    (heq : sep = [':'] ∨ sep = ['='] → value.head? ≠ some '=') :
    findSubmatch (key ++ sep ++ value) = some (key, sep, value) := by
  have hclean1 : ∀ c ∈ key, isKeyChar c = true := fun c hc => isKeyChar_of_clean c (hclean c hc)
  have htw := takeWhile_dot_of_no_newline value hnl
  rw [List.append_assoc]
  apply findSubmatch_key key (sep ++ value) _ hk hclean1
  · rcases hsep with h | h | h | h <;> subst h <;> intro c hc <;> simp at hc <;> subst hc <;> decide
  · cases value with
    | nil => exact absurd rfl hv
    | cons v vs =>
      rcases hsep with h | h | h | h
      · subst h
        have hv1 : v ≠ '=' := by
          intro hv1; exact heq (Or.inl rfl) (by simp [hv1])
        simp [sepAlt, litThen, List.isPrefixOf, valueGroup_eq, htw, hv1, Ne.symm hv1]
      · subst h
        simp [sepAlt, litThen, List.isPrefixOf, valueGroup_eq, htw]
      · subst h
        have hv1 : v ≠ '=' := by
          intro hv1; exact heq (Or.inr rfl) (by simp [hv1])
        simp [sepAlt, litThen, List.isPrefixOf, valueGroup_eq, htw, hv1, Ne.symm hv1]
      · subst h
        simp [sepAlt, litThen, List.isPrefixOf, valueGroup_eq, htw]

/-! ## The pattern: what a match is made of -/

theorem litThen_value (key l rest : Str) :
    litThen l (fun sp r2 => plusClass isDotChar (fun v _ => some (key, sp, v)) [] r2) rest =
      if sepFits l rest = true then some (key, l, (rest.drop l.length).takeWhile isDotChar)
      else none := by
  unfold litThen sepFits
  by_cases h1 : l.isPrefixOf rest = true
  · rw [if_pos h1]
    show plusClass isDotChar (fun v _ => some (key, l, v)) [] (rest.drop l.length) = _
    rw [valueGroup_eq]
    by_cases h2 : (rest.drop l.length).takeWhile isDotChar = []
    · simp [h1, h2]
    · simp [h1, h2]
  · simp [h1]

/-- The separator group followed by the value group: the first alternative that fits. -/
theorem sepAlt_value (key rest : Str) :
    sepAlt (fun sp r2 => plusClass isDotChar (fun v _ => some (key, sp, v)) [] r2) rest =
      (separators.find? (fun l => sepFits l rest)).map
        (fun l => (key, l, (rest.drop l.length).takeWhile isDotChar)) := by
  unfold sepAlt separators
  simp only [litThen_value, List.find?]
  by_cases h1 : sepFits ['=', '='] rest = true
  · simp [h1]
  · by_cases h2 : sepFits [':', '='] rest = true
    · simp [h1, h2]
    · by_cases h3 : sepFits ['='] rest = true
      · simp [h1, h2, h3]
      · by_cases h4 : sepFits [':'] rest = true
        · simp [h1, h2, h3, h4]
        · simp [h1, h2, h3, h4]

/-- What a match at a fixed start consists of. -/
theorem matchHere_some (s k sp v : Str) (h : matchHere s = some (k, sp, v)) :
    k = s.takeWhile isKeyChar ∧ k ≠ [] ∧
    separators.find? (fun l => sepFits l (s.dropWhile isKeyChar)) = some sp ∧
    v = ((s.dropWhile isKeyChar).drop sp.length).takeWhile isDotChar := by
  rw [matchHere_eq] at h
  by_cases hk : s.takeWhile isKeyChar = []
  · simp [hk] at h
  · rw [if_neg hk, sepAlt_value] at h
    cases hf : separators.find? (fun l => sepFits l (s.dropWhile isKeyChar)) with
    | none => simp [hf] at h
    | some l =>
      simp only [hf, Option.map, Option.some.injEq, Prod.mk.injEq] at h
      obtain ⟨e1, e2, e3⟩ := h
      subst e2
      exact ⟨e1.symm, e1 ▸ hk, rfl, e3.symm⟩

/-- A key character in front of a match extends the match. -/
theorem matchHere_cons_keyChar (c : Char) (s : Str) (hc : isKeyChar c = true)
    (h : matchHere (c :: s) = none) : matchHere s = none := by
  rw [matchHere_eq] at h ⊢
  simp only [List.takeWhile_cons, hc, if_true, List.dropWhile_cons] at h
  by_cases hk : s.takeWhile isKeyChar = []
  · rw [if_pos hk]
  · rw [if_neg hk]
    rw [if_neg (by simp)] at h
    rw [sepAlt_value] at h ⊢
    cases hf : separators.find? (fun l => sepFits l (s.dropWhile isKeyChar)) with
    | none => rfl
    | some l => simp [hf] at h

/-- The leftmost match: where it starts, and that no key character stands in front. -/
theorem findSubmatch_some (arg : Str) (g : Str × Str × Str) (h : findSubmatch arg = some g) :
    ∃ pre s, arg = pre ++ s ∧ matchHere s = some g ∧
      (pre = [] ∨ ∃ c, pre.getLast? = some c ∧ isKeyChar c = false) := by
  induction arg with
  | nil => simp [findSubmatch] at h
  | cons c cs ih =>
    simp only [findSubmatch] at h
    cases hm : matchHere (c :: cs) with
    | some g1 =>
      simp only [hm, Option.some.injEq] at h
      subst h
      exact ⟨[], c :: cs, rfl, hm, Or.inl rfl⟩
    | none =>
      simp only [hm] at h
      obtain ⟨pre, s, e1, e2, e3⟩ := ih h
      refine ⟨c :: pre, s, by rw [e1]; rfl, e2, Or.inr ?_⟩
      rcases e3 with e3 | ⟨d, e3, e4⟩
      · subst e3
        simp only [List.nil_append] at e1
        subst e1
        refine ⟨c, rfl, ?_⟩
        cases hc : isKeyChar c with
        | false => rfl
        | true =>
          have := matchHere_cons_keyChar c cs hc hm
          rw [this] at e2
          exact absurd e2 (by simp)
      · cases pre with
        | nil => simp at e3
        | cons p ps => exact ⟨d, by rw [List.getLast?_cons_cons]; exact e3, e4⟩

theorem isKeyChar_false (c : Char) (h : isKeyChar c = false) : c = ':' ∨ c = '=' ∨ c = '@' := by
  by_cases h1 : c = ':'
  · exact Or.inl h1
  · by_cases h2 : c = '='
    · exact Or.inr (Or.inl h2)
    · by_cases h3 : c = '@'
      · exact Or.inr (Or.inr h3)
      · simp [isKeyChar, h1, h2, h3] at h

theorem isKeyChar_true (c : Char) (h : isKeyChar c = true) : c ≠ ':' ∧ c ≠ '=' ∧ c ≠ '@' := by
  refine ⟨?_, ?_, ?_⟩ <;> intro e <;> subst e <;> simp [isKeyChar] at h

theorem isDotChar_false (c : Char) (h : isDotChar c = false) : c = '\n' := by
  simpa [isDotChar] using h

/-- The groups of the leftmost match, laid out in the token. -/
theorem findSubmatch_layout (arg k sp v : Str) (h : findSubmatch arg = some (k, sp, v)) :
    ∃ pre post, arg = pre ++ k ++ sp ++ v ++ post ∧
      (pre = [] ∨ ∃ c, pre.getLast? = some c ∧ (c = ':' ∨ c = '=' ∨ c = '@')) ∧
      k ≠ [] ∧ (∀ c ∈ k, c ≠ ':' ∧ c ≠ '=' ∧ c ≠ '@') ∧
      separators.find? (fun l => sepFits l (sp ++ v ++ post)) = some sp ∧
      v ≠ [] ∧ '\n' ∉ v ∧ (post = [] ∨ post.head? = some '\n') := by
  obtain ⟨pre, s, e1, e2, e3⟩ := findSubmatch_some arg _ h
  obtain ⟨hk, hkne, hf, hv⟩ := matchHere_some s k sp v e2
  have hfit : sepFits sp (s.dropWhile isKeyChar) = true := by
    have := List.find?_some hf
    exact this
  unfold sepFits at hfit
  simp only [Bool.and_eq_true, Bool.not_eq_true', List.isPrefixOf_iff_prefix] at hfit
  obtain ⟨hpre, hne⟩ := hfit
  have hrest : sp ++ (s.dropWhile isKeyChar).drop sp.length = s.dropWhile isKeyChar :=
    List.prefix_iff_eq_append.mp hpre
  have htd := List.takeWhile_append_dropWhile isDotChar ((s.dropWhile isKeyChar).drop sp.length)
  rw [← hv] at htd hne
  have hs : s = k ++ (sp ++ (v ++ ((s.dropWhile isKeyChar).drop sp.length).dropWhile isDotChar)) := by
    rw [htd, hrest, hk]
    exact (List.takeWhile_append_dropWhile isKeyChar s).symm
  refine ⟨pre, ((s.dropWhile isKeyChar).drop sp.length).dropWhile isDotChar, ?_, ?_, hkne, ?_,
    ?_, ?_, ?_, ?_⟩
  · rw [e1]
    conv_lhs => rw [hs]
    simp only [List.append_assoc]
  · rcases e3 with e3 | ⟨c, e3, e4⟩
    · exact Or.inl e3
    · exact Or.inr ⟨c, e3, isKeyChar_false c e4⟩
  · intro c hc
    rw [hk] at hc
    exact isKeyChar_true c (List.mem_takeWhile_imp hc)
  · rw [List.append_assoc, htd, hrest]
    exact hf
  · intro e
    rw [e] at hne
    simp at hne
  · intro hmem
    rw [hv] at hmem
    have := List.mem_takeWhile_imp hmem
    simp [isDotChar] at this
  · cases hp : ((s.dropWhile isKeyChar).drop sp.length).dropWhile isDotChar with
    | nil => exact Or.inl rfl
    | cons d ds =>
      right
      have := List.head?_dropWhile_not isDotChar ((s.dropWhile isKeyChar).drop sp.length)
      rw [hp] at this
      simp only [List.head?_cons, Option.all_some, Bool.not_eq_true'] at this
      rw [isDotChar_false d this]
      rfl

/-- The pattern at a fixed start: the leading run of the key class, then the first
separator that fits, then the run up to the first line feed. -/
theorem matchHere_find (s : Str) :
    matchHere s =
      if s.takeWhile isKeyChar = [] then none
      else (separators.find? (fun l => sepFits l (s.dropWhile isKeyChar))).map
        (fun l => (s.takeWhile isKeyChar, l,
          ((s.dropWhile isKeyChar).drop l.length).takeWhile isDotChar)) := by
  rw [matchHere_eq]
  by_cases h : s.takeWhile isKeyChar = []
  · rw [if_pos h, if_pos h]
  · rw [if_neg h, if_neg h, sepAlt_value]

/-- There is no match at the start exactly when `startsMatch` says so. -/
theorem matchHere_none (s : Str) : matchHere s = none ↔ startsMatch s = false := by
  rw [matchHere_find]
  unfold startsMatch
  by_cases h : s.takeWhile isKeyChar = []
  · simp [h]
  · cases hf : separators.find? (fun l => sepFits l (s.dropWhile isKeyChar)) with
    | none =>
      have := List.find?_eq_none.mp hf
      simp [h, List.isEmpty_iff, List.any_eq_false]
      simpa using this
    | some l =>
      have h1 := List.find?_some hf
      have h2 := List.mem_of_find?_eq_some hf
      have h3 : separators.any (fun alt => sepFits alt (s.dropWhile isKeyChar)) = true :=
        List.any_eq_true.mpr ⟨l, h2, h1⟩
      simp [h, h3, List.isEmpty_iff]

theorem separators_head (l : Str) (hl : l ∈ separators) :
    l ≠ [] ∧ ∀ c ∈ l.head?, isKeyChar c = false := by
  unfold separators at hl
  simp only [List.mem_cons, List.mem_singleton, List.not_mem_nil, or_false] at hl
  rcases hl with h | h | h | h <;> subst h <;> exact ⟨by simp, by decide⟩

/-- A separator that fits starts the text it fits with a character outside the key
class. -/
theorem sepFits_head (l rest : Str) (hl : l ∈ separators) (h : sepFits l rest = true) :
    ∀ c ∈ rest.head?, isKeyChar c = false := by
  unfold sepFits at h
  simp only [Bool.and_eq_true, List.isPrefixOf_iff_prefix] at h
  obtain ⟨t, ht⟩ := h.1
  obtain ⟨hne, hh⟩ := separators_head l hl
  cases l with
  | nil => exact absurd rfl hne
  | cons a as =>
    rw [← ht]
    intro c hc
    exact hh c (by simpa using hc)

/-- A token that starts with a non-empty run of the key class followed by a separator
that fits is matched at its first character. -/
theorem findSubmatch_key_fit (key rest sp : Str) (hk : key ≠ [])
    (hclean : ∀ c ∈ key, isKeyChar c = true)
    (hf : separators.find? (fun l => sepFits l rest) = some sp) :
    findSubmatch (key ++ rest) = some (key, sp, (rest.drop sp.length).takeWhile isDotChar) := by
  apply findSubmatch_key key rest _ hk hclean
  · exact sepFits_head sp rest (List.mem_of_find?_eq_some hf) (by
      have := List.find?_some hf
      exact this)
  · rw [sepAlt_value, hf]
    rfl

/-- The separator of a match is one of the four alternatives. -/
theorem findSubmatch_sep (arg k sp v : Str) (h : findSubmatch arg = some (k, sp, v)) :
    sp ∈ separators := by
  obtain ⟨pre, s, _, e2, _⟩ := findSubmatch_some arg _ h
  exact List.mem_of_find?_eq_some (matchHere_some s k sp v e2).2.2.1

/-- The result of `parseKV` in terms of the groups of the match. -/
theorem parseKV_some (arg : Str) (kv : KV) :
    parseKV arg = some kv ↔ ∃ sp v, findSubmatch arg = some (kv.k, sp, v) ∧
      ((sp = ['=', '='] ∧ kv.v = JSON.str v ∧ kv.kind = argType.queryArg) ∨
       (sp = [':'] ∧ kv.v = JSON.str v ∧ kv.kind = argType.headerArg) ∨
       (sp = [':', '='] ∧ kv.v = parseLiteral v ∧ kv.kind = argType.jsonArg) ∨
       (sp = ['='] ∧ kv.v = JSON.str v ∧ kv.kind = argType.fieldArg)) := by
  obtain ⟨kk, kvv, kkind⟩ := kv
  unfold parseKV
  cases hf : findSubmatch arg with
  | none => simp
  | some g =>
    obtain ⟨k, sp, v⟩ := g
    have hsp := findSubmatch_sep arg k sp v hf
    unfold separators at hsp
    simp only [List.mem_cons, List.mem_singleton, List.not_mem_nil, or_false] at hsp
    rcases hsp with h | h | h | h <;> subst h
    · simp only [if_true, Option.some.injEq, KV.mk.injEq, Prod.mk.injEq]
      constructor
      · rintro ⟨rfl, rfl, rfl⟩
        exact ⟨_, _, ⟨rfl, rfl, rfl⟩, Or.inl ⟨rfl, rfl, rfl⟩⟩
      · rintro ⟨sp, v1, ⟨rfl, rfl, rfl⟩, h⟩
        rcases h with h | h | h | h
        · exact ⟨rfl, h.2.1.symm, h.2.2.symm⟩
        · exact absurd h.1 (by decide)
        · exact absurd h.1 (by decide)
        · exact absurd h.1 (by decide)
    · simp only [show ([':', '='] : Str) ≠ ['=', '='] by decide, show ([':', '='] : Str) ≠ [':'] by decide,
        if_false, if_true, Option.some.injEq, KV.mk.injEq, Prod.mk.injEq]
      constructor
      · rintro ⟨rfl, rfl, rfl⟩
        exact ⟨_, _, ⟨rfl, rfl, rfl⟩, Or.inr (Or.inr (Or.inl ⟨rfl, rfl, rfl⟩))⟩
      · rintro ⟨sp, v1, ⟨rfl, rfl, rfl⟩, h⟩
        rcases h with h | h | h | h
        · exact absurd h.1 (by decide)
        · exact absurd h.1 (by decide)
        · exact ⟨rfl, h.2.1.symm, h.2.2.symm⟩
        · exact absurd h.1 (by decide)
    · simp only [show (['='] : Str) ≠ ['=', '='] by decide, show (['='] : Str) ≠ [':'] by decide,
        show (['='] : Str) ≠ [':', '='] by decide,
        if_false, if_true, Option.some.injEq, KV.mk.injEq, Prod.mk.injEq]
      constructor
      · rintro ⟨rfl, rfl, rfl⟩
        exact ⟨_, _, ⟨rfl, rfl, rfl⟩, Or.inr (Or.inr (Or.inr ⟨rfl, rfl, rfl⟩))⟩
      · rintro ⟨sp, v1, ⟨rfl, rfl, rfl⟩, h⟩
        rcases h with h | h | h | h
        · exact absurd h.1 (by decide)
        · exact absurd h.1 (by decide)
        · exact absurd h.1 (by decide)
        · exact ⟨rfl, h.2.1.symm, h.2.2.symm⟩
    · simp only [show ([':'] : Str) ≠ ['=', '='] by decide,
        if_false, if_true, Option.some.injEq, KV.mk.injEq, Prod.mk.injEq]
      constructor
      · rintro ⟨rfl, rfl, rfl⟩
        exact ⟨_, _, ⟨rfl, rfl, rfl⟩, Or.inr (Or.inl ⟨rfl, rfl, rfl⟩)⟩
      · rintro ⟨sp, v1, ⟨rfl, rfl, rfl⟩, h⟩
        rcases h with h | h | h | h
        · exact absurd h.1 (by decide)
        · exact ⟨rfl, h.2.1.symm, h.2.2.symm⟩
        · exact absurd h.1 (by decide)
        · exact absurd h.1 (by decide)
/-- The entry `parseKV` gives for a token that starts with a non-empty run of the key
class followed by a separator that fits. -/
theorem parseKV_key_fit (key rest sp : Str) (hk : key ≠ [])
    (hclean : ∀ c ∈ key, isKeyChar c = true)
    (hf : separators.find? (fun l => sepFits l rest) = some sp) :
    parseKV (key ++ rest) =
      if sp = ['=', '='] then
        some { k := key, v := JSON.str ((rest.drop sp.length).takeWhile isDotChar),
               kind := argType.queryArg }
      else if sp = [':'] then
        some { k := key, v := JSON.str ((rest.drop sp.length).takeWhile isDotChar),
               kind := argType.headerArg }
      else if sp = [':', '='] then
        some { k := key, v := parseLiteral ((rest.drop sp.length).takeWhile isDotChar),
               kind := argType.jsonArg }
      else if sp = ['='] then
        some { k := key, v := JSON.str ((rest.drop sp.length).takeWhile isDotChar),
               kind := argType.fieldArg }
      else
        some { k := key, v := JSON.str ((rest.drop sp.length).takeWhile isDotChar),
               kind := argType.headerArg } := by
  unfold parseKV
  rw [findSubmatch_key_fit key rest sp hk hclean hf]

/-- A string value that `parseKV` reports holds no line feed. -/
theorem parseKV_str_no_newline (arg : Str) (kv : KV) (v : Str) (h : parseKV arg = some kv)
    (hk : kv.kind ≠ argType.jsonArg) (hv : kv.v = JSON.str v) : '\n' ∉ v := by
  obtain ⟨sp, v1, hf, hc⟩ := (parseKV_some arg kv).mp h
  obtain ⟨_, _, _, _, _, _, _, _, hnl, _⟩ := findSubmatch_layout arg kv.k sp v1 hf
  have e : v1 = v := by
    rcases hc with hc | hc | hc | hc
    · have := hc.2.1; rw [hv] at this; exact (JSON.str.inj this).symm
    · have := hc.2.1; rw [hv] at this; exact (JSON.str.inj this).symm
    · exact absurd hc.2.2 hk
    · have := hc.2.1; rw [hv] at this; exact (JSON.str.inj this).symm
  rw [← e]
  exact hnl

theorem isDotChar_iff (c : Char) : isDotChar c = true ↔ c ≠ '\n' := by
  simp [isDotChar]

/-- After `==`: the separator is `==` unless a line feed follows, and then it is `=`. -/
theorem fit_after_eqeq (v0 : Char) (vs : Str) :
    separators.find? (fun l => sepFits l ('=' :: '=' :: v0 :: vs)) =
      if v0 = '\n' then some ['='] else some ['=', '='] := by
  by_cases h : v0 = '\n'
  · subst h
    simp [separators, sepFits, List.isPrefixOf, List.takeWhile_cons, isDotChar]
  · simp [separators, sepFits, List.isPrefixOf, List.takeWhile_cons, isDotChar, h]

/-- After `:=`: the separator is `:=` unless a line feed follows, and then it is `:`. -/
theorem fit_after_coloneq (v0 : Char) (vs : Str) :
    separators.find? (fun l => sepFits l (':' :: '=' :: v0 :: vs)) =
      if v0 = '\n' then some [':'] else some [':', '='] := by
  by_cases h : v0 = '\n'
  · subst h
    simp [separators, sepFits, List.isPrefixOf, List.takeWhile_cons, isDotChar]
  · simp [separators, sepFits, List.isPrefixOf, List.takeWhile_cons, isDotChar, h]

/-- After `=` or `:` and a character that is neither `=` nor a line feed: the separator
is that one. -/
theorem fit_after_single (s v0 : Char) (vs : Str) (hs : s = '=' ∨ s = ':') (h1 : v0 ≠ '\n')
    (h2 : v0 ≠ '=') :
    separators.find? (fun l => sepFits l (s :: v0 :: vs)) = some [s] := by
  rcases hs with hs | hs <;> subst hs <;>
    simp [separators, sepFits, List.isPrefixOf, List.takeWhile_cons, isDotChar, h1, h2, Ne.symm h2]

/-- After `=` or `:` and a lone `=` at the end of the token: the separator is that
one, and the value is `=`. -/
theorem fit_after_single_eq (s : Char) (hs : s = '=' ∨ s = ':') :
    separators.find? (fun l => sepFits l (s :: ['='])) = some [s] := by
  rcases hs with hs | hs <;> subst hs <;> decide

theorem takeWhile_dot_eq_self (value : Str) :
    value.takeWhile isDotChar = value ↔ '\n' ∉ value := by
  constructor
  · intro h hm
    rw [← h] at hm
    have := List.mem_takeWhile_imp hm
    simp [isDotChar] at this
  · exact takeWhile_dot_of_no_newline value
/-- The token `key==value`: it is the query entry of `key` and `value` exactly when the
value holds no line feed. -/
theorem parseKV_eqeq (key : Str) (v0 : Char) (vs : Str) (hk : key ≠ [])
    (hclean : ∀ c ∈ key, isKeyChar c = true) :
    parseKV (key ++ ['=', '='] ++ (v0 :: vs)) =
        some { k := key, v := JSON.str (v0 :: vs), kind := argType.queryArg } ↔
      '\n' ∉ v0 :: vs := by
  constructor
  · intro hp
    exact parseKV_str_no_newline _ _ (v0 :: vs) hp (by simp) rfl
  · intro hnl
    have h0 : v0 ≠ '\n' := fun e => hnl (by simp [e])
    have hf := fit_after_eqeq v0 vs
    rw [if_neg h0] at hf
    have hp := parseKV_key_fit key ('=' :: '=' :: v0 :: vs) _ hk hclean hf
    rw [List.append_assoc]
    simp only [List.cons_append, List.nil_append]
    rw [hp]
    simp only [if_true, List.length_cons, List.length_nil, List.drop_succ_cons, List.drop_zero]
    rw [takeWhile_dot_of_no_newline _ hnl]

/-- The token `key:=value`: it is a JSON entry of `key` exactly when the value does not
begin with a line feed, and the literal is then parsed from the part of the value in
front of its first line feed. -/
theorem parseKV_coloneq (key : Str) (v0 : Char) (vs : Str) (j : JSON) (hk : key ≠ [])
    (hclean : ∀ c ∈ key, isKeyChar c = true) :
    parseKV (key ++ [':', '='] ++ (v0 :: vs)) =
        some { k := key, v := j, kind := argType.jsonArg } ↔
      v0 ≠ '\n' ∧ parseLiteral ((v0 :: vs).takeWhile isDotChar) = j := by
  have hf := fit_after_coloneq v0 vs
  rw [List.append_assoc]
  simp only [List.cons_append, List.nil_append]
  by_cases h0 : v0 = '\n'
  · rw [if_pos h0] at hf
    rw [parseKV_key_fit key (':' :: '=' :: v0 :: vs) _ hk hclean hf]
    simp [h0]
  · rw [if_neg h0] at hf
    rw [parseKV_key_fit key (':' :: '=' :: v0 :: vs) _ hk hclean hf]
    simp [h0]

/-- The tokens `key=value` and `key:value`: they are the field, respectively header,
entry of `key` and `value` exactly when the value holds no line feed and is not an `=`
followed by more (the separator is then `==`, respectively `:=`). -/
theorem parseKV_single (key : Str) (s v0 : Char) (vs : Str) (hk : key ≠ [])
    (hclean : ∀ c ∈ key, isKeyChar c = true) (hs : s = '=' ∨ s = ':') :
    parseKV (key ++ [s] ++ (v0 :: vs)) =
        some { k := key, v := JSON.str (v0 :: vs),
               kind := if s = ':' then argType.headerArg else argType.fieldArg } ↔
      '\n' ∉ v0 :: vs ∧ ∀ c r, v0 :: vs ≠ '=' :: c :: r := by
  constructor
  · intro hp
    have hnl := parseKV_str_no_newline _ _ (v0 :: vs) hp
      (by rcases hs with hs | hs <;> subst hs <;> simp) rfl
    refine ⟨hnl, ?_⟩
    intro c r e
    simp only [List.cons.injEq] at e
    obtain ⟨e1, e2⟩ := e
    subst e1 e2
    have hc : c ≠ '\n' := fun e => hnl (by simp [e])
    rw [List.append_assoc] at hp
    simp only [List.cons_append, List.nil_append] at hp
    rcases hs with hs | hs <;> subst hs
    · have hf := fit_after_eqeq c r
      rw [if_neg hc] at hf
      rw [parseKV_key_fit key ('=' :: '=' :: c :: r) _ hk hclean hf] at hp
      simp at hp
    · have hf := fit_after_coloneq c r
      rw [if_neg hc] at hf
      rw [parseKV_key_fit key (':' :: '=' :: c :: r) _ hk hclean hf] at hp
      simp at hp
  · rintro ⟨hnl, hne⟩
    have h0 : v0 ≠ '\n' := fun e => hnl (by simp [e])
    rw [List.append_assoc]
    simp only [List.cons_append, List.nil_append]
    by_cases h1 : v0 = '='
    · subst h1
      cases vs with
      | cons c r => exact absurd rfl (hne c r)
      | nil =>
        rw [parseKV_key_fit key (s :: ['=']) _ hk hclean (fit_after_single_eq s hs)]
        rcases hs with hs | hs <;> subst hs <;> simp [List.takeWhile_cons, isDotChar]
    · rw [parseKV_key_fit key (s :: v0 :: vs) _ hk hclean (fit_after_single s v0 vs hs h0 h1)]
      have ht := takeWhile_dot_of_no_newline _ hnl
      rcases hs with hs | hs <;> subst hs <;> simp [ht]

/-! ## Classification of `key<sep>value` tokens -/

/-- C1 (as amended): for every non-empty key without `:`, `=`, `@`, every non-empty value
and every separator among `:`, `==`, `=`, `:=`, `parseKV (key ++ sep ++ value)` matches
with exactly that key, with the value itself (for `:=` the literal parsed from it) and
with the kind of the separator table (`:` header, `==` query, `=` field, `:=` JSON
field) if and only if: for `:`, `==` and `=`, the value holds no line feed and, after `:`
and `=`, is not an `=` followed by further characters; for `:=`, the value does not
begin with a line feed and the part of it in front of its first line feed parses to the
same literal as the value.  In particular this is so for every value without a line
feed that, after `:` and `=`, is not an `=` followed by further characters; the value
`=` alone is recovered: `a==` is the field `a` with value `=` and `a:=` the header `a`
with value `=`. -/
theorem C1_parseKV_recovers_key_value_kind (key sep value : Str) (hk : key ≠ [])
    (hclean : ∀ c ∈ key, c ≠ ':' ∧ c ≠ '=' ∧ c ≠ '@') (hv : value ≠ [])
    (hsep : sep = [':'] ∨ sep = ['=', '='] ∨ sep = ['='] ∨ sep = [':', '=']) :
    (parseKV (key ++ sep ++ value) =
        some { k := key
               v := if sep = [':', '='] then parseLiteral value else JSON.str value
               kind := if sep = [':'] then argType.headerArg
                       else if sep = ['=', '='] then argType.queryArg
                       else if sep = ['='] then argType.fieldArg
                       else argType.jsonArg } ↔
      if sep = [':', '='] then
        value.head? ≠ some '\n' ∧
          parseLiteral (value.takeWhile isDotChar) = parseLiteral value
      else
        '\n' ∉ value ∧ (sep = ['=', '='] ∨ ∀ c r, value ≠ '=' :: c :: r)) ∧
    ('\n' ∉ value → (sep = [':'] ∨ sep = ['='] → ∀ c r, value ≠ '=' :: c :: r) →
      parseKV (key ++ sep ++ value) =
        some { k := key
               v := if sep = [':', '='] then parseLiteral value else JSON.str value
               kind := if sep = [':'] then argType.headerArg
                       else if sep = ['=', '='] then argType.queryArg
                       else if sep = ['='] then argType.fieldArg
                       else argType.jsonArg }) ∧
    parseKV ("a".toList ++ "=".toList ++ "=".toList) =
      some { k := "a".toList, v := JSON.str "=".toList, kind := argType.fieldArg } ∧
    parseKV ("a".toList ++ ":".toList ++ "=".toList) =
      some { k := "a".toList, v := JSON.str "=".toList, kind := argType.headerArg } := by
  have hclean1 : ∀ c ∈ key, isKeyChar c = true := fun c hc => isKeyChar_of_clean c (hclean c hc)
  obtain ⟨v0, vs, rfl⟩ : ∃ v0 vs, value = v0 :: vs := by
    cases value with
    | nil => exact absurd rfl hv
    | cons v0 vs => exact ⟨v0, vs, rfl⟩
  have hiff : parseKV (key ++ sep ++ (v0 :: vs)) =
        some { k := key
               v := if sep = [':', '='] then parseLiteral (v0 :: vs) else JSON.str (v0 :: vs)
               kind := if sep = [':'] then argType.headerArg
                       else if sep = ['=', '='] then argType.queryArg
                       else if sep = ['='] then argType.fieldArg
                       else argType.jsonArg } ↔
      if sep = [':', '='] then
        (v0 :: vs).head? ≠ some '\n' ∧
          parseLiteral ((v0 :: vs).takeWhile isDotChar) = parseLiteral (v0 :: vs)
      else
        '\n' ∉ v0 :: vs ∧ (sep = ['=', '='] ∨ ∀ c r, v0 :: vs ≠ '=' :: c :: r) := by
    rcases hsep with h | h | h | h <;> subst h
    · have := parseKV_single key ':' v0 vs hk hclean1 (Or.inr rfl)
      simpa using this
    · have := parseKV_eqeq key v0 vs hk hclean1
      simpa using this
    · have := parseKV_single key '=' v0 vs hk hclean1 (Or.inl rfl)
      simpa using this
    · have := parseKV_coloneq key v0 vs (parseLiteral (v0 :: vs)) hk hclean1
      simpa using this
  refine ⟨hiff, ?_, rfl, rfl⟩
  intro hnl hne
  apply hiff.mpr
  rcases hsep with h | h | h | h <;> subst h
  · rw [if_neg (by decide)]
    exact ⟨hnl, Or.inr (hne (Or.inl rfl))⟩
  · rw [if_neg (by decide)]
    exact ⟨hnl, Or.inl rfl⟩
  · rw [if_neg (by decide)]
    exact ⟨hnl, Or.inr (hne (Or.inr rfl))⟩
  · have h0 : v0 ≠ '\n' := fun e => hnl (by simp [e])
    rw [if_pos rfl, takeWhile_dot_of_no_newline _ hnl]
    exact ⟨by simpa using h0, rfl⟩

/-- Witness of C1 at the token `a=1`: the value stays the string `1`. -/
theorem C1_witness_field_number :
    parseKV ("a".toList ++ "=".toList ++ "1".toList) =
      some { k := "a".toList, v := JSON.str "1".toList, kind := argType.fieldArg } := by
  simpa using (C1_parseKV_recovers_key_value_kind "a".toList "=".toList "1".toList
    (by decide) (by decide) (by decide) (by decide)).2.1 (by decide) (by simp)

/-- C1 as stated fails: with key `a`, separator `:` and value `=1` the token is `a:=1`,
which is a JSON field with the number 1, not a header with value `=1`; and with value
`b<LF>c` after `=` only `b` is kept. -/
theorem C1_counterexample_value_not_recovered :
    ("a".toList ≠ [] ∧ (∀ c ∈ "a".toList, c ≠ ':' ∧ c ≠ '=' ∧ c ≠ '@') ∧ "=1".toList ≠ [] ∧
      "b\nc".toList ≠ []) ∧
    parseKV ("a".toList ++ ":".toList ++ "=1".toList) =
      some { k := "a".toList, v := JSON.num ⟨false, 1, 0⟩, kind := argType.jsonArg } ∧
    parseKV ("a".toList ++ ":".toList ++ "=1".toList) ≠
      some { k := "a".toList, v := JSON.str "=1".toList, kind := argType.headerArg } ∧
    parseKV ("a".toList ++ "=".toList ++ "b\nc".toList) =
      some { k := "a".toList, v := JSON.str "b".toList, kind := argType.fieldArg } ∧
    parseKV ("a".toList ++ "=".toList ++ "b\nc".toList) ≠
      some { k := "a".toList, v := JSON.str "b\nc".toList, kind := argType.fieldArg } := by
  have h1 : parseKV ("a".toList ++ ":".toList ++ "=1".toList) =
      some { k := "a".toList, v := JSON.num ⟨false, 1, 0⟩, kind := argType.jsonArg } := rfl
  have h2 : parseKV ("a".toList ++ "=".toList ++ "b\nc".toList) =
      some { k := "a".toList, v := JSON.str "b".toList, kind := argType.fieldArg } := rfl
  refine ⟨⟨by decide, by decide, by decide, by decide⟩, h1, ?_, h2, ?_⟩
  · rw [h1]; simp
  · rw [h2]; simp

/-- C2 (as amended): for every non-empty key without `:`, `=`, `@` and every non-empty
value that contains no line feed, `parseKV (key ++ "==" ++ value)` is a query entry with
that key and that value, and is never a field entry whose value begins with `=`; the
token `q==search` is the query entry with key `q` and value `search`. -/
theorem C2_double_equals_is_query (key value : Str) (hk : key ≠ [])
    (hclean : ∀ c ∈ key, c ≠ ':' ∧ c ≠ '=' ∧ c ≠ '@') (hv : value ≠ [])
    (hnl : '\n' ∉ value) :
    parseKV (key ++ "==".toList ++ value) =
      some { k := key, v := JSON.str value, kind := argType.queryArg } ∧
    (∀ kv, parseKV (key ++ "==".toList ++ value) = some kv →
      ¬ (kv.kind = argType.fieldArg ∧ ∃ r, kv.v = JSON.str ('=' :: r))) ∧
    parseKV "q==search".toList =
      some { k := "q".toList, v := JSON.str "search".toList, kind := argType.queryArg } := by
  have h : parseKV (key ++ "==".toList ++ value) =
      some { k := key, v := JSON.str value, kind := argType.queryArg } := by
    unfold parseKV
    rw [show "==".toList = ['=', '='] from rfl,
      findSubmatch_token key ['=', '='] value hk hclean hv hnl (by simp) (by simp)]
    simp
  refine ⟨h, ?_, rfl⟩
  intro kv hkv
  rw [h] at hkv
  cases hkv
  simp

/-- Witness of C2 at the token `hell?o==world`. -/
theorem C2_witness_question_mark_key :
    parseKV ("hell?o".toList ++ "==".toList ++ "world".toList) =
      some { k := "hell?o".toList, v := JSON.str "world".toList, kind := argType.queryArg } :=
  (C2_double_equals_is_query "hell?o".toList "world".toList (by decide) (by decide) (by decide)
    (by decide)).1

/-- C2 as stated fails: with key `q` and the non-empty value consisting of one line
feed, `q==<LF>` is a field entry whose value is `=`. -/
theorem C2_counterexample_line_feed_value :
    ("q".toList ≠ [] ∧ (∀ c ∈ "q".toList, c ≠ ':' ∧ c ≠ '=' ∧ c ≠ '@') ∧ "\n".toList ≠ []) ∧
    parseKV ("q".toList ++ "==".toList ++ "\n".toList) =
      some { k := "q".toList, v := JSON.str "=".toList, kind := argType.fieldArg } :=
  ⟨⟨by decide, by decide, by decide⟩, rfl⟩

/-! ## Host normalisation -/

theorem normalizeHost_eq_hostCases (s : Str) : normalizeHost s = hostCases s := by
  unfold normalizeHost hostCases
  by_cases h1 : s = ":".toList ∨ s = "localhost".toList
  · rcases h1 with h | h <;> subst h <;> decide
  · simp only [h1, if_false]
    match s with
    | [] => decide
    | c :: t =>
      by_cases hc : c = ':'
      · subst hc
        simp [List.isPrefixOf]
      · have : (":".toList.isPrefixOf (c :: t)) = false := by
          simp [List.isPrefixOf, hc]
          exact fun h => hc h.symm
        simp only [this, Bool.false_eq_true, if_false]
        generalize "http://".toList.isPrefixOf (c :: t) = a
        generalize "https://".toList.isPrefixOf (c :: t) = b
        cases a <;> cases b <;> simp

/-- C4: for every host specifier `s`, `parseHost` hands to the URL parser
`http://localhost/` when `s` is `:` or `localhost`, `http://localhost ++ s` when `s`
starts with `:`, `s` itself when it starts with `http://` or `https://`, and
`http:// ++ s` otherwise; so `:8081` gives `http://localhost:8081`, `:8080/hello` gives
`http://localhost:8080/hello` and `httpbin.org` gives `http://httpbin.org`. -/
theorem C4_parseHost_normal_form (s : Str) :
    (∀ (ε υ : Type) (urlParse : Str → Except ε υ),
      parseHost urlParse s =
        match urlParse
          (if s = ":".toList ∨ s = "localhost".toList then "http://localhost/".toList
           else if ":".toList.isPrefixOf s then "http://localhost".toList ++ s
           else if "http://".toList.isPrefixOf s ∨ "https://".toList.isPrefixOf s then s
           else "http://".toList ++ s) with
        | Except.ok u => Except.ok u
        | Except.error e => Except.error (Err.parseHost e)) ∧
    normalizeHost ":8081".toList = "http://localhost:8081".toList ∧
    normalizeHost ":8080/hello".toList = "http://localhost:8080/hello".toList ∧
    normalizeHost "httpbin.org".toList = "http://httpbin.org".toList := by
  refine ⟨?_, by decide, by decide, by decide⟩
  intro ε υ urlParse
  have h := normalizeHost_eq_hostCases s
  unfold hostCases at h
  unfold parseHost
  rw [h]

/-! ## `ParseCommand`: method, host and what a returned request is made of -/

theorem isMethod_iff (s : Str) : isMethod s = true ↔ s ∈ methodNames := by
  simp [isMethod, methodNames, or_assoc]

/-- A returned request comes from a run of the loop over the remaining tokens that
reached its end, and its parts are the accumulators of that run. -/
theorem ParseCommand_ret {ε υ : Type} (urlParse : Str → Except ε υ) (args : List Str)
    (r : Request υ) (e : Option (Err ε)) (h : ParseCommand urlParse args = Outcome.ret (some r) e) :
    e = none ∧
    ∃ a, loop Acc.init (restArgs args) = Step.next a ∧ r.RawQuery = Values.Encode a.q ∧
      r.Header = a.h ∧ r.Body = encodeJSON a.fields ∧
      ∃ first rest, args = first :: rest ∧
        (isMethod first = true → r.Method = first ∧
          ∃ second tail, rest = second :: tail ∧ urlParse (normalizeHost second) = Except.ok r.URL) ∧
        (isMethod first = false → r.Method = "GET".toList ∧
          urlParse (normalizeHost first) = Except.ok r.URL) := by
  cases args with
  | nil => simp [ParseCommand] at h
  | cons first rest =>
    by_cases hm : isMethod first = true
    · cases rest with
      | nil => simp [ParseCommand, hm] at h
      | cons second tail =>
        simp only [ParseCommand, hm, if_true, parseHost] at h
        cases hu : urlParse (normalizeHost second) with
        | error x => simp [hu] at h
        | ok u =>
          simp only [hu, assemble] at h
          cases hl : loop Acc.init tail with
          | next a =>
            simp only [hl, Outcome.ret.injEq, Option.some.injEq] at h
            obtain ⟨hr, he⟩ := h
            subst hr
            refine ⟨he.symm, a, by simpa [restArgs, hm] using hl, rfl, rfl, rfl, first, _, rfl, ?_, ?_⟩
            · intro _; exact ⟨rfl, second, tail, rfl, hu⟩
            · intro hf; rw [hm] at hf; exact absurd hf (by simp)
          | fail => simp [hl] at h
          | panic => simp [hl] at h
    · have hm1 : isMethod first = false := by simpa using hm
      simp only [ParseCommand, hm1, Bool.false_eq_true, if_false, parseHost] at h
      cases hu : urlParse (normalizeHost first) with
      | error x => simp [hu] at h
      | ok u =>
        simp only [hu, assemble] at h
        cases hl : loop Acc.init rest with
        | next a =>
          simp only [hl, Outcome.ret.injEq, Option.some.injEq] at h
          obtain ⟨hr, he⟩ := h
          subst hr
          refine ⟨he.symm, a, by simpa [restArgs, hm1] using hl, rfl, rfl, rfl, first, _, rfl, ?_, ?_⟩
          · intro hf; rw [hm1] at hf; exact absurd hf (by simp)
          · intro _; exact ⟨rfl, hu⟩
        | fail => simp [hl] at h
        | panic => simp [hl] at h

/-- C3: for every token sequence that `ParseCommand` assembles, if the first token is
exactly one of GET, HEAD, POST, PUT, PATCH, DELETE, CONNECT, OPTIONS, TRACE the request
has that method and the URL parsed from the second token, and otherwise (also for `get`)
it has method GET and the URL parsed from the first token; so `httpbin.org` alone gives
GET and `PUT /` gives PUT. -/
theorem C3_method_and_host {ε υ : Type} (urlParse : Str → Except ε υ) :
    (∀ (args : List Str) (r : Request υ),
      ParseCommand urlParse args = Outcome.ret (some r) none →
      ∃ first rest, args = first :: rest ∧
        (first ∈ ["GET".toList, "HEAD".toList, "POST".toList, "PUT".toList, "PATCH".toList,
            "DELETE".toList, "CONNECT".toList, "OPTIONS".toList, "TRACE".toList] →
          r.Method = first ∧
          ∃ second tail, rest = second :: tail ∧
            urlParse (normalizeHost second) = Except.ok r.URL) ∧
        (first ∉ ["GET".toList, "HEAD".toList, "POST".toList, "PUT".toList, "PATCH".toList,
            "DELETE".toList, "CONNECT".toList, "OPTIONS".toList, "TRACE".toList] →
          r.Method = "GET".toList ∧ urlParse (normalizeHost first) = Except.ok r.URL)) ∧
    (∀ u, urlParse "http://httpbin.org".toList = Except.ok u →
      ∃ r, ParseCommand urlParse ["httpbin.org".toList] = Outcome.ret (some r) none ∧
        r.Method = "GET".toList ∧ r.URL = u) ∧
    (∀ u, urlParse "http:///".toList = Except.ok u →
      ∃ r, ParseCommand urlParse ["PUT".toList, "/".toList] = Outcome.ret (some r) none ∧
        r.Method = "PUT".toList ∧ r.URL = u) ∧
    (∀ u, urlParse "http://get".toList = Except.ok u →
      ∃ r, ParseCommand urlParse ["get".toList] = Outcome.ret (some r) none ∧
        r.Method = "GET".toList ∧ r.URL = u) := by
  refine ⟨?_, ?_, ?_, ?_⟩
  · intro args r h
    obtain ⟨_, a, _, _, _, _, first, rest, hargs, h1, h2⟩ := ParseCommand_ret urlParse args r none h
    refine ⟨first, rest, hargs, ?_, ?_⟩
    · intro hin
      exact h1 ((isMethod_iff first).mpr hin)
    · intro hnin
      apply h2
      cases hb : isMethod first with
      | false => rfl
      | true => exact absurd ((isMethod_iff first).mp hb) hnin
  · intro u hu
    have hn : normalizeHost "httpbin.org".toList = "http://httpbin.org".toList := by decide
    have hm : isMethod "httpbin.org".toList = false := by decide
    refine ⟨⟨"GET".toList, u, Values.Encode [], [], encodeJSON (JSON.obj [])⟩, ?_, rfl, rfl⟩
    simp only [ParseCommand, hm, parseHost, hn, hu]
    rfl
  · intro u hu
    have hn : normalizeHost "/".toList = "http:///".toList := by decide
    have hm : isMethod "PUT".toList = true := by decide
    refine ⟨⟨"PUT".toList, u, Values.Encode [], [], encodeJSON (JSON.obj [])⟩, ?_, rfl, rfl⟩
    simp only [ParseCommand, hm, parseHost, hn, hu]
    rfl
  · intro u hu
    have hn : normalizeHost "get".toList = "http://get".toList := by decide
    have hm : isMethod "get".toList = false := by decide
    refine ⟨⟨"GET".toList, u, Values.Encode [], [], encodeJSON (JSON.obj [])⟩, ?_, rfl, rfl⟩
    simp only [ParseCommand, hm, parseHost, hn, hu]
    rfl

/-! ## The accumulators -/

theorem mapGet_mapSet {β : Type} (k k' : Str) (v : β) (m : List (Str × β)) :
    mapGet k (mapSet k' v m) = if k = k' then some v else mapGet k m := by
  induction m with
  | nil => simp [mapSet, mapGet]
  | cons hd t ih =>
    obtain ⟨k1, v1⟩ := hd
    by_cases h1 : k' = k1
    · subst h1
      by_cases h3 : k = k' <;> simp [mapSet, mapGet, h3]
    · by_cases h2 : strLt k' k1 = true
      · simp [mapSet, mapGet, h1, h2]
      · simp only [mapSet, h1, h2, if_false, mapGet, ih]
        by_cases h3 : k = k1
        · subst h3
          simp [Ne.symm h1]
        · simp [h3]

theorem Values.Add_holds (k v : Str) (m : Values) (L : Str → List Str) (h : Holds m L) :
    Holds (Values.Add k v m) (fun n => L n ++ if k = n then [v] else []) := by
  intro n
  unfold Values.Add
  rw [mapGet_mapSet]
  by_cases hn : n = k
  · subst hn
    have hg : (mapGet n m).getD [] = L n := by
      rw [h n]
      by_cases hl : L n = [] <;> simp [hl]
    simp [hg]
  · have hn1 : ¬ k = n := fun e => hn e.symm
    simp [hn, hn1, h n]

theorem Holds_congr (m : Values) (L L1 : Str → List Str) (h : Holds m L) (e : ∀ n, L n = L1 n) :
    Holds m L1 := by
  intro n
  rw [← e n]
  exact h n

theorem parseKV_nil : parseKV [] = none := rfl

theorem valuesOf_cons (kind : argType) (p : Str → Bool) (arg : Str) (toks : List Str) :
    valuesOf kind p (arg :: toks) = valuesOf kind p [arg] ++ valuesOf kind p toks := by
  unfold valuesOf
  rw [← List.filterMap_append]
  rfl

/-- One iteration of the loop adds the value of a query token to the query values and
the value of a header token to the headers, under the canonical key, and nothing else. -/
theorem loopBody_holds (a a1 : Acc) (arg : Str) (Lq Lh : Str → List Str)
    (h : loopBody a arg = Step.next a1) (hq : Holds a.q Lq) (hh : Holds a.h Lh) :
    Holds a1.q (fun n => Lq n ++ valuesOf argType.queryArg (fun k => decide (k = n)) [arg]) ∧
    Holds a1.h (fun n => Lh n ++
      valuesOf argType.headerArg (fun k => decide (canonicalMIMEHeaderKey k = n)) [arg]) := by
  unfold loopBody at h
  by_cases he : arg = []
  · subst he
    simp only [if_true, Step.next.injEq] at h
    subst h
    exact ⟨Holds_congr _ _ _ hq (by simp [valuesOf, parseKV_nil]),
      Holds_congr _ _ _ hh (by simp [valuesOf, parseKV_nil])⟩
  · simp only [he, if_false] at h
    cases hkv : parseKV arg with
    | none =>
      simp only [hkv, Step.next.injEq] at h
      subst h
      exact ⟨Holds_congr _ _ _ hq (by simp [valuesOf, hkv]),
        Holds_congr _ _ _ hh (by simp [valuesOf, hkv])⟩
    | some kv =>
      simp only [hkv] at h
      cases hkind : kv.kind with
      | fieldArg =>
        simp only [hkind] at h
        cases hs : Container.SetP kv.v kv.k a.fields with
        | none => simp [hs] at h
        | some t =>
          simp only [hs, Step.next.injEq] at h
          subst h
          exact ⟨Holds_congr _ _ _ hq (by simp [valuesOf, hkv, hkind]),
            Holds_congr _ _ _ hh (by simp [valuesOf, hkv, hkind])⟩
      | jsonArg =>
        simp only [hkind] at h
        cases hs : Container.SetP kv.v kv.k a.fields with
        | none => simp [hs] at h
        | some t =>
          simp only [hs, Step.next.injEq] at h
          subst h
          exact ⟨Holds_congr _ _ _ hq (by simp [valuesOf, hkv, hkind]),
            Holds_congr _ _ _ hh (by simp [valuesOf, hkv, hkind])⟩
      | headerArg =>
        simp only [hkind] at h
        cases hv : kv.v with
        | str sv =>
          simp only [hv, Step.next.injEq] at h
          subst h
          refine ⟨Holds_congr _ _ _ hq (by simp [valuesOf, hkv, hkind]), ?_⟩
          refine Holds_congr _ _ _ (Values.Add_holds (canonicalMIMEHeaderKey kv.k) sv a.h Lh hh) ?_
          intro n
          by_cases hn : canonicalMIMEHeaderKey kv.k = n <;> simp [valuesOf, hkv, hkind, hv, hn]
        | null => simp [hv] at h
        | bool b => simp [hv] at h
        | num x => simp [hv] at h
        | arr xs => simp [hv] at h
        | obj ms => simp [hv] at h
      | queryArg =>
        simp only [hkind] at h
        cases hv : kv.v with
        | str sv =>
          simp only [hv, Step.next.injEq] at h
          subst h
          refine ⟨?_, Holds_congr _ _ _ hh (by simp [valuesOf, hkv, hkind])⟩
          refine Holds_congr _ _ _ (Values.Add_holds kv.k sv a.q Lq hq) ?_
          intro n
          by_cases hn : kv.k = n <;> simp [valuesOf, hkv, hkind, hv, hn]
        | null => simp [hv] at h
        | bool b => simp [hv] at h
        | num x => simp [hv] at h
        | arr xs => simp [hv] at h
        | obj ms => simp [hv] at h

theorem loop_holds (toks : List Str) : ∀ (a a1 : Acc) (Lq Lh : Str → List Str),
    loop a toks = Step.next a1 → Holds a.q Lq → Holds a.h Lh →
    Holds a1.q (fun n => Lq n ++ valuesOf argType.queryArg (fun k => decide (k = n)) toks) ∧
    Holds a1.h (fun n => Lh n ++
      valuesOf argType.headerArg (fun k => decide (canonicalMIMEHeaderKey k = n)) toks) := by
  induction toks with
  | nil =>
    intro a a1 Lq Lh h hq hh
    simp only [loop, Step.next.injEq] at h
    subst h
    exact ⟨Holds_congr _ _ _ hq (by simp [valuesOf]), Holds_congr _ _ _ hh (by simp [valuesOf])⟩
  | cons arg rest ih =>
    intro a a1 Lq Lh h hq hh
    simp only [loop] at h
    cases hb : loopBody a arg with
    | next a2 =>
      simp only [hb] at h
      obtain ⟨hq2, hh2⟩ := loopBody_holds a a2 arg Lq Lh hb hq hh
      obtain ⟨hq3, hh3⟩ := ih a2 a1 _ _ h hq2 hh2
      refine ⟨Holds_congr _ _ _ hq3 ?_, Holds_congr _ _ _ hh3 ?_⟩
      · intro n
        rw [valuesOf_cons argType.queryArg _ arg rest, List.append_assoc]
      · intro n
        rw [valuesOf_cons argType.headerArg _ arg rest, List.append_assoc]
    | fail => simp [hb] at h
    | panic => simp [hb] at h

theorem Holds_init : Holds [] (fun _ => []) := by
  intro n
  simp [mapGet]

/-- Witness of C3: with a URL parser that accepts everything, `PUT /` assembles. -/
theorem C3_witness_put :
    ∃ first rest, ["PUT".toList, "/".toList] = first :: rest ∧
      (first ∈ ["GET".toList, "HEAD".toList, "POST".toList, "PUT".toList, "PATCH".toList,
          "DELETE".toList, "CONNECT".toList, "OPTIONS".toList, "TRACE".toList] →
        "PUT".toList = first ∧
        ∃ second tail, rest = second :: tail ∧
          (Except.ok (normalizeHost second) : Except Unit Str) = Except.ok "http:///".toList) ∧
      (first ∉ ["GET".toList, "HEAD".toList, "POST".toList, "PUT".toList, "PATCH".toList,
          "DELETE".toList, "CONNECT".toList, "OPTIONS".toList, "TRACE".toList] →
        "PUT".toList = "GET".toList ∧
          (Except.ok (normalizeHost first) : Except Unit Str) = Except.ok "http:///".toList) :=
  (C3_method_and_host (fun s => (Except.ok s : Except Unit Str))).1
    ["PUT".toList, "/".toList]
    ⟨"PUT".toList, "http:///".toList, [], [], "\x7b\x7d".toList⟩ rfl

/-! ## The field tree -/

theorem ParseCommand_eq_assemble {ε υ : Type} (urlParse : Str → Except ε υ) (args : List Str)
    (host : Str) (u : υ) (hh : hostArg args = some host)
    (hu : urlParse (normalizeHost host) = Except.ok u) :
    ParseCommand urlParse args = assemble (methodArg args) u (restArgs args) := by
  cases args with
  | nil => simp [hostArg] at hh
  | cons first rest =>
    by_cases hm : isMethod first = true
    · cases rest with
      | nil => simp [hostArg, hm] at hh
      | cons second tail =>
        simp only [hostArg, hm, if_true, List.head?_cons, Option.some.injEq] at hh
        subst hh
        simp [ParseCommand, hm, parseHost, hu, methodArg, restArgs]
    · have hm1 : isMethod first = false := by simpa using hm
      simp only [hostArg, hm1, Bool.false_eq_true, if_false, Option.some.injEq] at hh
      subst hh
      simp [ParseCommand, hm1, parseHost, hu, methodArg, restArgs]

theorem loop_append (xs ys : List Str) : ∀ a : Acc,
    loop a (xs ++ ys) =
      match loop a xs with
      | Step.next a1 => loop a1 ys
      | Step.fail => Step.fail
      | Step.panic => Step.panic := by
  induction xs with
  | nil => intro a; rfl
  | cons x xs ih =>
    intro a
    simp only [List.cons_append, loop]
    cases loopBody a x with
    | next a2 => exact ih a2
    | fail => rfl
    | panic => rfl

theorem mapGet_mapSet_self {β : Type} (k : Str) (v : β) (m : List (Str × β)) :
    mapGet k (mapSet k v m) = some v := by
  rw [mapGet_mapSet, if_pos rfl]

theorem childOrNew_of_get (seg : Str) (m : List (Str × JSON)) (c : JSON)
    (hg : mapGet seg m = some c) (hc : c ≠ JSON.null) : childOrNew seg m = c := by
  unfold childOrNew
  rw [hg]
  cases c with
  | null => exact absurd rfl hc
  | bool b => rfl
  | num x => rfl
  | str x => rfl
  | arr x => rfl
  | obj x => rfl

theorem setLoop_not_obj (v : JSON) (r : Str) (rs : List Str) (c : JSON)
    (hobj : ∀ m, c ≠ JSON.obj m) : setLoop v (r :: rs) c = none := by
  cases c with
  | obj x => exact absurd rfl (hobj x)
  | null => rfl
  | bool b => rfl
  | num x => rfl
  | str x => rfl
  | arr x => rfl

theorem lookupPath_cons_ne_null (p : Str) (ps : List Str) (c leaf : JSON)
    (h : lookupPath (p :: ps) c = some leaf) : c ≠ JSON.null := by
  intro e
  subst e
  simp [lookupPath] at h

theorem setLoop_cons_cons (v : JSON) (seg r : Str) (rs : List Str) (m : List (Str × JSON)) :
    setLoop v (seg :: r :: rs) (JSON.obj m) =
      match setLoop v (r :: rs) (childOrNew seg m) with
      | some c => some (JSON.obj (mapSet seg c m))
      | none => none := rfl

/-- The loop of `Set` stops with a collision at a value that is neither an object nor
`nil` when path segments remain below it. -/
theorem setLoop_collision (v : JSON) : ∀ (pre rest : List Str) (o leaf : JSON), pre ≠ [] →
    rest ≠ [] → lookupPath pre o = some leaf → leaf ≠ JSON.null → (∀ m, leaf ≠ JSON.obj m) →
    setLoop v (pre ++ rest) o = none := by
  intro pre
  induction pre with
  | nil => intro rest o leaf h; exact absurd rfl h
  | cons seg pre1 ih =>
    intro rest o leaf _ hrest hl hnull hobj
    cases o with
    | obj m =>
      simp only [lookupPath] at hl
      cases hg : mapGet seg m with
      | none => simp [hg] at hl
      | some c =>
        simp only [hg] at hl
        cases pre1 with
        | nil =>
          simp only [lookupPath, Option.some.injEq] at hl
          subst hl
          cases rest with
          | nil => exact absurd rfl hrest
          | cons r rs =>
            show setLoop v (seg :: r :: rs) (JSON.obj m) = none
            rw [setLoop_cons_cons, childOrNew_of_get seg m c hg hnull,
              setLoop_not_obj v r rs c hobj]
        | cons p ps =>
          have hch := childOrNew_of_get seg m c hg (lookupPath_cons_ne_null p ps c leaf hl)
          have := ih rest c leaf (by simp) hrest hl hnull hobj
          show setLoop v (seg :: p :: (ps ++ rest)) (JSON.obj m) = none
          rw [setLoop_cons_cons, hch]
          rw [List.cons_append] at this
          rw [this]
    | null => simp [lookupPath] at hl
    | bool b => simp [lookupPath] at hl
    | num x => simp [lookupPath] at hl
    | str x => simp [lookupPath] at hl
    | arr x => simp [lookupPath] at hl

/-- C9 fails on the code: for the empty token sequence and for a method name alone,
`ParseCommand` returns neither a request nor an error: indexing `args[0]`, respectively
`args[1]`, panics. -/
theorem C9_panics_without_host_token {ε υ : Type} (urlParse : Str → Except ε υ) :
    ParseCommand urlParse [] = Outcome.panic ∧
    ParseCommand urlParse ["GET".toList] = Outcome.panic := by
  refine ⟨rfl, ?_⟩
  have hm : isMethod "GET".toList = true := by decide
  simp only [ParseCommand, hm, if_true]

/-- C10 (as amended): when a proper prefix of a dot path holds, in the field tree, a value
that is neither an object nor null (a string, number, boolean or array), inserting at
that path fails with the path-collision error instead of overwriting it, and
`ParseCommand` returns that error and no request; `a=1` followed by `a.b=2` fails. -/
theorem C10_leaf_prefix_is_collision {ε υ : Type} (urlParse : Str → Except ε υ) :
    (∀ (v t leaf : JSON) (pre rest : List Str), pre ≠ [] → rest ≠ [] →
      lookupPath pre t = some leaf → leaf ≠ JSON.null → (∀ m, leaf ≠ JSON.obj m) →
      Container.Set v (pre ++ rest) t = none) ∧
    (∀ (args before after : List Str) (host arg : Str) (u : υ) (a : Acc) (kv : KV)
        (pre rest : List Str) (leaf : JSON),
      hostArg args = some host → urlParse (normalizeHost host) = Except.ok u →
      restArgs args = before ++ arg :: after → loop Acc.init before = Step.next a →
      parseKV arg = some kv → kv.kind = argType.fieldArg ∨ kv.kind = argType.jsonArg →
      splitDot kv.k = pre ++ rest → pre ≠ [] → rest ≠ [] →
      lookupPath pre a.fields = some leaf → leaf ≠ JSON.null → (∀ m, leaf ≠ JSON.obj m) →
      ParseCommand urlParse args = Outcome.ret none (some Err.pathCollision)) ∧
    (∀ u, urlParse "http:///".toList = Except.ok u →
      ParseCommand urlParse ["/".toList, "a=1".toList, "a.b=2".toList] =
        Outcome.ret none (some Err.pathCollision)) := by
  have hset : ∀ (v t leaf : JSON) (pre rest : List Str), pre ≠ [] → rest ≠ [] →
      lookupPath pre t = some leaf → leaf ≠ JSON.null → (∀ m, leaf ≠ JSON.obj m) →
      Container.Set v (pre ++ rest) t = none := by
    intro v t leaf pre rest hpre hrest hl hnull hobj
    have hloop := setLoop_collision v pre rest t leaf hpre hrest hl hnull hobj
    cases pre with
    | nil => exact absurd rfl hpre
    | cons p ps =>
      have ht := lookupPath_cons_ne_null p ps t leaf hl
      cases t with
      | null => exact absurd rfl ht
      | bool b => exact hloop
      | num x => exact hloop
      | str x => exact hloop
      | arr x => exact hloop
      | obj x => exact hloop
  refine ⟨hset, ?_, ?_⟩
  · intro args before after host arg u a kv pre rest leaf hh hu hargs hl hkv hkind hsplit hpre
      hrest hlook hnull hobj
    rw [ParseCommand_eq_assemble urlParse args host u hh hu, hargs]
    have hne : arg ≠ [] := by
      intro e
      rw [e, parseKV_nil] at hkv
      exact absurd hkv (by simp)
    have hs : Container.SetP kv.v kv.k a.fields = none := by
      unfold Container.SetP
      rw [hsplit]
      exact hset kv.v a.fields leaf pre rest hpre hrest hlook hnull hobj
    have hb : loopBody a arg = Step.fail := by
      unfold loopBody
      simp only [hne, if_false, hkv]
      rcases hkind with hk | hk <;> simp only [hk, hs]
    unfold assemble
    rw [loop_append, hl]
    simp only [loop, hb]
  · intro u hu
    have hn : normalizeHost "/".toList = "http:///".toList := by decide
    have hm : isMethod "/".toList = false := by decide
    simp only [ParseCommand, hm, parseHost, hn, hu]
    rfl

/-- Witness of C10: with a URL parser that accepts everything, `/ a=1 a.b=2` returns the
path-collision error: after `a=1` the prefix `a` of the path `a.b` holds the string `1`. -/
theorem C10_witness_string_leaf :
    ParseCommand (fun s => (Except.ok s : Except Unit Str))
        ["/".toList, "a=1".toList, "a.b=2".toList] =
      Outcome.ret none (some Err.pathCollision) :=
  (C10_leaf_prefix_is_collision (fun s => (Except.ok s : Except Unit Str))).2.1
    ["/".toList, "a=1".toList, "a.b=2".toList] ["a=1".toList] [] "/".toList "a.b=2".toList
    "http:///".toList
    { q := [], fields := JSON.obj [("a".toList, JSON.str "1".toList)], h := [], unknown := [] }
    { k := "a.b".toList, v := JSON.str "2".toList, kind := argType.fieldArg }
    ["a".toList] ["b".toList] (JSON.str "1".toList)
    rfl rfl rfl rfl rfl (Or.inl rfl) rfl (by simp) (by simp) rfl (by simp) (by simp)

/-- C10 as stated fails for a null leaf: in the tree `{"a":null}` the prefix `a` of the
path `a.b` holds null, and inserting at `a.b` succeeds, replacing the null by a new
object; `/ a:=null a.b=2` assembles with body `{"a":{"b":"2"}}`. -/
theorem C10_counterexample_null_leaf :
    lookupPath ["a".toList] (JSON.obj [("a".toList, JSON.null)]) = some JSON.null ∧
    Container.SetP (JSON.str "2".toList) "a.b".toList (JSON.obj [("a".toList, JSON.null)]) =
      some (JSON.obj [("a".toList, JSON.obj [("b".toList, JSON.str "2".toList)])]) ∧
    ParseCommand (fun s => (Except.ok s : Except Unit Str))
        ["/".toList, "a:=null".toList, "a.b=2".toList] =
      Outcome.ret (some ⟨"GET".toList, "http:///".toList, [], [],
        "\x7b\"a\":\x7b\"b\":\"2\"\x7d\x7d".toList⟩) none :=
  ⟨rfl, rfl, rfl⟩

/-! ## The loop, one token at a time -/

/-- The value of a header or query entry is a string. -/
theorem parseKV_str (arg : Str) (kv : KV) (h : parseKV arg = some kv)
    (hk : kv.kind = argType.headerArg ∨ kv.kind = argType.queryArg) :
    ∃ s, kv.v = JSON.str s := by
  unfold parseKV at h
  cases hf : findSubmatch arg with
  | none => simp [hf] at h
  | some g =>
    obtain ⟨k, sp, v⟩ := g
    simp only [hf] at h
    split at h
    · simp only [Option.some.injEq] at h; subst h; exact ⟨v, rfl⟩
    · split at h
      · simp only [Option.some.injEq] at h; subst h; exact ⟨v, rfl⟩
      · split at h
        · simp only [Option.some.injEq] at h; subst h
          rcases hk with hk | hk <;> simp at hk
        · split at h
          · simp only [Option.some.injEq] at h; subst h; exact ⟨v, rfl⟩
          · simp only [Option.some.injEq] at h; subst h; exact ⟨v, rfl⟩

/-- What an iteration that goes on to the next token has done: nothing for the empty
token, and otherwise exactly one of four updates. -/
theorem loopBody_next (a a1 : Acc) (arg : Str) (h : loopBody a arg = Step.next a1) :
    (arg = [] ∧ a1 = a) ∨
    (arg ≠ [] ∧ parseKV arg = none ∧ a1 = { a with unknown := a.unknown ++ [arg] }) ∨
    (arg ≠ [] ∧ ∃ kv s, parseKV arg = some kv ∧ kv.kind = argType.headerArg ∧ kv.v = JSON.str s ∧
      a1 = { a with h := Header.Add kv.k s a.h }) ∨
    (arg ≠ [] ∧ ∃ kv s, parseKV arg = some kv ∧ kv.kind = argType.queryArg ∧ kv.v = JSON.str s ∧
      a1 = { a with q := Values.Add kv.k s a.q }) ∨
    (arg ≠ [] ∧ ∃ kv t, parseKV arg = some kv ∧
      (kv.kind = argType.fieldArg ∨ kv.kind = argType.jsonArg) ∧
      Container.SetP kv.v kv.k a.fields = some t ∧ a1 = { a with fields := t }) := by
  unfold loopBody at h
  by_cases he : arg = []
  · simp only [he, if_true, Step.next.injEq] at h
    exact Or.inl ⟨he, h.symm⟩
  · simp only [he, if_false] at h
    cases hkv : parseKV arg with
    | none =>
      simp only [hkv, Step.next.injEq] at h
      exact Or.inr (Or.inl ⟨he, rfl, h.symm⟩)
    | some kv =>
      simp only [hkv] at h
      cases hkind : kv.kind with
      | fieldArg =>
        simp only [hkind] at h
        cases hs : Container.SetP kv.v kv.k a.fields with
        | none => simp [hs] at h
        | some t =>
          simp only [hs, Step.next.injEq] at h
          exact Or.inr (Or.inr (Or.inr (Or.inr ⟨he, kv, t, rfl, Or.inl hkind, hs, h.symm⟩)))
      | jsonArg =>
        simp only [hkind] at h
        cases hs : Container.SetP kv.v kv.k a.fields with
        | none => simp [hs] at h
        | some t =>
          simp only [hs, Step.next.injEq] at h
          exact Or.inr (Or.inr (Or.inr (Or.inr ⟨he, kv, t, rfl, Or.inr hkind, hs, h.symm⟩)))
      | headerArg =>
        simp only [hkind] at h
        obtain ⟨s, hv⟩ := parseKV_str arg kv hkv (Or.inl hkind)
        simp only [hv, Step.next.injEq] at h
        exact Or.inr (Or.inr (Or.inl ⟨he, kv, s, rfl, hkind, hv, h.symm⟩))
      | queryArg =>
        simp only [hkind] at h
        obtain ⟨s, hv⟩ := parseKV_str arg kv hkv (Or.inr hkind)
        simp only [hv, Step.next.injEq] at h
        exact Or.inr (Or.inr (Or.inr (Or.inl ⟨he, kv, s, rfl, hkind, hv, h.symm⟩)))

theorem loopBody_ne_panic (a : Acc) (arg : Str) : loopBody a arg ≠ Step.panic := by
  unfold loopBody
  by_cases he : arg = []
  · simp [he]
  · simp only [he, if_false]
    cases hkv : parseKV arg with
    | none => simp
    | some kv =>
      simp only
      cases hkind : kv.kind with
      | fieldArg => simp only; cases Container.SetP kv.v kv.k a.fields <;> simp
      | jsonArg => simp only; cases Container.SetP kv.v kv.k a.fields <;> simp
      | headerArg =>
        obtain ⟨s, hv⟩ := parseKV_str arg kv hkv (Or.inl hkind)
        simp [hv]
      | queryArg =>
        obtain ⟨s, hv⟩ := parseKV_str arg kv hkv (Or.inr hkind)
        simp [hv]

theorem loop_ne_panic (toks : List Str) : ∀ a : Acc, loop a toks ≠ Step.panic := by
  induction toks with
  | nil => intro a; simp [loop]
  | cons arg rest ih =>
    intro a
    simp only [loop]
    cases hb : loopBody a arg with
    | next a1 => exact ih a1
    | fail => simp
    | panic => exact absurd hb (loopBody_ne_panic a arg)

/-- C11: whenever `ParseCommand` returns an error it returns no request (`nil`), and
whenever it returns a request the error is `nil`: a failed build gives no descriptor. -/
theorem C11_error_means_no_request {ε υ : Type} (urlParse : Str → Except ε υ) :
    (∀ (args : List Str) (r : Option (Request υ)) (e : Err ε),
      ParseCommand urlParse args = Outcome.ret r (some e) → r = none) ∧
    (∀ (args : List Str) (r : Request υ) (e : Option (Err ε)),
      ParseCommand urlParse args = Outcome.ret (some r) e → e = none) ∧
    (∀ (e : ε), urlParse "http://%zz".toList = Except.error e →
      ParseCommand urlParse ["GET".toList, "%zz".toList, "a=1".toList] =
        Outcome.ret none (some (Err.parseHost e))) := by
  refine ⟨?_, ?_, ?_⟩
  · intro args r e h
    cases r with
    | none => rfl
    | some r1 =>
      have := (ParseCommand_ret urlParse args r1 (some e) h).1
      exact absurd this (by simp)
  · intro args r e h
    exact (ParseCommand_ret urlParse args r e h).1
  · intro e he
    have hn : normalizeHost "%zz".toList = "http://%zz".toList := by decide
    have hm : isMethod "GET".toList = true := by decide
    simp only [ParseCommand, hm, parseHost, hn, he, if_true]

/-- Witness of C11: with a URL parser that accepts everything, `/ a=1 a.b=2` returns the
path-collision error, and no request with it. -/
theorem C11_witness_collision_no_request :
    ParseCommand (fun s => (Except.ok s : Except Unit Str))
        ["/".toList, "a=1".toList, "a.b=2".toList] =
      Outcome.ret none (some Err.pathCollision) ∧
    (none : Option (Request Str)) = none :=
  ⟨rfl, (C11_error_means_no_request (fun s => (Except.ok s : Except Unit Str))).1
    ["/".toList, "a=1".toList, "a.b=2".toList] none Err.pathCollision rfl⟩

/-- C19: for every token that `parseKV` matches with kind header or query the entry's
value is a string, so the type assertions `kv.v.(string)` never fail: no iteration of
the loop and no run of it panics, and `ParseCommand` panics only when the token
sequence is empty or consists of a method name alone. -/
theorem C19_header_and_query_values_are_strings :
    (∀ (arg : Str) (kv : KV), parseKV arg = some kv →
      kv.kind = argType.headerArg ∨ kv.kind = argType.queryArg → ∃ s, kv.v = JSON.str s) ∧
    (∀ (a : Acc) (arg : Str), loopBody a arg ≠ Step.panic) ∧
    (∀ (a : Acc) (toks : List Str), loop a toks ≠ Step.panic) ∧
    (∀ (ε υ : Type) (urlParse : Str → Except ε υ) (args : List Str),
      ParseCommand urlParse args = Outcome.panic →
      args = [] ∨ ∃ m, args = [m] ∧ isMethod m = true) := by
  refine ⟨parseKV_str, loopBody_ne_panic, fun a toks => loop_ne_panic toks a, ?_⟩
  intro ε υ urlParse args h
  cases args with
  | nil => exact Or.inl rfl
  | cons first rest =>
    right
    by_cases hm : isMethod first = true
    · cases rest with
      | nil => exact ⟨first, rfl, hm⟩
      | cons host tail =>
        simp only [ParseCommand, hm, if_true] at h
        cases hp : parseHost urlParse host with
        | error e => simp [hp] at h
        | ok u =>
          simp only [hp, assemble] at h
          cases hl : loop Acc.init tail with
          | next a => simp [hl] at h
          | fail => simp [hl] at h
          | panic => exact absurd hl (loop_ne_panic tail Acc.init)
    · have hm1 : isMethod first = false := by simpa using hm
      simp only [ParseCommand, hm1, Bool.false_eq_true, if_false] at h
      cases hp : parseHost urlParse first with
      | error e => simp [hp] at h
      | ok u =>
        simp only [hp, assemble] at h
        cases hl : loop Acc.init rest with
        | next a => simp [hl] at h
        | fail => simp [hl] at h
        | panic => exact absurd hl (loop_ne_panic rest Acc.init)

/-- Witness of C19 at the header token `Accept:application/json`. -/
theorem C19_witness_header_value :
    ∃ s, JSON.str "application/json".toList = JSON.str s :=
  C19_header_and_query_values_are_strings.1 "Accept:application/json".toList
    { k := "Accept".toList, v := JSON.str "application/json".toList, kind := argType.headerArg }
    rfl (Or.inl rfl)

theorem hostCases_of_scheme (r : Str)
    (h : "http://".toList.isPrefixOf r = true ∨ "https://".toList.isPrefixOf r = true) :
    hostCases r = r := by
  have h1 : ¬ (r = ":".toList ∨ r = "localhost".toList) := by
    intro e
    rcases e with e | e <;> subst e <;> revert h <;> decide
  have h2 : ":".toList.isPrefixOf r = false := by
    cases r with
    | nil => rfl
    | cons c t =>
      have hc : c = 'h' := by
        rcases h with h | h <;> simp [List.isPrefixOf] at h <;> exact h.1.symm
      subst hc
      rfl
  unfold hostCases
  rw [if_neg h1, h2]
  simp only [Bool.false_eq_true, if_false]
  rw [if_pos h]

theorem hostCases_scheme (s : Str) :
    "http://".toList.isPrefixOf (hostCases s) = true ∨
      "https://".toList.isPrefixOf (hostCases s) = true := by
  unfold hostCases
  split
  · left; decide
  · split
    · left; simp [List.isPrefixOf]
    · split
      · assumption
      · left; simp [List.isPrefixOf]

/-- C17: for every host specifier `s`, the string that `parseHost` hands to the URL
parser starts with `http://` or `https://`, and normalising it again returns it
unchanged, so `parseHost` gives the same result on it. -/
theorem C17_normalizeHost_scheme_and_idempotent (s : Str) :
    ("http://".toList.isPrefixOf (normalizeHost s) = true ∨
      "https://".toList.isPrefixOf (normalizeHost s) = true) ∧
    normalizeHost (normalizeHost s) = normalizeHost s ∧
    (∀ (ε υ : Type) (urlParse : Str → Except ε υ),
      parseHost urlParse (normalizeHost s) = parseHost urlParse s) := by
  have h1 : "http://".toList.isPrefixOf (normalizeHost s) = true ∨
      "https://".toList.isPrefixOf (normalizeHost s) = true := by
    rw [normalizeHost_eq_hostCases]
    exact hostCases_scheme s
  have h2 : normalizeHost (normalizeHost s) = normalizeHost s := by
    rw [normalizeHost_eq_hostCases (normalizeHost s)]
    exact hostCases_of_scheme _ h1
  refine ⟨h1, h2, ?_⟩
  intro ε υ urlParse
  unfold parseHost
  rw [h2]

/-! ## The loop: what each accumulator ends up with -/

theorem loop_cons_next (a a1 : Acc) (arg : Str) (rest : List Str)
    (h : loop a (arg :: rest) = Step.next a1) :
    ∃ a2, loopBody a arg = Step.next a2 ∧ loop a2 rest = Step.next a1 := by
  simp only [loop] at h
  cases hb : loopBody a arg with
  | next a2 => rw [hb] at h; exact ⟨a2, rfl, h⟩
  | fail => simp [hb] at h
  | panic => simp [hb] at h

/-- Without field and JSON-field tokens the field tree stays as it is. -/
theorem loop_fields_unchanged (toks : List Str) : ∀ (a a1 : Acc),
    (∀ t ∈ toks, ∀ kv, parseKV t = some kv →
      kv.kind ≠ argType.fieldArg ∧ kv.kind ≠ argType.jsonArg) →
    loop a toks = Step.next a1 → a1.fields = a.fields := by
  induction toks with
  | nil =>
    intro a a1 _ h
    simp only [loop, Step.next.injEq] at h
    rw [h]
  | cons arg rest ih =>
    intro a a1 hno h
    obtain ⟨a2, hb, hl⟩ := loop_cons_next a a1 arg rest h
    have h2 := ih a2 a1 (fun t ht => hno t (by simp [ht])) hl
    rw [h2]
    rcases loopBody_next a a2 arg hb with h3 | h3 | h3 | h3 | h3
    · rw [h3.2]
    · rw [h3.2.2]
    · obtain ⟨_, kv, s, _, _, _, e⟩ := h3; rw [e]
    · obtain ⟨_, kv, s, _, _, _, e⟩ := h3; rw [e]
    · obtain ⟨_, kv, t, hkv, hk, _, _⟩ := h3
      have := hno arg (by simp) kv hkv
      rcases hk with hk | hk
      · exact absurd hk this.1
      · exact absurd hk this.2

/-- The query values after the loop are those of the `==` tokens, added in order. -/
theorem loop_query (toks : List Str) : ∀ (a a1 : Acc),
    loop a toks = Step.next a1 → a1.q = queryOf a.q toks := by
  induction toks with
  | nil =>
    intro a a1 h
    simp only [loop, Step.next.injEq] at h
    rw [h]; rfl
  | cons arg rest ih =>
    intro a a1 h
    obtain ⟨a2, hb, hl⟩ := loop_cons_next a a1 arg rest h
    rw [ih a2 a1 hl]
    have hstep : a2.q = queryOf a.q [arg] := by
      rcases loopBody_next a a2 arg hb with h3 | h3 | h3 | h3 | h3
      · rw [h3.2, h3.1]; rfl
      · rw [h3.2.2]; simp [queryOf, h3.2.1]
      · obtain ⟨_, kv, s, hkv, hk, _, e⟩ := h3; rw [e]; simp [queryOf, hkv, hk]
      · obtain ⟨_, kv, s, hkv, hk, hv, e⟩ := h3; rw [e]; simp [queryOf, hkv, hk, hv]
      · obtain ⟨_, kv, t, hkv, hk, _, e⟩ := h3
        rw [e]
        rcases hk with hk | hk <;> simp [queryOf, hkv, hk]
    rw [hstep]
    simp [queryOf]

theorem queryOf_no_query (toks : List Str) : ∀ (q : Values),
    (∀ t ∈ toks, ∀ kv, parseKV t = some kv → kv.kind ≠ argType.queryArg) →
    queryOf q toks = q := by
  induction toks with
  | nil => intro q _; rfl
  | cons arg rest ih =>
    intro q hno
    have h1 : queryOf q (arg :: rest) = queryOf (queryOf q [arg]) rest := by simp [queryOf]
    have h2 : queryOf q [arg] = q := by
      cases hkv : parseKV arg with
      | none => simp [queryOf, hkv]
      | some kv =>
        have := hno arg (by simp) kv hkv
        simp [queryOf, hkv, this]
    rw [h1, h2]
    exact ih q (fun t ht => hno t (by simp [ht]))

/-- The channel `unknown` receives exactly the non-empty tokens that `parseKV` does not
match, in order, once each. -/
theorem loop_unknown (toks : List Str) : ∀ (a a1 : Acc),
    loop a toks = Step.next a1 → a1.unknown = a.unknown ++ unmatched toks := by
  induction toks with
  | nil =>
    intro a a1 h
    simp only [loop, Step.next.injEq] at h
    rw [h]; simp [unmatched]
  | cons arg rest ih =>
    intro a a1 h
    obtain ⟨a2, hb, hl⟩ := loop_cons_next a a1 arg rest h
    rw [ih a2 a1 hl]
    have hstep : a2.unknown = a.unknown ++ unmatched [arg] := by
      rcases loopBody_next a a2 arg hb with h3 | h3 | h3 | h3 | h3
      · rw [h3.2, h3.1]; simp [unmatched]
      · rw [h3.2.2]; simp [unmatched, h3.1, h3.2.1]
      · obtain ⟨_, kv, s, hkv, _, _, e⟩ := h3; rw [e]; simp [unmatched, hkv]
      · obtain ⟨_, kv, s, hkv, _, _, e⟩ := h3; rw [e]; simp [unmatched, hkv]
      · obtain ⟨_, kv, t, hkv, _, _, e⟩ := h3; rw [e]; simp [unmatched, hkv]
    rw [hstep, List.append_assoc]
    congr 1
    unfold unmatched
    rw [← List.filter_append]
    rfl

/-- C16: for every token sequence that `ParseCommand` assembles and whose tokens after
the host are none of kind field or JSON field, the request body is exactly the two
bytes `{}`, the serialisation of the empty field tree, and not an empty body. -/
theorem C16_body_without_fields_is_empty_object {ε υ : Type} (urlParse : Str → Except ε υ) :
    (∀ (args : List Str) (r : Request υ),
      ParseCommand urlParse args = Outcome.ret (some r) none →
      (∀ t ∈ restArgs args, ∀ kv, parseKV t = some kv →
        kv.kind ≠ argType.fieldArg ∧ kv.kind ≠ argType.jsonArg) →
      r.Body = ['{', '}']) ∧
    encodeJSON (JSON.obj []) = ['{', '}'] ∧
    (∀ u, urlParse "http://httpbin.org".toList = Except.ok u →
      ParseCommand urlParse ["httpbin.org".toList, "Accept:text/plain".toList, "q==x".toList] =
        Outcome.ret (some ⟨"GET".toList, u, "q=x".toList,
          [("Accept".toList, ["text/plain".toList])], ['{', '}']⟩) none) := by
  refine ⟨?_, by decide, ?_⟩
  · intro args r h hno
    obtain ⟨_, a, hl, _, _, hb, _⟩ := ParseCommand_ret urlParse args r none h
    have hf := loop_fields_unchanged (restArgs args) Acc.init a hno hl
    rw [hb, hf]
    decide
  · intro u hu
    have hn : normalizeHost "httpbin.org".toList = "http://httpbin.org".toList := by decide
    have hm : isMethod "httpbin.org".toList = false := by decide
    simp only [ParseCommand, hm, parseHost, hn, hu]
    rfl

/-- Witness of C16: with a URL parser that accepts everything, `GET :8080 X:y q==1`
assembles, has no field token, and its body is `{}`. -/
theorem C16_witness_header_and_query_only :
    ParseCommand (fun s => (Except.ok s : Except Unit Str))
        ["GET".toList, ":8080".toList, "X:y".toList, "q==1".toList] =
      Outcome.ret (some ⟨"GET".toList, "http://localhost:8080".toList, "q=1".toList,
        [("X".toList, ["y".toList])], ['{', '}']⟩) none ∧
    (['{', '}'] : Str) = ['{', '}'] :=
  ⟨rfl, (C16_body_without_fields_is_empty_object (fun s => (Except.ok s : Except Unit Str))).1
    ["GET".toList, ":8080".toList, "X:y".toList, "q==1".toList]
    ⟨"GET".toList, "http://localhost:8080".toList, "q=1".toList, [("X".toList, ["y".toList])],
      ['{', '}']⟩
    rfl (by
      intro t ht kv hkv
      simp only [restArgs, List.drop] at ht
      have hm : isMethod "GET".toList = true := by decide
      simp only [hm, if_true, List.drop_succ_cons, List.drop_zero, List.mem_cons,
        List.mem_singleton, List.not_mem_nil, or_false] at ht
      rcases ht with e | e
      · subst e
        have : parseKV "X:y".toList =
            some { k := "X".toList, v := JSON.str "y".toList, kind := argType.headerArg } := rfl
        rw [this] at hkv
        cases hkv
        simp
      · subst e
        have : parseKV "q==1".toList =
            some { k := "q".toList, v := JSON.str "1".toList, kind := argType.queryArg } := rfl
        rw [this] at hkv
        cases hkv
        simp)⟩

/-- C18: for every token sequence that `ParseCommand` assembles, the query string of the
request's URL is the encoding of the values of the `==` tokens and nothing else: it
does not depend on the host specifier, whose own query string is overwritten
(`example.com/get?x=1` gives an empty query string), and with no `==` token it is
empty. -/
theorem C18_query_string_is_the_encoded_tokens {ε υ : Type} (urlParse : Str → Except ε υ) :
    (∀ (args : List Str) (r : Request υ),
      ParseCommand urlParse args = Outcome.ret (some r) none →
      r.RawQuery = Values.Encode (queryOf [] (restArgs args)) ∧
      ((∀ t ∈ restArgs args, ∀ kv, parseKV t = some kv → kv.kind ≠ argType.queryArg) →
        r.RawQuery = [])) ∧
    (∀ u, urlParse "http://example.com/get?x=1".toList = Except.ok u →
      ParseCommand urlParse ["example.com/get?x=1".toList] =
        Outcome.ret (some ⟨"GET".toList, u, [], [], ['{', '}']⟩) none ∧
      ParseCommand urlParse ["example.com/get?x=1".toList, "y==2".toList] =
        Outcome.ret (some ⟨"GET".toList, u, "y=2".toList, [], ['{', '}']⟩) none) := by
  refine ⟨?_, ?_⟩
  · intro args r h
    obtain ⟨_, a, hl, hq, _, _, _⟩ := ParseCommand_ret urlParse args r none h
    have hq2 := loop_query (restArgs args) Acc.init a hl
    have hq3 : r.RawQuery = Values.Encode (queryOf [] (restArgs args)) := by
      rw [hq, hq2]; rfl
    refine ⟨hq3, ?_⟩
    intro hno
    rw [hq3, queryOf_no_query (restArgs args) [] hno]
    rfl
  · intro u hu
    have hn : normalizeHost "example.com/get?x=1".toList = "http://example.com/get?x=1".toList := by
      decide
    have hm : isMethod "example.com/get?x=1".toList = false := by decide
    refine ⟨?_, ?_⟩
    · simp only [ParseCommand, hm, parseHost, hn, hu]
      rfl
    · simp only [ParseCommand, hm, parseHost, hn, hu]
      rfl

/-- Witness of C18: with a URL parser that accepts everything,
`example.com/get?x=1 Accept:a` assembles and has an empty query string. -/
theorem C18_witness_host_query_discarded :
    ([] : Str) = Values.Encode (queryOf [] (restArgs ["example.com/get?x=1".toList,
        "Accept:a".toList])) ∧
    ((∀ t ∈ restArgs ["example.com/get?x=1".toList, "Accept:a".toList], ∀ kv,
        parseKV t = some kv → kv.kind ≠ argType.queryArg) → ([] : Str) = []) :=
  (C18_query_string_is_the_encoded_tokens (fun s => (Except.ok s : Except Unit Str))).1
    ["example.com/get?x=1".toList, "Accept:a".toList]
    ⟨"GET".toList, "http://example.com/get?x=1".toList, [], [("Accept".toList, ["a".toList])],
      ['{', '}']⟩
    rfl

/-! ## Unmatched tokens -/

theorem litThen_head {α : Type} (l : Str) (k : Str → Str → Option α) (s : Str) (d : Char)
    (ds : Str) (hl : l = d :: ds) (hs : ∀ c ∈ s.head?, c ≠ d) : litThen l k s = none := by
  subst hl
  cases s with
  | nil => simp [litThen, List.isPrefixOf]
  | cons c t =>
    have hc : c ≠ d := hs c (by simp)
    have : (d == c) = false := by
      cases hb : d == c with
      | false => rfl
      | true => exact absurd (by simpa using hb : d = c).symm hc
    simp [litThen, List.isPrefixOf, this]

/-- No separator matches in front of a character other than `:` and `=`. -/
theorem sepAlt_no_sep {α : Type} (k : Str → Str → Option α) (s : Str)
    (hs : ∀ c ∈ s.head?, c ≠ ':' ∧ c ≠ '=') : sepAlt k s = none := by
  unfold sepAlt
  rw [litThen_head _ k s '=' ['='] rfl (fun c hc => (hs c hc).2),
    litThen_head _ k s ':' ['='] rfl (fun c hc => (hs c hc).1),
    litThen_head _ k s '=' [] rfl (fun c hc => (hs c hc).2),
    litThen_head _ k s ':' [] rfl (fun c hc => (hs c hc).1)]

theorem matchHere_no_sep (s : Str) (hs : ∀ c ∈ s, c ≠ ':' ∧ c ≠ '=') : matchHere s = none := by
  rw [matchHere_eq]
  split
  · rfl
  · apply sepAlt_no_sep
    intro c hc
    have hmem : c ∈ s.dropWhile isKeyChar := List.mem_of_mem_head? hc
    exact hs c ((List.dropWhile_sublist isKeyChar).subset hmem)

/-- A token without `:` and `=` is not matched. -/
theorem parseKV_no_sep (s : Str) (hs : ∀ c ∈ s, c ≠ ':' ∧ c ≠ '=') : parseKV s = none := by
  have hf : findSubmatch s = none := by
    induction s with
    | nil => rfl
    | cons c cs ih =>
      simp only [findSubmatch, matchHere_no_sep (c :: cs) hs]
      exact ih (fun d hd => hs d (by simp [hd]))
  simp [parseKV, hf]

theorem sameCore_refl (a : Acc) : sameCore a a := ⟨rfl, rfl, rfl⟩

/-- An iteration does not look at what was sent on `unknown`. -/
theorem loopBody_sameCore (a b : Acc) (arg : Str) (h : sameCore a b) :
    sameStep (loopBody a arg) (loopBody b arg) := by
  obtain ⟨aq, af, ah, au⟩ := a
  obtain ⟨bq, bf, bh, bu⟩ := b
  obtain ⟨h1, h2, h3⟩ := h
  simp only at h1 h2 h3
  subst h1 h2 h3
  unfold loopBody
  by_cases he : arg = []
  · simp [he, sameStep, sameCore]
  · simp only [he, if_false]
    cases hkv : parseKV arg with
    | none => simp [sameStep, sameCore]
    | some kv =>
      simp only
      cases hkind : kv.kind with
      | fieldArg =>
        simp only
        cases hs : Container.SetP kv.v kv.k af <;> simp [sameStep, sameCore]
      | jsonArg =>
        simp only
        cases hs : Container.SetP kv.v kv.k af <;> simp [sameStep, sameCore]
      | headerArg =>
        obtain ⟨sv, hv⟩ := parseKV_str arg kv hkv (Or.inl hkind)
        simp [hv, sameStep, sameCore]
      | queryArg =>
        obtain ⟨sv, hv⟩ := parseKV_str arg kv hkv (Or.inr hkind)
        simp [hv, sameStep, sameCore]

theorem loop_sameCore (toks : List Str) : ∀ (a b : Acc), sameCore a b →
    sameStep (loop a toks) (loop b toks) := by
  induction toks with
  | nil => intro a b h; exact h
  | cons arg rest ih =>
    intro a b h
    have hb := loopBody_sameCore a b arg h
    simp only [loop]
    cases h1 : loopBody a arg with
    | next a1 =>
      cases h2 : loopBody b arg with
      | next b1 =>
        rw [h1, h2] at hb
        exact ih a1 b1 hb
      | fail => rw [h1, h2] at hb; exact hb.elim
      | panic => rw [h1, h2] at hb; exact hb.elim
    | fail =>
      cases h2 : loopBody b arg with
      | next b1 => rw [h1, h2] at hb; exact hb.elim
      | fail => trivial
      | panic => rw [h1, h2] at hb; exact hb.elim
    | panic =>
      cases h2 : loopBody b arg with
      | next b1 => rw [h1, h2] at hb; exact hb.elim
      | fail => rw [h1, h2] at hb; exact hb.elim
      | panic => trivial

/-- A token that `parseKV` does not match, put anywhere among the tokens of the loop,
does not change how the loop ends nor what goes into the request. -/
theorem loop_insert_unmatched (before after : List Str) (u : Str) (hu : parseKV u = none) :
    sameStep (loop Acc.init (before ++ after)) (loop Acc.init (before ++ u :: after)) := by
  rw [loop_append, loop_append]
  cases hb : loop Acc.init before with
  | next a =>
    simp only [loop]
    have hstep : ∃ a2, loopBody a u = Step.next a2 ∧ sameCore a a2 := by
      unfold loopBody
      by_cases he : u = []
      · exact ⟨a, by simp [he], sameCore_refl a⟩
      · exact ⟨{ a with unknown := a.unknown ++ [u] }, by simp [he, hu], ⟨rfl, rfl, rfl⟩⟩
    obtain ⟨a2, h2, hc⟩ := hstep
    rw [h2]
    exact loop_sameCore after a a2 hc
  | fail => trivial
  | panic => trivial

theorem assemble_sameStep {ε υ : Type} (method : Str) (uri : υ) (toks1 toks2 : List Str)
    (h : sameStep (loop Acc.init toks1) (loop Acc.init toks2)) :
    (assemble method uri toks1 : Outcome ε υ) = assemble method uri toks2 := by
  unfold assemble
  cases h1 : loop Acc.init toks1 with
  | next a =>
    cases h2 : loop Acc.init toks2 with
    | next b =>
      rw [h1, h2] at h
      obtain ⟨e1, e2, e3⟩ := h
      simp only [e1, e2, e3]
    | fail => rw [h1, h2] at h; exact h.elim
    | panic => rw [h1, h2] at h; exact h.elim
  | fail =>
    cases h2 : loop Acc.init toks2 with
    | next b => rw [h1, h2] at h; exact h.elim
    | fail => rfl
    | panic => rw [h1, h2] at h; exact h.elim
  | panic =>
    cases h2 : loop Acc.init toks2 with
    | next b => rw [h1, h2] at h; exact h.elim
    | fail => rw [h1, h2] at h; exact h.elim
    | panic => rfl

/-- C12: a token that the classifier does not match (for instance one without `:` and
`=`), inserted anywhere after the host token, changes nothing: `ParseCommand` ends the
same way, and when it assembles the request has the same method, URL, query string,
headers and body; the token itself is no failure. -/
theorem C12_unmatched_token_changes_nothing {ε υ : Type} (urlParse : Str → Except ε υ) :
    (∀ (host u : Str) (before after : List Str), isMethod host = false → parseKV u = none →
      ParseCommand urlParse (host :: (before ++ u :: after)) =
        ParseCommand urlParse (host :: (before ++ after))) ∧
    (∀ (m host u : Str) (before after : List Str), isMethod m = true → parseKV u = none →
      ParseCommand urlParse (m :: host :: (before ++ u :: after)) =
        ParseCommand urlParse (m :: host :: (before ++ after))) ∧
    (∀ u : Str, (∀ c ∈ u, c ≠ ':' ∧ c ≠ '=') → parseKV u = none) ∧
    (∀ x, urlParse "http://httpbin.org".toList = Except.ok x →
      ParseCommand urlParse ["httpbin.org".toList, "a=1".toList, "verbose".toList, "q==x".toList] =
        Outcome.ret (some ⟨"GET".toList, x, "q=x".toList, [],
          "\x7b\"a\":\"1\"\x7d".toList⟩) none) := by
  refine ⟨?_, ?_, parseKV_no_sep, ?_⟩
  · intro host u before after hm hu
    simp only [ParseCommand, hm, Bool.false_eq_true, if_false]
    cases parseHost urlParse host with
    | error e => rfl
    | ok uri =>
      exact (assemble_sameStep "GET".toList uri _ _
        (loop_insert_unmatched before after u hu)).symm
  · intro m host u before after hm hu
    simp only [ParseCommand, hm, if_true]
    cases parseHost urlParse host with
    | error e => rfl
    | ok uri =>
      exact (assemble_sameStep m uri _ _ (loop_insert_unmatched before after u hu)).symm
  · intro x hx
    have hn : normalizeHost "httpbin.org".toList = "http://httpbin.org".toList := by decide
    have hm : isMethod "httpbin.org".toList = false := by decide
    simp only [ParseCommand, hm, parseHost, hn, hx]
    rfl

/-- Witness of C12: with a URL parser that accepts everything, the token `verbose`
between `a=1` and `q==x` does not change the outcome. -/
theorem C12_witness_verbose_token :
    ParseCommand (fun s => (Except.ok s : Except Unit Str))
        ("httpbin.org".toList :: (["a=1".toList] ++ "verbose".toList :: ["q==x".toList])) =
      ParseCommand (fun s => (Except.ok s : Except Unit Str))
        ("httpbin.org".toList :: (["a=1".toList] ++ ["q==x".toList])) :=
  (C12_unmatched_token_changes_nothing (fun s => (Except.ok s : Except Unit Str))).1
    "httpbin.org".toList "verbose".toList ["a=1".toList] ["q==x".toList] (by decide) rfl

/-- C13 (as amended): every non-empty token after the method and host tokens is handled
in exactly one way: either `parseKV` does not match it and it is sent on `unknown`, or
it yields one entry, which is added to the headers, or to the query values, or to the
field tree, and the other three stay as they are; over a run that assembles, `unknown`
has received exactly the non-empty unmatched tokens, each once, in order.  An empty
token is skipped: it is neither classified nor sent on `unknown`. -/
theorem C13_each_token_handled_once {ε υ : Type} (urlParse : Str → Except ε υ) :
    (∀ (a a1 : Acc) (arg : Str), arg ≠ [] → loopBody a arg = Step.next a1 →
      (parseKV arg = none ∧ a1 = { a with unknown := a.unknown ++ [arg] }) ∨
      (∃ kv s, parseKV arg = some kv ∧ kv.kind = argType.headerArg ∧ kv.v = JSON.str s ∧
        a1 = { a with h := Header.Add kv.k s a.h }) ∨
      (∃ kv s, parseKV arg = some kv ∧ kv.kind = argType.queryArg ∧ kv.v = JSON.str s ∧
        a1 = { a with q := Values.Add kv.k s a.q }) ∨
      (∃ kv t, parseKV arg = some kv ∧
        (kv.kind = argType.fieldArg ∨ kv.kind = argType.jsonArg) ∧
        Container.SetP kv.v kv.k a.fields = some t ∧ a1 = { a with fields := t })) ∧
    (∀ (args : List Str) (r : Request υ),
      ParseCommand urlParse args = Outcome.ret (some r) none →
      ∃ a, loop Acc.init (restArgs args) = Step.next a ∧
        a.unknown = (restArgs args).filter (fun t => decide (t ≠ []) && (parseKV t).isNone) ∧
        r.RawQuery = Values.Encode a.q ∧ r.Header = a.h ∧ r.Body = encodeJSON a.fields) ∧
    (∀ a : Acc, loopBody a [] = Step.next a) := by
  refine ⟨?_, ?_, fun a => rfl⟩
  · intro a a1 arg hne h
    rcases loopBody_next a a1 arg h with h3 | h3 | h3 | h3 | h3
    · exact absurd h3.1 hne
    · exact Or.inl ⟨h3.2.1, h3.2.2⟩
    · exact Or.inr (Or.inl h3.2)
    · exact Or.inr (Or.inr (Or.inl h3.2))
    · exact Or.inr (Or.inr (Or.inr h3.2))
  · intro args r h
    obtain ⟨_, a, hl, hq, hh, hb, _⟩ := ParseCommand_ret urlParse args r none h
    refine ⟨a, hl, ?_, hq, hh, hb⟩
    have := loop_unknown (restArgs args) Acc.init a hl
    simpa [Acc.init, unmatched] using this

/-- Witness of C13 at the unmatched token `verbose`. -/
theorem C13_witness_unmatched_token :
    (parseKV "verbose".toList = none ∧
      ({ q := [], fields := JSON.obj [], h := [], unknown := ["verbose".toList] } : Acc) =
        { Acc.init with unknown := Acc.init.unknown ++ ["verbose".toList] }) ∨
    (∃ kv s, parseKV "verbose".toList = some kv ∧ kv.kind = argType.headerArg ∧
      kv.v = JSON.str s ∧
      ({ q := [], fields := JSON.obj [], h := [], unknown := ["verbose".toList] } : Acc) =
        { Acc.init with h := Header.Add kv.k s Acc.init.h }) ∨
    (∃ kv s, parseKV "verbose".toList = some kv ∧ kv.kind = argType.queryArg ∧
      kv.v = JSON.str s ∧
      ({ q := [], fields := JSON.obj [], h := [], unknown := ["verbose".toList] } : Acc) =
        { Acc.init with q := Values.Add kv.k s Acc.init.q }) ∨
    (∃ kv t, parseKV "verbose".toList = some kv ∧
      (kv.kind = argType.fieldArg ∨ kv.kind = argType.jsonArg) ∧
      Container.SetP kv.v kv.k Acc.init.fields = some t ∧
      ({ q := [], fields := JSON.obj [], h := [], unknown := ["verbose".toList] } : Acc) =
        { Acc.init with fields := t }) :=
  (C13_each_token_handled_once (fun s => (Except.ok s : Except Unit Str))).1
    Acc.init { q := [], fields := JSON.obj [], h := [], unknown := ["verbose".toList] }
    "verbose".toList (by decide) rfl

/-- C13 as stated fails for the empty token: `parseKV` gives no entry for it and the
loop goes on with every accumulator unchanged, the channel `unknown` included, so the
token is dropped; `/ "" a=1` assembles like `/ a=1`. -/
theorem C13_counterexample_empty_token_dropped :
    parseKV [] = none ∧
    loopBody Acc.init [] = Step.next Acc.init ∧
    loop Acc.init [[], "a=1".toList] = loop Acc.init ["a=1".toList] ∧
    loop Acc.init [[], "a=1".toList] =
      Step.next { q := [], fields := JSON.obj [("a".toList, JSON.str "1".toList)], h := [],
                  unknown := [] } :=
  ⟨rfl, rfl, rfl, rfl⟩

/-! ## The field tree: repeated and independent paths -/

theorem mapSet_mapSet_same {β : Type} (k : Str) (x y : β) (m : List (Str × β)) :
    mapSet k x (mapSet k y m) = mapSet k x m := by
  induction m with
  | nil => simp [mapSet]
  | cons hd t ih =>
    obtain ⟨k1, v1⟩ := hd
    by_cases h1 : k = k1
    · subst h1
      simp [mapSet]
    · by_cases h2 : strLt k k1 = true
      · simp [mapSet, h1, h2]
      · simp [mapSet, h1, h2, ih]

/-- A successful run of the loop of `Set` along a non-empty path gives an object. -/
theorem setLoop_obj (v : JSON) (seg : Str) (rest : List Str) (o o1 : JSON)
    (h : setLoop v (seg :: rest) o = some o1) : ∃ m, o1 = JSON.obj m := by
  cases o with
  | obj m =>
    cases rest with
    | nil =>
      simp only [setLoop, Option.some.injEq] at h
      exact ⟨_, h.symm⟩
    | cons r rs =>
      rw [setLoop_cons_cons] at h
      cases hc : setLoop v (r :: rs) (childOrNew seg m) with
      | none => simp [hc] at h
      | some c =>
        simp only [hc, Option.some.injEq] at h
        exact ⟨_, h.symm⟩
  | null => simp [setLoop] at h
  | bool b => simp [setLoop] at h
  | num x => simp [setLoop] at h
  | str x => simp [setLoop] at h
  | arr x => simp [setLoop] at h

theorem childOrNew_mapSet_self (seg : Str) (c : List (Str × JSON)) (m : List (Str × JSON)) :
    childOrNew seg (mapSet seg (JSON.obj c) m) = JSON.obj c := by
  unfold childOrNew
  rw [mapGet_mapSet_self]

theorem setLoop_single (v : JSON) (seg : Str) (m : List (Str × JSON)) :
    setLoop v [seg] (JSON.obj m) = some (JSON.obj (mapSet seg v m)) := rfl

/-- Setting the same path again: the second value replaces the first, whatever it was. -/
theorem setLoop_overwrite (v1 v2 : JSON) : ∀ (path : List Str) (o o1 : JSON), path ≠ [] →
    setLoop v1 path o = some o1 → setLoop v2 path o1 = setLoop v2 path o ∧
      ∃ o2, setLoop v2 path o = some o2 := by
  intro path
  induction path with
  | nil => intro o o1 h; exact absurd rfl h
  | cons seg rest ih =>
    intro o o1 _ h
    cases o with
    | obj m =>
      cases rest with
      | nil =>
        simp only [setLoop_single, Option.some.injEq] at h
        subst h
        refine ⟨?_, _, rfl⟩
        rw [setLoop_single, setLoop_single, mapSet_mapSet_same]
      | cons r rs =>
        rw [setLoop_cons_cons] at h
        cases hc : setLoop v1 (r :: rs) (childOrNew seg m) with
        | none => simp [hc] at h
        | some c =>
          simp only [hc, Option.some.injEq] at h
          subst h
          obtain ⟨cm, hcm⟩ := setLoop_obj v1 r rs _ c hc
          subst hcm
          obtain ⟨e1, o2, e2⟩ := ih (childOrNew seg m) (JSON.obj cm) (by simp) hc
          refine ⟨?_, JSON.obj (mapSet seg o2 m), ?_⟩
          · rw [setLoop_cons_cons, setLoop_cons_cons, childOrNew_mapSet_self, e1, e2]
            simp only [mapSet_mapSet_same]
          · rw [setLoop_cons_cons, e2]
    | null => simp [setLoop] at h
    | bool b => simp [setLoop] at h
    | num x => simp [setLoop] at h
    | str x => simp [setLoop] at h
    | arr x => simp [setLoop] at h

/-- For a non-empty path `Set` runs its loop on the object, a `nil` object being
replaced by an empty map first. -/
theorem Container.Set_cons (v : JSON) (seg : Str) (rest : List Str) (g : JSON) :
    Container.Set v (seg :: rest) g =
      setLoop v (seg :: rest) (match g with | JSON.null => JSON.obj [] | x => x) := by
  cases g <;> rfl

theorem Container.Set_overwrite (v1 v2 : JSON) (path : List Str) (t t1 : JSON)
    (h : Container.Set v1 path t = some t1) :
    ∃ t2, Container.Set v2 path t1 = some t2 ∧ Container.Set v2 path t = some t2 := by
  cases path with
  | nil => exact ⟨v2, rfl, rfl⟩
  | cons seg rest =>
    rw [Container.Set_cons] at h
    obtain ⟨m, hm⟩ := setLoop_obj v1 seg rest _ t1 h
    subst hm
    obtain ⟨e1, o2, e2⟩ := setLoop_overwrite v1 v2 (seg :: rest) _ _ (by simp) h
    refine ⟨o2, ?_, ?_⟩
    · rw [Container.Set_cons]
      simp only
      rw [e1, e2]
    · rw [Container.Set_cons, e2]

/-- C20: when inserting `(p, v1)` into a field tree succeeds, inserting `(p, v2)`
afterwards succeeds as well and gives the tree that inserting `(p, v2)` directly gives:
a repeated path is no error and the last value wins; `a=1` then `a=2` gives the body
`{"a":"2"}`. -/
theorem C20_repeated_path_last_wins (t t1 v1 v2 : JSON) (p : Str)
    (h : Container.SetP v1 p t = some t1) :
    (∃ t2, Container.SetP v2 p t1 = some t2 ∧ Container.SetP v2 p t = some t2) ∧
    (∀ (ε υ : Type) (urlParse : Str → Except ε υ) (u : υ),
      urlParse "http:///".toList = Except.ok u →
      ParseCommand urlParse ["/".toList, "a=1".toList, "a=2".toList] =
        Outcome.ret (some ⟨"GET".toList, u, [], [], "\x7b\"a\":\"2\"\x7d".toList⟩) none) := by
  refine ⟨Container.Set_overwrite v1 v2 (splitDot p) t t1 h, ?_⟩
  intro ε υ urlParse u hu
  have hn : normalizeHost "/".toList = "http:///".toList := by decide
  have hm : isMethod "/".toList = false := by decide
  simp only [ParseCommand, hm, parseHost, hn, hu]
  rfl

/-- Witness of C20: `person.age` set to the string `1` and then to the number 100 in
the tree that holds `person.name`. -/
theorem C20_witness_nested_overwrite :
    ∃ t2,
      Container.SetP (JSON.num ⟨false, 25, 2⟩) "person.age".toList
        (JSON.obj [("person".toList,
          JSON.obj [("age".toList, JSON.str "1".toList),
                    ("name".toList, JSON.str "brett".toList)])]) = some t2 ∧
      Container.SetP (JSON.num ⟨false, 25, 2⟩) "person.age".toList
        (JSON.obj [("person".toList, JSON.obj [("name".toList, JSON.str "brett".toList)])]) =
        some t2 :=
  (C20_repeated_path_last_wins
    (JSON.obj [("person".toList, JSON.obj [("name".toList, JSON.str "brett".toList)])])
    (JSON.obj [("person".toList,
      JSON.obj [("age".toList, JSON.str "1".toList),
                ("name".toList, JSON.str "brett".toList)])])
    (JSON.str "1".toList) (JSON.num ⟨false, 25, 2⟩) "person.age".toList rfl).1

theorem char_toNat_inj (a b : Char) (h : a.toNat = b.toNat) : a = b := by
  have := congrArg Char.ofNat h
  simpa using this

theorem strLt_irrefl (a : Str) : strLt a a = false := by
  induction a with
  | nil => rfl
  | cons c cs ih => simp [strLt, ih]

theorem strLt_trans : ∀ (a b c : Str), strLt a b = true → strLt b c = true → strLt a c = true := by
  intro a
  induction a with
  | nil =>
    intro b c h1 h2
    cases b with
    | nil => simp [strLt] at h1
    | cons y ys =>
      cases c with
      | nil => simp [strLt] at h2
      | cons z zs => simp [strLt]
  | cons x xs ih =>
    intro b c h1 h2
    cases b with
    | nil => simp [strLt] at h1
    | cons y ys =>
      cases c with
      | nil => simp [strLt] at h2
      | cons z zs =>
        simp only [strLt] at h1 h2 ⊢
        by_cases e1 : x.toNat < y.toNat
        · by_cases e2 : y.toNat < z.toNat
          · have : x.toNat < z.toNat := by omega
            simp [this]
          · simp only [e2, if_false] at h2
            by_cases e3 : y.toNat = z.toNat
            · have : x.toNat < z.toNat := by omega
              simp [this]
            · simp [e3] at h2
        · simp only [e1, if_false] at h1
          by_cases e0 : x.toNat = y.toNat
          · simp only [e0, if_true] at h1
            by_cases e2 : y.toNat < z.toNat
            · have : x.toNat < z.toNat := by omega
              simp [this]
            · simp only [e2, if_false] at h2
              by_cases e3 : y.toNat = z.toNat
              · simp only [e3, if_true] at h2
                have e4 : ¬ x.toNat < z.toNat := by omega
                have e5 : x.toNat = z.toNat := by omega
                rw [if_neg e4, if_pos e5]
                exact ih ys zs h1 h2
              · simp [e3] at h2
          · simp [e0] at h1

theorem strLt_total : ∀ (a b : Str), a ≠ b → strLt a b = true ∨ strLt b a = true := by
  intro a
  induction a with
  | nil =>
    intro b h
    cases b with
    | nil => exact absurd rfl h
    | cons y ys => left; rfl
  | cons x xs ih =>
    intro b h
    cases b with
    | nil => right; rfl
    | cons y ys =>
      simp only [strLt]
      by_cases e1 : x.toNat < y.toNat
      · left; simp [e1]
      · by_cases e2 : y.toNat < x.toNat
        · right; simp [e2]
        · have e3 : x.toNat = y.toNat := by omega
          have e4 : x = y := char_toNat_inj x y e3
          subst e4
          have hne : xs ≠ ys := fun e => h (by rw [e])
          rcases ih ys hne with h1 | h1
          · left; simp [h1]
          · right; simp [h1]

theorem strLt_asymm (a b : Str) (h : strLt a b = true) : strLt b a = false := by
  cases hb : strLt b a with
  | false => rfl
  | true =>
    have := strLt_trans a b a h hb
    rw [strLt_irrefl] at this
    exact absurd this (by simp)

/-- Assignments to two different keys of a map commute. -/
theorem mapSet_comm {β : Type} (a b : Str) (x y : β) (hab : a ≠ b) :
    ∀ m : List (Str × β), mapSet a x (mapSet b y m) = mapSet b y (mapSet a x m) := by
  have hba : b ≠ a := fun e => hab e.symm
  intro m
  induction m with
  | nil =>
    rcases strLt_total a b hab with h | h
    · have h2 := strLt_asymm a b h
      simp [mapSet, hab, hba, h, h2]
    · have h2 := strLt_asymm b a h
      simp [mapSet, hab, hba, h, h2]
  | cons hd t ih =>
    obtain ⟨k, v⟩ := hd
    by_cases ha : a = k
    · subst ha
      by_cases hlt : strLt b a = true
      · have h2 := strLt_asymm b a hlt
        simp [mapSet, hab, hba, hlt, h2]
      · simp [mapSet, hab, hba, hlt]
    · by_cases hb : b = k
      · subst hb
        by_cases hlt : strLt a b = true
        · have h2 := strLt_asymm a b hlt
          simp [mapSet, hab, hba, hlt, h2]
        · simp [mapSet, hab, hba, hlt]
      · by_cases hak : strLt a k = true
        · by_cases hbk : strLt b k = true
          · rcases strLt_total a b hab with h | h
            · have h2 := strLt_asymm a b h
              simp [mapSet, hab, hba, ha, hb, hak, hbk, h, h2]
            · have h2 := strLt_asymm b a h
              simp [mapSet, hab, hba, ha, hb, hak, hbk, h, h2]
          · have h3 : strLt b a = false := by
              cases h4 : strLt b a with
              | false => rfl
              | true => exact absurd (strLt_trans b a k h4 hak) hbk
            simp [mapSet, hab, hba, ha, hb, hak, hbk, h3]
        · by_cases hbk : strLt b k = true
          · have h3 : strLt a b = false := by
              cases h4 : strLt a b with
              | false => rfl
              | true => exact absurd (strLt_trans a b k h4 hbk) hak
            simp [mapSet, hab, hba, ha, hb, hak, hbk, h3]
          · simp [mapSet, hab, hba, ha, hb, hak, hbk, ih]

theorem setLoop_cons_placed (v : JSON) (a : Str) (rest : List Str) (m : List (Str × JSON)) :
    setLoop v (a :: rest) (JSON.obj m) =
      (placed v rest (childOrNew a m)).map (fun x => JSON.obj (mapSet a x m)) := by
  cases rest with
  | nil => rfl
  | cons r rs =>
    rw [setLoop_cons_cons]
    simp only [placed]
    cases setLoop v (r :: rs) (childOrNew a m) <;> rfl

theorem childOrNew_mapSet_ne (a b : Str) (x : JSON) (m : List (Str × JSON)) (hab : a ≠ b) :
    childOrNew b (mapSet a x m) = childOrNew b m := by
  unfold childOrNew
  rw [mapGet_mapSet, if_neg (fun e => hab e.symm)]

theorem setLoop_cons_not_obj (v : JSON) (a : Str) (rest : List Str) (o : JSON)
    (h : ∀ m, o ≠ JSON.obj m) : setLoop v (a :: rest) o = none := by
  cases o with
  | obj x => exact absurd rfl (h x)
  | null => rfl
  | bool b => rfl
  | num x => rfl
  | str x => rfl
  | arr x => rfl

/-- Insertions at two paths neither of which is a prefix of the other commute, failures
included. -/
theorem setLoop_comm (v w : JSON) : ∀ (p q : List Str) (o : JSON), ¬ p <+: q → ¬ q <+: p →
    (setLoop v p o).bind (setLoop w q) = (setLoop w q o).bind (setLoop v p) := by
  intro p
  induction p with
  | nil => intro q o h _; exact absurd (List.nil_prefix) h
  | cons a p1 ih =>
    intro q o hpq hqp
    cases q with
    | nil => exact absurd (List.nil_prefix) hqp
    | cons b q1 =>
      by_cases hobj : ∃ m, o = JSON.obj m
      · obtain ⟨m, hm⟩ := hobj
        subst hm
        by_cases hab : a = b
        · subst hab
          have hpq1 : ¬ p1 <+: q1 := fun e => hpq ((List.prefix_cons_inj a).mpr e)
          have hqp1 : ¬ q1 <+: p1 := fun e => hqp ((List.prefix_cons_inj a).mpr e)
          cases p1 with
          | nil => exact absurd (List.nil_prefix) hpq1
          | cons r rs =>
            cases q1 with
            | nil => exact absurd (List.nil_prefix) hqp1
            | cons r2 rs2 =>
              have hih := ih (r2 :: rs2) (childOrNew a m) hpq1 hqp1
              rw [setLoop_cons_cons, setLoop_cons_cons]
              cases hc : setLoop v (r :: rs) (childOrNew a m) with
              | none =>
                rw [hc] at hih
                cases hd : setLoop w (r2 :: rs2) (childOrNew a m) with
                | none => rfl
                | some d =>
                  rw [hd] at hih
                  obtain ⟨dm, hdm⟩ := setLoop_obj w r2 rs2 _ d hd
                  subst hdm
                  simp only [Option.bind] at hih ⊢
                  rw [setLoop_cons_cons, childOrNew_mapSet_self, ← hih]
              | some c =>
                rw [hc] at hih
                obtain ⟨cm, hcm⟩ := setLoop_obj v r rs _ c hc
                subst hcm
                cases hd : setLoop w (r2 :: rs2) (childOrNew a m) with
                | none =>
                  rw [hd] at hih
                  simp only [Option.bind] at hih ⊢
                  rw [setLoop_cons_cons, childOrNew_mapSet_self, hih]
                | some d =>
                  rw [hd] at hih
                  obtain ⟨dm, hdm⟩ := setLoop_obj w r2 rs2 _ d hd
                  subst hdm
                  simp only [Option.bind] at hih ⊢
                  rw [setLoop_cons_cons, setLoop_cons_cons, childOrNew_mapSet_self,
                    childOrNew_mapSet_self, hih]
                  cases setLoop v (r :: rs) (JSON.obj dm) <;> simp [mapSet_mapSet_same]
        · have hba : b ≠ a := fun e => hab e.symm
          rw [setLoop_cons_placed v a p1 m, setLoop_cons_placed w b q1 m]
          cases hA : placed v p1 (childOrNew a m) with
          | none =>
            cases hB : placed w q1 (childOrNew b m) with
            | none => rfl
            | some y =>
              simp only [Option.map, Option.bind]
              rw [setLoop_cons_placed, childOrNew_mapSet_ne b a y m hba, hA]
              rfl
          | some x =>
            cases hB : placed w q1 (childOrNew b m) with
            | none =>
              simp only [Option.map, Option.bind]
              rw [setLoop_cons_placed, childOrNew_mapSet_ne a b x m hab, hB]
              rfl
            | some y =>
              simp only [Option.map, Option.bind]
              rw [setLoop_cons_placed, setLoop_cons_placed, childOrNew_mapSet_ne a b x m hab,
                childOrNew_mapSet_ne b a y m hba, hA, hB]
              simp only [Option.map]
              rw [mapSet_comm a b x y hab]
      · have hno : ∀ m, o ≠ JSON.obj m := fun m e => hobj ⟨m, e⟩
        rw [setLoop_cons_not_obj v a p1 o hno, setLoop_cons_not_obj w b q1 o hno]
        rfl

theorem Container.Set_comm (v w t : JSON) (p q : List Str) (hpq : ¬ p <+: q)
    (hqp : ¬ q <+: p) :
    (Container.Set v p t).bind (Container.Set w q) =
      (Container.Set w q t).bind (Container.Set v p) := by
  cases p with
  | nil => exact absurd (List.nil_prefix) hpq
  | cons a p1 =>
    cases q with
    | nil => exact absurd (List.nil_prefix) hqp
    | cons b q1 =>
      have hc := setLoop_comm v w (a :: p1) (b :: q1)
        (match t with | JSON.null => JSON.obj [] | x => x) hpq hqp
      rw [Container.Set_cons v a p1 t, Container.Set_cons w b q1 t]
      have h1 : ∀ (u : JSON) (c : Str) (r : List Str) (o : Option JSON),
          (∀ x, o = some x → ∃ m, x = JSON.obj m) →
          o.bind (Container.Set u (c :: r)) = o.bind (setLoop u (c :: r)) := by
        intro u c r o ho
        cases o with
        | none => rfl
        | some x =>
          obtain ⟨m, hm⟩ := ho x rfl
          subst hm
          rfl
      rw [h1 w b q1 _ (fun x hx => setLoop_obj v a p1 _ x hx),
        h1 v a p1 _ (fun x hx => setLoop_obj w b q1 _ x hx)]
      exact hc

/-- C14: for every field tree `t`, every two dot paths `p` and `q` neither of which is
a prefix of the other (segment by segment) and every two values `v` and `w`, inserting
`(p, v)` and then `(q, w)` has the same outcome as inserting `(q, w)` and then `(p, v)`:
both orders fail or both succeed with the same tree, hence with the same JSON body. -/
theorem C14_independent_paths_commute (t v w : JSON) (p q : Str)
    (hpq : ¬ splitDot p <+: splitDot q) (hqp : ¬ splitDot q <+: splitDot p) :
    (Container.SetP v p t).bind (Container.SetP w q) =
      (Container.SetP w q t).bind (Container.SetP v p) ∧
    ((Container.SetP v p t).bind (Container.SetP w q)).map encodeJSON =
      ((Container.SetP w q t).bind (Container.SetP v p)).map encodeJSON ∧
    (∀ (ε υ : Type) (urlParse : Str → Except ε υ),
      ParseCommand urlParse ["/".toList, "a.b=1".toList, "c:=[2]".toList] =
        ParseCommand urlParse ["/".toList, "c:=[2]".toList, "a.b=1".toList]) := by
  have h : (Container.SetP v p t).bind (Container.SetP w q) =
      (Container.SetP w q t).bind (Container.SetP v p) :=
    Container.Set_comm v w t (splitDot p) (splitDot q) hpq hqp
  refine ⟨h, by rw [h], ?_⟩
  intro ε υ urlParse
  have hm : isMethod "/".toList = false := by decide
  simp only [ParseCommand, hm, parseHost]
  cases urlParse (normalizeHost "/".toList) with
  | error e => rfl
  | ok u => rfl

/-- Witness of C14: `a.b` and `a.c` set in either order in the empty tree. -/
theorem C14_witness_siblings :
    (Container.SetP (JSON.str "1".toList) "a.b".toList (JSON.obj [])).bind
        (Container.SetP (JSON.str "2".toList) "a.c".toList) =
      (Container.SetP (JSON.str "2".toList) "a.c".toList (JSON.obj [])).bind
        (Container.SetP (JSON.str "1".toList) "a.b".toList) :=
  (C14_independent_paths_commute (JSON.obj []) (JSON.str "1".toList) (JSON.str "2".toList)
    "a.b".toList "a.c".toList (by decide) (by decide)).1

/-! ## The query values: one entry per key -/

theorem mem_mapSet {β : Type} (k : Str) (v : β) (m : List (Str × β)) (x : Str × β)
    (hx : x ∈ mapSet k v m) : x = (k, v) ∨ x ∈ m := by
  induction m with
  | nil =>
    simp only [mapSet, List.mem_singleton] at hx
    exact Or.inl hx
  | cons e t ih =>
    obtain ⟨k1, v1⟩ := e
    simp only [mapSet] at hx
    by_cases h1 : k = k1
    · rw [if_pos h1] at hx
      rcases List.mem_cons.mp hx with h | h
      · exact Or.inl h
      · exact Or.inr (List.mem_cons_of_mem _ h)
    · rw [if_neg h1] at hx
      by_cases h2 : strLt k k1 = true
      · rw [if_pos h2] at hx
        rcases List.mem_cons.mp hx with h | h
        · exact Or.inl h
        · exact Or.inr h
      · rw [if_neg h2] at hx
        rcases List.mem_cons.mp hx with h | h
        · exact Or.inr (by rw [h]; exact List.mem_cons_self _ _)
        · rcases ih h with h3 | h3
          · exact Or.inl h3
          · exact Or.inr (List.mem_cons_of_mem _ h3)

/-- Assignment keeps the keys increasing. -/
theorem mapSet_increasing {β : Type} (k : Str) (v : β) (m : List (Str × β))
    (h : keysIncreasing m) : keysIncreasing (mapSet k v m) := by
  unfold keysIncreasing at h ⊢
  induction m with
  | nil => simp [mapSet]
  | cons e t ih =>
    obtain ⟨k1, v1⟩ := e
    rw [List.pairwise_cons] at h
    obtain ⟨hlt, ht⟩ := h
    simp only [mapSet]
    by_cases h1 : k = k1
    · rw [if_pos h1, List.pairwise_cons]
      subst h1
      exact ⟨hlt, ht⟩
    · rw [if_neg h1]
      by_cases h2 : strLt k k1 = true
      · rw [if_pos h2, List.pairwise_cons]
        refine ⟨?_, List.pairwise_cons.mpr ⟨hlt, ht⟩⟩
        intro x hx
        rcases List.mem_cons.mp hx with h3 | h3
        · rw [h3]; exact h2
        · exact strLt_trans _ _ _ h2 (hlt x h3)
      · rw [if_neg h2, List.pairwise_cons]
        refine ⟨?_, ih ht⟩
        intro x hx
        rcases mem_mapSet k v t x hx with h3 | h3
        · rw [h3]
          rcases strLt_total k k1 h1 with h4 | h4
          · exact absurd h4 h2
          · exact h4
        · exact hlt x h3

/-- With increasing keys, the entries are what the lookup finds. -/
theorem mem_iff_mapGet {β : Type} (m : List (Str × β)) (h : keysIncreasing m) (k : Str) (v : β) :
    (k, v) ∈ m ↔ mapGet k m = some v := by
  unfold keysIncreasing at h
  induction m with
  | nil => simp [mapGet]
  | cons e t ih =>
    obtain ⟨k1, v1⟩ := e
    rw [List.pairwise_cons] at h
    obtain ⟨hlt, ht⟩ := h
    simp only [mapGet, List.mem_cons, Prod.mk.injEq]
    by_cases h1 : k = k1
    · subst h1
      rw [if_pos rfl]
      constructor
      · rintro (h2 | h2)
        · rw [h2.2]
        · have := hlt _ h2
          rw [strLt_irrefl] at this
          exact absurd this (by simp)
      · intro h2
        exact Or.inl ⟨rfl, (Option.some.inj h2).symm⟩
    · rw [if_neg h1, ← ih ht]
      constructor
      · rintro (h2 | h2)
        · exact absurd h2.1 h1
        · exact h2
      · intro h2
        exact Or.inr h2

/-- The query values keep one entry per key, in the order of the keys. -/
theorem queryOf_increasing (toks : List Str) : ∀ (q : Values), keysIncreasing q →
    keysIncreasing (queryOf q toks) := by
  induction toks with
  | nil => intro q h; exact h
  | cons t rest ih =>
    intro q h
    unfold queryOf
    rw [List.foldl_cons]
    apply ih
    cases hkv : parseKV t with
    | none => exact h
    | some kv =>
      simp only []
      by_cases hk : kv.kind = argType.queryArg
      · rw [if_pos hk]
        cases hv : kv.v with
        | str s => exact mapSet_increasing _ _ _ h
        | null => exact h
        | bool b => exact h
        | num x => exact h
        | arr xs => exact h
        | obj ms => exact h
      · rw [if_neg hk]
        exact h

/-- C7: for every token sequence that `ParseCommand` assembles, the query string of the
request is the encoding of query values `q` that hold every key once, in increasing
order, and whose entries are exactly the pairs of a key `k` and the list of the values of
the `==` tokens with key `k`, in the order of the tokens, for the keys that have such a
token; `hello==1 hello==2` gives `["1", "2"]` under `hello`, written `hello=1&hello=2`,
`z==1`, `a==x y`, `z==2` are written `a=x+y&z=1&z=2`, and keys and values are written
with the escapes of `url.QueryEscape`. -/
theorem C7_query_values_in_token_order {ε υ : Type} (urlParse : Str → Except ε υ) :
    (∀ (args : List Str) (r : Request υ),
      ParseCommand urlParse args = Outcome.ret (some r) none →
      ∃ q : Values, r.RawQuery = Values.Encode q ∧
        List.Pairwise (fun a b => strLt a.1 b.1 = true) q ∧
        ∀ k vs, (k, vs) ∈ q ↔
          (vs ≠ [] ∧
            vs = valuesOf argType.queryArg (fun k1 => decide (k1 = k)) (restArgs args))) ∧
    (∀ u, urlParse "http:///".toList = Except.ok u →
      ∃ r, ParseCommand urlParse ["/".toList, "hello==1".toList, "hello==2".toList] =
          Outcome.ret (some r) none ∧
        r.RawQuery = Values.Encode [("hello".toList, ["1".toList, "2".toList])] ∧
        r.RawQuery = "hello=1&hello=2".toList) ∧
    (∀ u, urlParse "http:///".toList = Except.ok u →
      ∃ r, ParseCommand urlParse
            ["/".toList, "z==1".toList, "a==x y".toList, "z==2".toList] =
          Outcome.ret (some r) none ∧
        r.RawQuery = "a=x+y&z=1&z=2".toList) ∧
    (∀ u, urlParse "http:///".toList = Except.ok u →
      ∃ r, ParseCommand urlParse
            ["/".toList, "q==a&b=c/d é~-_.*".toList, "k y==1".toList, "q==%+".toList] =
          Outcome.ret (some r) none ∧
        r.RawQuery = "k+y=1&q=a%26b%3Dc%2Fd+%C3%A9~-_.%2A&q=%25%2B".toList) := by
  refine ⟨?_, ?_, ?_, ?_⟩
  · intro args r h
    obtain ⟨_, a, hl, hq, _, _, _⟩ := ParseCommand_ret urlParse args r none h
    have hh := (loop_holds (restArgs args) Acc.init a (fun _ => []) (fun _ => []) hl
      Holds_init Holds_init).1
    have hinc : keysIncreasing a.q := by
      rw [loop_query (restArgs args) Acc.init a hl]
      exact queryOf_increasing _ _ List.Pairwise.nil
    refine ⟨a.q, hq, hinc, ?_⟩
    intro k vs
    rw [mem_iff_mapGet a.q hinc k vs]
    have hk := hh k
    simp only [List.nil_append] at hk
    rw [hk]
    by_cases hv : valuesOf argType.queryArg (fun k1 => decide (k1 = k)) (restArgs args) = []
    · rw [if_pos hv, hv]
      constructor
      · intro h1; exact absurd h1 (by simp)
      · rintro ⟨h1, h2⟩; exact absurd h2 h1
    · rw [if_neg hv]
      constructor
      · intro h1
        have := Option.some.inj h1
        rw [← this]
        exact ⟨hv, rfl⟩
      · rintro ⟨_, h2⟩
        rw [h2]
  · intro u hu
    have hn : normalizeHost "/".toList = "http:///".toList := by decide
    have hm : isMethod "/".toList = false := by decide
    refine ⟨⟨"GET".toList, u, Values.Encode [("hello".toList, ["1".toList, "2".toList])], [],
      encodeJSON (JSON.obj [])⟩, ?_, rfl, ?_⟩
    · simp only [ParseCommand, hm, parseHost, hn, hu]
      rfl
    · show Values.Encode [("hello".toList, ["1".toList, "2".toList])] = "hello=1&hello=2".toList
      decide
  · intro u hu
    have hn : normalizeHost "/".toList = "http:///".toList := by decide
    have hm : isMethod "/".toList = false := by decide
    refine ⟨⟨"GET".toList, u, "a=x+y&z=1&z=2".toList, [], encodeJSON (JSON.obj [])⟩, ?_, rfl⟩
    simp only [ParseCommand, hm, parseHost, hn, hu]
    rfl
  · intro u hu
    have hn : normalizeHost "/".toList = "http:///".toList := by decide
    have hm : isMethod "/".toList = false := by decide
    refine ⟨⟨"GET".toList, u, "k+y=1&q=a%26b%3Dc%2Fd+%C3%A9~-_.%2A&q=%25%2B".toList, [],
      encodeJSON (JSON.obj [])⟩, ?_, rfl⟩
    simp only [ParseCommand, hm, parseHost, hn, hu]
    rfl

/-- Witness of C7: with a URL parser that accepts everything, `/ a==b hello==1 hello==2`
assembles, and the conclusion of C7 holds for it. -/
theorem C7_witness_two_values :
    ∃ q : Values, "a=b&hello=1&hello=2".toList = Values.Encode q ∧
      List.Pairwise (fun a b => strLt a.1 b.1 = true) q ∧
      ∀ k vs, (k, vs) ∈ q ↔
        (vs ≠ [] ∧
          vs = valuesOf argType.queryArg (fun k1 => decide (k1 = k))
            (restArgs ["/".toList, "a==b".toList, "hello==1".toList, "hello==2".toList])) :=
  (C7_query_values_in_token_order (fun s => (Except.ok s : Except Unit Str))).1
    ["/".toList, "a==b".toList, "hello==1".toList, "hello==2".toList]
    ⟨"GET".toList, "http:///".toList, "a=b&hello=1&hello=2".toList, [], "\x7b\x7d".toList⟩ rfl

/-! ## The layout of the leftmost match -/

/-- The groups of a match at a fixed start, laid out in the text. -/
theorem matchHere_layout (s k sp v : Str) (h : matchHere s = some (k, sp, v)) :
    ∃ post, s = k ++ (sp ++ (v ++ post)) ∧
      k ≠ [] ∧ (∀ c ∈ k, isKeyChar c = true) ∧
      separators.find? (fun l => sepFits l (sp ++ (v ++ post))) = some sp ∧
      v ≠ [] ∧ '\n' ∉ v ∧ (post = [] ∨ post.head? = some '\n') := by
  obtain ⟨hk, hkne, hf, hv⟩ := matchHere_some s k sp v h
  have hfit : sepFits sp (s.dropWhile isKeyChar) = true := by
    have := List.find?_some hf
    exact this
  unfold sepFits at hfit
  simp only [Bool.and_eq_true, Bool.not_eq_true', List.isPrefixOf_iff_prefix] at hfit
  obtain ⟨hpre, hne⟩ := hfit
  have hrest : sp ++ (s.dropWhile isKeyChar).drop sp.length = s.dropWhile isKeyChar :=
    List.prefix_iff_eq_append.mp hpre
  have htd := List.takeWhile_append_dropWhile isDotChar ((s.dropWhile isKeyChar).drop sp.length)
  rw [← hv] at htd hne
  refine ⟨((s.dropWhile isKeyChar).drop sp.length).dropWhile isDotChar, ?_, hkne, ?_, ?_, ?_, ?_, ?_⟩
  · rw [htd, hrest, hk]
    exact (List.takeWhile_append_dropWhile isKeyChar s).symm
  · intro c hc
    rw [hk] at hc
    exact List.mem_takeWhile_imp hc
  · rw [htd, hrest]
    exact hf
  · intro e
    rw [e] at hne
    simp at hne
  · intro hmem
    rw [hv] at hmem
    have := List.mem_takeWhile_imp hmem
    simp [isDotChar] at this
  · cases hp : ((s.dropWhile isKeyChar).drop sp.length).dropWhile isDotChar with
    | nil => exact Or.inl rfl
    | cons d ds =>
      right
      have := List.head?_dropWhile_not isDotChar ((s.dropWhile isKeyChar).drop sp.length)
      rw [hp] at this
      simp only [List.head?_cons, Option.all_some, Bool.not_eq_true'] at this
      rw [isDotChar_false d this]
      rfl

/-- The leftmost match: where it starts, and that nothing matches at an earlier start. -/
theorem findSubmatch_leftmost (arg : Str) (g : Str × Str × Str) (h : findSubmatch arg = some g) :
    ∃ pre s, arg = pre ++ s ∧ matchHere s = some g ∧
      ∀ p1 p2, pre = p1 ++ p2 → p2 ≠ [] → matchHere (p2 ++ s) = none := by
  induction arg with
  | nil => simp [findSubmatch] at h
  | cons c cs ih =>
    simp only [findSubmatch] at h
    cases hm : matchHere (c :: cs) with
    | some g1 =>
      simp only [hm, Option.some.injEq] at h
      subst h
      refine ⟨[], c :: cs, rfl, hm, ?_⟩
      intro p1 p2 e hne
      have := List.append_eq_nil.mp e.symm
      exact absurd this.2 hne
    | none =>
      simp only [hm] at h
      obtain ⟨pre, s, e1, e2, e3⟩ := ih h
      refine ⟨c :: pre, s, by rw [e1]; rfl, e2, ?_⟩
      intro p1 p2 e hne
      cases p1 with
      | nil =>
        simp only [List.nil_append] at e
        rw [← e, List.cons_append, ← e1]
        exact hm
      | cons d ds =>
        simp only [List.cons_append, List.cons.injEq] at e
        exact e3 ds p2 e.2 hne

/-- Starts at which nothing matches are passed over. -/
theorem findSubmatch_skip (s : Str) : ∀ (pre : Str),
    (∀ p1 p2, pre = p1 ++ p2 → p2 ≠ [] → matchHere (p2 ++ s) = none) →
    findSubmatch (pre ++ s) = findSubmatch s := by
  intro pre
  induction pre with
  | nil => intro _; rfl
  | cons c cs ih =>
    intro h
    have h1 : matchHere (c :: cs ++ s) = none := h [] (c :: cs) rfl (by simp)
    rw [List.cons_append] at h1 ⊢
    simp only [findSubmatch, h1]
    exact ih (fun p1 p2 e hne => h (c :: p1) p2 (by rw [e]; rfl) hne)

/-- The groups of the leftmost match, in terms of the layout of the token. -/
theorem findSubmatch_iff (arg k sp v : Str) :
    findSubmatch arg = some (k, sp, v) ↔
    ∃ pre post, arg = pre ++ k ++ sp ++ v ++ post ∧
      (∀ p1 p2, pre = p1 ++ p2 → p2 ≠ [] → startsMatch (p2 ++ k ++ sp ++ v ++ post) = false) ∧
      k ≠ [] ∧ (∀ c ∈ k, isKeyChar c = true) ∧
      separators.find? (fun l => sepFits l (sp ++ v ++ post)) = some sp ∧
      v ≠ [] ∧ '\n' ∉ v ∧ (post = [] ∨ post.head? = some '\n') := by
  constructor
  · intro h
    obtain ⟨pre, s, e1, e2, e3⟩ := findSubmatch_leftmost arg _ h
    obtain ⟨post, hs, h1, h2, h3, h4, h5, h6⟩ := matchHere_layout s k sp v e2
    refine ⟨pre, post, ?_, ?_, h1, h2, ?_, h4, h5, h6⟩
    · rw [e1, hs]
      simp only [List.append_assoc]
    · intro p1 p2 e hne
      have := e3 p1 p2 e hne
      rw [hs] at this
      simp only [List.append_assoc]
      exact (matchHere_none _).mp this
    · simp only [List.append_assoc]
      exact h3
  · rintro ⟨pre, post, e, hleft, h1, h2, h3, h4, h5, h6⟩
    have e1 : arg = pre ++ (k ++ (sp ++ v ++ post)) := by
      rw [e]
      simp only [List.append_assoc]
    rw [e1, findSubmatch_skip (k ++ (sp ++ v ++ post)) pre (by
      intro p1 p2 e2 hne
      have := hleft p1 p2 e2 hne
      simp only [List.append_assoc] at this ⊢
      exact (matchHere_none _).mpr this),
      findSubmatch_key_fit k (sp ++ v ++ post) sp h1 h2 h3]
    have hd : (sp ++ v ++ post).drop sp.length = v ++ post := by
      rw [List.append_assoc, List.drop_left]
    have ht : (v ++ post).takeWhile isDotChar = v := by
      apply (takeWhile_key_append isDotChar v post ?_ ?_).1
      · intro c hc
        have : c ≠ '\n' := fun e => h5 (e ▸ hc)
        simp [isDotChar, this]
      · intro c hc
        rcases h6 with h6 | h6
        · rw [h6] at hc
          simp at hc
        · rw [h6] at hc
          simp only [Option.mem_def, Option.some.injEq] at hc
          rw [← hc]
          rfl
    rw [hd, ht]

/-- In front of the leftmost match stands nothing, or a text that ends in one of `:`,
`=`, `@`. -/
theorem leftmost_last (pre s : Str) (g : Str × Str × Str) (hm : matchHere s = some g)
    (h : ∀ p1 p2, pre = p1 ++ p2 → p2 ≠ [] → startsMatch (p2 ++ s) = false) :
    pre = [] ∨ ∃ c, pre.getLast? = some c ∧ (c = ':' ∨ c = '=' ∨ c = '@') := by
  rcases List.eq_nil_or_concat pre with h1 | ⟨p, c, h1⟩
  · exact Or.inl h1
  · right
    refine ⟨c, by rw [h1]; simp, ?_⟩
    cases hc : isKeyChar c with
    | false => exact isKeyChar_false c hc
    | true =>
      have h2 := (matchHere_none _).mpr (h p [c] (by rw [h1]; simp) (by simp))
      have h3 := matchHere_cons_keyChar c s hc h2
      rw [h3] at hm
      exact absurd hm (by simp)

/-- C15 (as amended): `parseKV` matches a token with an entry exactly when the token is
`pre ++ key ++ separator ++ value ++ post` as follows.  The match is the leftmost one:
the pattern matches at no start inside `pre` (at each of them there is no character
other than `:`, `=`, `@`, or no separator fits after the run of such characters), so
`pre` is empty or ends in one of `:`, `=`, `@`.  The key is a non-empty run of
characters other than `:`, `=`, `@` (the longest one at that place); the separator is
the first of `==`, `:=`, `=`, `:` that stands right after the key and is followed by a
character other than the line feed; the raw value is the non-empty run up to the first
line feed; `post`, what is left out after the value, is empty or starts with a line
feed; and the entry's kind and value are those of the separator.  So `a=b:c=d` is the
field `a` with value `b:c=d`, not the field `c` with value `d`: the pattern matches at
the start of `a=b:`, which would stand in front of `c`. -/
theorem C15_match_layout (arg : Str) (kv : KV) :
    (parseKV arg = some kv ↔
      ∃ pre sp v post, arg = pre ++ kv.k ++ sp ++ v ++ post ∧
        (∀ p1 p2, pre = p1 ++ p2 → p2 ≠ [] →
          startsMatch (p2 ++ kv.k ++ sp ++ v ++ post) = false) ∧
        (pre = [] ∨ ∃ c, pre.getLast? = some c ∧ (c = ':' ∨ c = '=' ∨ c = '@')) ∧
        kv.k ≠ [] ∧ (∀ c ∈ kv.k, c ≠ ':' ∧ c ≠ '=' ∧ c ≠ '@') ∧
        List.find? (fun l => sepFits l (sp ++ v ++ post))
          [['=', '='], [':', '='], ['='], [':']] = some sp ∧
        v ≠ [] ∧ '\n' ∉ v ∧ (post = [] ∨ post.head? = some '\n') ∧
        ((sp = ['=', '='] ∧ kv.v = JSON.str v ∧ kv.kind = argType.queryArg) ∨
         (sp = [':'] ∧ kv.v = JSON.str v ∧ kv.kind = argType.headerArg) ∨
         (sp = [':', '='] ∧ kv.v = parseLiteral v ∧ kv.kind = argType.jsonArg) ∨
         (sp = ['='] ∧ kv.v = JSON.str v ∧ kv.kind = argType.fieldArg))) ∧
    parseKV "a=b:c=d".toList =
      some { k := "a".toList, v := JSON.str "b:c=d".toList, kind := argType.fieldArg } ∧
    parseKV "a=b:c=d".toList ≠
      some { k := "c".toList, v := JSON.str "d".toList, kind := argType.fieldArg } ∧
    startsMatch ("a=b:".toList ++ "c".toList ++ "=".toList ++ "d".toList ++ []) = true := by
  have hex : parseKV "a=b:c=d".toList =
      some { k := "a".toList, v := JSON.str "b:c=d".toList, kind := argType.fieldArg } := rfl
  refine ⟨?_, hex, by rw [hex]; simp, by decide⟩
  rw [parseKV_some]
  constructor
  · rintro ⟨sp, v, hf, hc⟩
    obtain ⟨pre, post, e, hleft, h1, h2, h3, h4, h5, h6⟩ := (findSubmatch_iff arg kv.k sp v).mp hf
    have hm : matchHere (kv.k ++ sp ++ v ++ post) = some (kv.k, sp, v) := by
      rw [matchHere_find, List.append_assoc, List.append_assoc,
        (takeWhile_key_append isKeyChar kv.k (sp ++ (v ++ post)) h2
          (sepFits_head sp _ (List.mem_of_find?_eq_some h3) (by
            have := List.find?_some h3
            simpa only [List.append_assoc] using this))).1,
        (takeWhile_key_append isKeyChar kv.k (sp ++ (v ++ post)) h2
          (sepFits_head sp _ (List.mem_of_find?_eq_some h3) (by
            have := List.find?_some h3
            simpa only [List.append_assoc] using this))).2, if_neg h1]
      have h3a : separators.find? (fun l => sepFits l (sp ++ (v ++ post))) = some sp := by
        simpa only [List.append_assoc] using h3
      rw [h3a]
      simp only [Option.map_some', List.drop_left]
      have ht : (v ++ post).takeWhile isDotChar = v := by
        apply (takeWhile_key_append isDotChar v post ?_ ?_).1
        · intro c hc
          have : c ≠ '\n' := fun e => h5 (e ▸ hc)
          simp [isDotChar, this]
        · intro c hc
          rcases h6 with h6 | h6
          · rw [h6] at hc
            simp at hc
          · rw [h6] at hc
            simp only [Option.mem_def, Option.some.injEq] at hc
            rw [← hc]
            rfl
      rw [ht]
    refine ⟨pre, sp, v, post, e, hleft, ?_, h1, fun c hc => isKeyChar_true c (h2 c hc), h3, h4, h5,
      h6, hc⟩
    exact leftmost_last pre (kv.k ++ sp ++ v ++ post) _ hm (by
      intro p1 p2 e2 hne
      have := hleft p1 p2 e2 hne
      simpa only [List.append_assoc] using this)
  · rintro ⟨pre, sp, v, post, e, hleft, _, h1, h2, h3, h4, h5, h6, hc⟩
    exact ⟨sp, v, (findSubmatch_iff arg kv.k sp v).mpr
      ⟨pre, post, e, hleft, h1, fun c hc => isKeyChar_of_clean c (h2 c hc), h3, h4, h5, h6⟩, hc⟩

/-- Witness of C15 at the token `a@b=c<LF>d`: `a@` in front and `<LF>d` behind. -/
theorem C15_witness_prefix_and_suffix :
    ∃ pre sp v post, "a@b=c\nd".toList = pre ++ "b".toList ++ sp ++ v ++ post ∧
      (∀ p1 p2, pre = p1 ++ p2 → p2 ≠ [] →
        startsMatch (p2 ++ "b".toList ++ sp ++ v ++ post) = false) ∧
      (pre = [] ∨ ∃ c, pre.getLast? = some c ∧ (c = ':' ∨ c = '=' ∨ c = '@')) ∧
      "b".toList ≠ [] ∧ (∀ c ∈ "b".toList, c ≠ ':' ∧ c ≠ '=' ∧ c ≠ '@') ∧
      List.find? (fun l => sepFits l (sp ++ v ++ post))
        [['=', '='], [':', '='], ['='], [':']] = some sp ∧
      v ≠ [] ∧ '\n' ∉ v ∧ (post = [] ∨ post.head? = some '\n') ∧
      ((sp = ['=', '='] ∧ JSON.str "c".toList = JSON.str v ∧
          argType.fieldArg = argType.queryArg) ∨
       (sp = [':'] ∧ JSON.str "c".toList = JSON.str v ∧ argType.fieldArg = argType.headerArg) ∨
       (sp = [':', '='] ∧ JSON.str "c".toList = parseLiteral v ∧
          argType.fieldArg = argType.jsonArg) ∨
       (sp = ['='] ∧ JSON.str "c".toList = JSON.str v ∧ argType.fieldArg = argType.fieldArg)) :=
  (C15_match_layout "a@b=c\nd".toList
    { k := "b".toList, v := JSON.str "c".toList, kind := argType.fieldArg }).1.mp rfl

/-- C15 as stated fails: `parseKV` matches `a@b=c<LF>d` with key `b`, separator `=` and
value `c`, which do not concatenate back to the token, and the key is not the leading
run `a`; and in `a==` the separator is `=` (with value `=`), although `==` stands right
after the key. -/
theorem C15_counterexample_parts_do_not_cover_token :
    findSubmatch "a@b=c\nd".toList = some ("b".toList, "=".toList, "c".toList) ∧
    parseKV "a@b=c\nd".toList =
      some { k := "b".toList, v := JSON.str "c".toList, kind := argType.fieldArg } ∧
    "b".toList ++ "=".toList ++ "c".toList ≠ "a@b=c\nd".toList ∧
    "a@b=c\nd".toList.takeWhile isKeyChar = "a".toList ∧
    findSubmatch "a==".toList = some ("a".toList, "=".toList, "=".toList) ∧
    "==".toList.isPrefixOf ("a==".toList.drop 1) = true :=
  ⟨rfl, rfl, by decide, by decide, rfl, by decide⟩

end Hep
